import Mathlib

/-!
# A verification of the SuffixStack data structure

This file gives a shallow embedding, in Lean, of the `suffstack` C++ library
(`suffstack.hpp` / `suffstack.cc`): a stack of values represented as a sparse
list of interned perfect binary trees, one tree per set bit of the stack's
length, supporting logarithmic `append`, `truncate`, `has_suffix`, `back` and
reverse iteration against pre-indexed strings.

Modelling conventions:

* Machine sizes (`size_t`) are modelled by `Nat`.  All quantities involved are
  lengths of in-memory sequences, so overflow would require sizes of at least
  `2^63`; the embedding therefore uses exact natural arithmetic.
* Interned tree handles (`const node_or_leaf *`) are modelled structurally by
  an inductive tree type `Tr`, and handle comparison by structural equality.
  This is justified by the arena's canonicity guarantee, which is verified
  separately on an explicit arena model (`Arena` section below) where handles
  carry their arena identity.
* `nullptr` entries of a `trees` vector are modelled by `Option`: a vector
  slot is `Option Tr` with `none` for the null handle.
* Out-of-range vector reads, casts of a leaf pointer to `const node *`, and
  reads of a null slot where the algorithm needs a tree are undefined
  behaviour in the C++ source; the embedding models each of them as an
  explicit failure (an `Option.none` result of the operation).  The `truncate`
  left phase starts at `bit_no = to_deconstruct - 1`, which underflows when
  `to_deconstruct = 0`; that underflow is likewise modelled as a failure.
* Loops whose counter is not structurally decreasing are written with an
  explicit iteration bound chosen large enough to be unreachable (running out
  of the bound is also modelled as a failure), so that every definition
  reduces inside the kernel.
-/

namespace SuffStack

/-! ## Bit helpers: `the_bit`, `std::bit_width`, `std::countr_zero` -/

/-- `the_bit b = 1 << b` from the source. -/
def the_bit (b : Nat) : Nat := 1 <<< b

theorem the_bit_eq_pow (b : Nat) : the_bit b = 2 ^ b := by
  simp [the_bit, Nat.shiftLeft_eq, Nat.one_mul]

/-- Structural worker for `bit_width`; the first argument is an iteration
bound, always at least the second argument at call sites. -/
def bit_width_aux : Nat → Nat → Nat
  | _, 0 => 0
  | 0, _ + 1 => 1
  | fuel + 1, n + 1 => bit_width_aux fuel ((n + 1) / 2) + 1

/-- `std::bit_width`: number of bits needed to represent `n`
(`0` for `n = 0`, otherwise `log2 n + 1`). -/
def bit_width (n : Nat) : Nat := bit_width_aux n n

theorem bit_width_aux_eq {f₁ f₂ n : Nat} (h₁ : n ≤ f₁) (h₂ : n ≤ f₂) :
    bit_width_aux f₁ n = bit_width_aux f₂ n := by
  induction n using Nat.strong_induction_on generalizing f₁ f₂ with
  | _ n ih =>
    match n, f₁, f₂, h₁, h₂ with
    | 0, _, _, _, _ => simp [bit_width_aux]
    | n + 1, g₁ + 1, g₂ + 1, h₁, h₂ =>
      have hlt : (n + 1) / 2 < n + 1 := Nat.div_lt_self (Nat.succ_pos n) (by decide)
      simp only [bit_width_aux]
      exact congrArg (· + 1)
        (ih _ hlt (show (n + 1) / 2 ≤ g₁ by omega) (show (n + 1) / 2 ≤ g₂ by omega))

@[simp] theorem bit_width_zero : bit_width 0 = 0 := by simp [bit_width, bit_width_aux]

theorem bit_width_succ (n : Nat) :
    bit_width (n + 1) = bit_width ((n + 1) / 2) + 1 := by
  show bit_width_aux (n + 1) (n + 1) = _
  match n with
  | 0 => decide
  | n + 1 =>
    simp only [bit_width_aux]
    exact congrArg (· + 1)
      (bit_width_aux_eq (show (n + 2) / 2 ≤ n + 1 by omega) (Nat.le_refl _))

theorem bit_width_le {n k : Nat} : bit_width n ≤ k ↔ n < 2 ^ k := by
  induction n using Nat.strong_induction_on generalizing k with
  | _ n ih =>
    match n, k with
    | 0, k =>
      simp only [bit_width_zero, Nat.zero_le, true_iff]
      exact Nat.two_pow_pos k
    | n + 1, 0 =>
      rw [bit_width_succ]
      simp only [Nat.pow_zero]
      omega
    | n + 1, k + 1 =>
      rw [bit_width_succ, Nat.succ_le_succ_iff,
        ih ((n + 1) / 2) (Nat.div_lt_self (Nat.succ_pos n) (by decide))]
      rw [Nat.pow_succ]
      omega

theorem lt_two_pow_bit_width (n : Nat) : n < 2 ^ bit_width n :=
  bit_width_le.mp (Nat.le_refl _)

theorem two_pow_le_iff_lt_bit_width {n b : Nat} : 2 ^ b ≤ n ↔ b < bit_width n := by
  have h := @bit_width_le n b
  constructor
  · intro hle
    by_contra hb
    have : n < 2 ^ b := h.mp (by omega)
    omega
  · intro hlt
    by_contra hle
    have : bit_width n ≤ b := h.mpr (by omega)
    omega

theorem bit_width_pos {n : Nat} (h : n ≠ 0) : 0 < bit_width n := by
  have := two_pow_le_iff_lt_bit_width (n := n) (b := 0)
  simp only [Nat.pow_zero] at this
  exact this.mp (by omega)

theorem two_pow_pred_bit_width_le {n : Nat} (h : n ≠ 0) :
    2 ^ (bit_width n - 1) ≤ n :=
  two_pow_le_iff_lt_bit_width.mpr (by have := bit_width_pos h; omega)

theorem bit_width_mono {m n : Nat} (h : m ≤ n) : bit_width m ≤ bit_width n :=
  bit_width_le.mpr (Nat.lt_of_le_of_lt h (lt_two_pow_bit_width n))

theorem bit_width_two_pow (b : Nat) : bit_width (2 ^ b) = b + 1 := by
  have h1 : bit_width (2 ^ b) ≤ b + 1 :=
    bit_width_le.mpr (by
      have := Nat.pow_lt_pow_succ (a := 2) (by decide) (n := b)
      omega)
  have h2 : b < bit_width (2 ^ b) := two_pow_le_iff_lt_bit_width.mp (Nat.le_refl _)
  omega

theorem testBit_lt_bit_width {n b : Nat} (h : Nat.testBit n b = true) :
    b < bit_width n :=
  two_pow_le_iff_lt_bit_width.mp (Nat.testBit_implies_ge h)

theorem testBit_eq_false_of_bit_width_le {n b : Nat} (h : bit_width n ≤ b) :
    Nat.testBit n b = false :=
  Nat.testBit_lt_two_pow (Nat.lt_of_lt_of_le (lt_two_pow_bit_width n)
    (Nat.pow_le_pow_right (by decide) h))

/-- Structural worker for `ctz`, same bounding convention as
`bit_width_aux`. -/
def ctz_aux : Nat → Nat → Nat
  | _, 0 => 0
  | 0, _ + 1 => 0
  | fuel + 1, n + 1 => if (n + 1) % 2 = 1 then 0 else ctz_aux fuel ((n + 1) / 2) + 1

/-- `std::countr_zero` (callers in the source only apply it to nonzero
values; the value at `0` is never relied upon). -/
def ctz (n : Nat) : Nat := ctz_aux n n

theorem ctz_aux_eq {f₁ f₂ n : Nat} (h₁ : n ≤ f₁) (h₂ : n ≤ f₂) :
    ctz_aux f₁ n = ctz_aux f₂ n := by
  induction n using Nat.strong_induction_on generalizing f₁ f₂ with
  | _ n ih =>
    match n, f₁, f₂, h₁, h₂ with
    | 0, _, _, _, _ => simp [ctz_aux]
    | n + 1, g₁ + 1, g₂ + 1, h₁, h₂ =>
      have hlt : (n + 1) / 2 < n + 1 := Nat.div_lt_self (Nat.succ_pos n) (by decide)
      simp only [ctz_aux]
      rw [ih _ hlt (show (n + 1) / 2 ≤ g₁ by omega) (show (n + 1) / 2 ≤ g₂ by omega)]

theorem ctz_succ (n : Nat) :
    ctz (n + 1) = if (n + 1) % 2 = 1 then 0 else ctz ((n + 1) / 2) + 1 := by
  show ctz_aux (n + 1) (n + 1) = _
  match n with
  | 0 => decide
  | n + 1 =>
    simp only [ctz_aux]
    rw [ctz_aux_eq (show (n + 2) / 2 ≤ n + 1 by omega) (Nat.le_refl ((n + 2) / 2))]
    rfl

theorem div_pow_mod_two_eq_zero_of_dvd {n b : Nat} (h : 2 ^ (b + 1) ∣ n) :
    n / 2 ^ b % 2 = 0 := by
  obtain ⟨m, hm⟩ := h
  subst hm
  rw [Nat.pow_succ, Nat.mul_assoc, Nat.mul_div_cancel_left _ (Nat.pos_pow_of_pos _ (by decide))]
  omega

theorem ctz_spec (n : Nat) (h : n ≠ 0) :
    n % 2 ^ ctz n = 0 ∧ n / 2 ^ ctz n % 2 = 1 := by
  induction n using Nat.strong_induction_on with
  | _ n ih =>
    match n, h with
    | n + 1, _ =>
      rw [ctz_succ]
      by_cases hodd : (n + 1) % 2 = 1
      · simp [hodd, Nat.mod_one]
      · have hne : (n + 1) / 2 ≠ 0 := by omega
        have hlt : (n + 1) / 2 < n + 1 := Nat.div_lt_self (Nat.succ_pos n) (by decide)
        have ⟨ih1, ih2⟩ := ih _ hlt hne
        simp only [hodd, if_false]
        constructor
        · obtain ⟨m, hm⟩ := Nat.dvd_of_mod_eq_zero ih1
          set k := ctz ((n + 1) / 2) with hk
          have hX : n + 1 = 2 ^ k * 2 * m := by
            have h2 : n + 1 = 2 * ((n + 1) / 2) := by omega
            rw [h2, hm]
            ring
          rw [Nat.pow_succ, hX, Nat.mul_mod_right]
        · rw [Nat.pow_succ, Nat.mul_comm, ← Nat.div_div_eq_div_mul]
          exact ih2

theorem testBit_ctz {n : Nat} (h : n ≠ 0) : Nat.testBit n (ctz n) = true := by
  rw [Nat.testBit_to_div_mod]
  exact decide_eq_true (ctz_spec n h).2

theorem mod_two_pow_ctz {n : Nat} (h : n ≠ 0) : n % 2 ^ ctz n = 0 :=
  (ctz_spec n h).1

theorem mod_two_pow_eq_zero_of_le_ctz {n b : Nat} (h : n ≠ 0) (hb : b ≤ ctz n) :
    n % 2 ^ b = 0 := by
  have h1 := mod_two_pow_ctz h
  obtain ⟨m, hm⟩ := (Nat.pow_dvd_pow 2 hb).trans (Nat.dvd_of_mod_eq_zero h1)
  rw [hm, Nat.mul_mod_right]

/-- Characterisation of `ctz`: the unique position that is a set bit with all
lower bits clear. -/
theorem ctz_eq_iff {n b : Nat} (h : n ≠ 0) :
    ctz n = b ↔ n % 2 ^ b = 0 ∧ Nat.testBit n b = true := by
  constructor
  · rintro rfl
    exact ⟨mod_two_pow_ctz h, testBit_ctz h⟩
  · rintro ⟨h1, h2⟩
    rcases Nat.lt_trichotomy (ctz n) b with hlt | heq | hgt
    · exfalso
      have ht := testBit_ctz h
      rw [Nat.testBit_to_div_mod] at ht
      have hz : n / 2 ^ ctz n % 2 = 0 :=
        div_pow_mod_two_eq_zero_of_dvd
          ((Nat.pow_dvd_pow 2 hlt).trans (Nat.dvd_of_mod_eq_zero h1))
      simp [hz] at ht
    · exact heq
    · exfalso
      rw [Nat.testBit_to_div_mod] at h2
      have hz : n / 2 ^ b % 2 = 0 :=
        div_pow_mod_two_eq_zero_of_dvd
          ((Nat.pow_dvd_pow 2 hgt).trans (Nat.dvd_of_mod_eq_zero (mod_two_pow_ctz h)))
      simp [hz] at h2

theorem testBit_eq_false_of_lt_ctz {n b : Nat} (h : n ≠ 0) (hb : b < ctz n) :
    Nat.testBit n b = false := by
  rw [Nat.testBit_to_div_mod]
  have hz : n / 2 ^ b % 2 = 0 :=
    div_pow_mod_two_eq_zero_of_dvd
      ((Nat.pow_dvd_pow 2 hb).trans
        (Nat.dvd_of_mod_eq_zero (mod_two_pow_ctz h)))
  simp [hz]

theorem ctz_le_of_testBit {n b : Nat} (h : n ≠ 0) (hb : Nat.testBit n b = true) :
    ctz n ≤ b := by
  by_contra hlt
  rw [testBit_eq_false_of_lt_ctz h (by omega)] at hb
  exact Bool.false_ne_true hb

/-! ## Interned trees, modelled structurally

The C++ distinguishes leaves (values hidden in a pointer slot) from interned
internal `node`s; handle equality is pointer equality, which the arena's
canonicity makes coincide with structural equality (verified in the `Arena`
section below).  The stack algorithms are therefore embedded over a
structural tree type with structural equality for handle comparison. -/

/-- A `node_or_leaf` handle: a leaf carrying an inline value, or an internal
node (source `struct node`) with two children. -/
inductive Tr where
  | leaf (v : Nat)
  | node (lhs rhs : Tr)
deriving DecidableEq, Repr

namespace Tr

/-- Leaf values of a tree, left to right. -/
def leaves : Tr → List Nat
  | .leaf v => [v]
  | .node l r => leaves l ++ leaves r

/-- `t.isPerfect b`: `t` is a perfect tree of height `b`, hence with
`2 ^ b` leaves. -/
def isPerfect : Nat → Tr → Bool
  | 0, .leaf _ => true
  | 0, .node _ _ => false
  | _ + 1, .leaf _ => false
  | b + 1, .node l r => isPerfect b l && isPerfect b r

end Tr

/-- The perfect tree of height `b` over a leaf list of length `2 ^ b`
(the canonical result of pairwise interning). -/
def build : Nat → List Nat → Tr
  | 0, xs => .leaf (xs.headD 0)
  | b + 1, xs => .node (build b (xs.take (2 ^ b))) (build b (xs.drop (2 ^ b)))

theorem length_leaves_of_isPerfect {b : Nat} {t : Tr} (h : t.isPerfect b) :
    t.leaves.length = 2 ^ b := by
  induction b generalizing t with
  | zero =>
    match t, h with
    | .leaf v, _ => rfl
  | succ b ih =>
    match t, h with
    | .node l r, h =>
      simp only [Tr.isPerfect, Bool.and_eq_true] at h
      simp [Tr.leaves, ih h.1, ih h.2, Nat.pow_succ]
      omega

theorem leaves_build {b : Nat} {xs : List Nat} (h : xs.length = 2 ^ b) :
    (build b xs).leaves = xs := by
  induction b generalizing xs with
  | zero =>
    match xs, h with
    | [v], _ => rfl
  | succ b ih =>
    have h1 : (xs.take (2 ^ b)).length = 2 ^ b := by
      simp only [List.length_take]
      rw [Nat.pow_succ] at h
      omega
    have h2 : (xs.drop (2 ^ b)).length = 2 ^ b := by
      simp only [List.length_drop]
      rw [Nat.pow_succ] at h
      omega
    simp [build, Tr.leaves, ih h1, ih h2]

theorem isPerfect_build {b : Nat} {xs : List Nat} (h : xs.length = 2 ^ b) :
    (build b xs).isPerfect b := by
  induction b generalizing xs with
  | zero => rfl
  | succ b ih =>
    have h1 : (xs.take (2 ^ b)).length = 2 ^ b := by
      simp only [List.length_take]
      rw [Nat.pow_succ] at h
      omega
    have h2 : (xs.drop (2 ^ b)).length = 2 ^ b := by
      simp only [List.length_drop]
      rw [Nat.pow_succ] at h
      omega
    simp [build, Tr.isPerfect, ih h1, ih h2]

/-- Canonical-form lemma: a perfect tree is determined by its leaves. -/
theorem eq_build_of_isPerfect {b : Nat} {t : Tr} (h : t.isPerfect b) :
    t = build b t.leaves := by
  induction b generalizing t with
  | zero =>
    match t, h with
    | .leaf v, _ => rfl
  | succ b ih =>
    match t, h with
    | .node l r, h =>
      simp only [Tr.isPerfect, Bool.and_eq_true] at h
      have hl := length_leaves_of_isPerfect h.1
      simp only [build, Tr.leaves]
      rw [List.take_append_of_le_length (by omega), List.drop_append_of_le_length (by omega)]
      rw [List.take_of_length_le (by omega), List.drop_eq_nil_of_le (by omega)]
      simp only [List.nil_append]
      exact congrArg₂ Tr.node (ih h.1) (ih h.2)

/-- Two perfect trees of the same height are equal iff their leaf sequences
are. -/
theorem isPerfect_eq_iff_leaves {b : Nat} {t u : Tr}
    (ht : t.isPerfect b) (hu : u.isPerfect b) :
    t = u ↔ t.leaves = u.leaves := by
  constructor
  · rintro rfl
    rfl
  · intro h
    rw [eq_build_of_isPerfect ht, eq_build_of_isPerfect hu, h]

theorem build_eq_build_iff {b : Nat} {xs ys : List Nat}
    (hx : xs.length = 2 ^ b) (hy : ys.length = 2 ^ b) :
    build b xs = build b ys ↔ xs = ys := by
  constructor
  · intro h
    have := congrArg Tr.leaves h
    rwa [leaves_build hx, leaves_build hy] at this
  · rintro rfl
    rfl

theorem build_append {b : Nat} {xs ys : List Nat} (hx : xs.length = 2 ^ b) :
    build (b + 1) (xs ++ ys) = .node (build b xs) (build b ys) := by
  simp only [build]
  rw [List.take_append_of_le_length (by omega), List.drop_append_of_le_length (by omega)]
  rw [List.take_of_length_le (by omega), List.drop_eq_nil_of_le (by omega)]
  simp

/-! ## The indexed string (`indexed_string::index_from`) -/

/-- One pairing pass of `index_from`:
`paired[i] ← f.intern(paired[i], paired[i + bit_m])` for
`i < paired.size() - bit_m`, then truncate `paired` to that length. -/
def pair_level (bit_m : Nat) (paired : List Tr) : List Tr :=
  List.zipWith Tr.node paired (paired.drop bit_m)

/-- The contents of the `paired` vector at the start of level `bit` of
`index_from`: entry `i` holds the perfect tree of size `2 ^ bit` covering
leaves `i, …, i + 2 ^ bit - 1` of the input. -/
def paired_at (P : List Nat) : Nat → List Tr
  | 0 => P.map Tr.leaf
  | b + 1 => pair_level (the_bit b) (paired_at P b)

/-- The `k` leaves of `P` starting at position `i`. -/
def slice (P : List Nat) (i k : Nat) : List Nat := (P.drop i).take k

theorem length_slice {P : List Nat} {i k : Nat} (h : i + k ≤ P.length) :
    (slice P i k).length = k := by
  simp only [slice, List.length_take, List.length_drop]
  omega

theorem length_paired_at (P : List Nat) (b : Nat) :
    (paired_at P b).length = P.length + 1 - 2 ^ b := by
  induction b with
  | zero => simp [paired_at]
  | succ b ih =>
    simp only [paired_at, pair_level, List.length_zipWith, List.length_drop, ih,
      the_bit_eq_pow]
    rw [Nat.pow_succ]
    omega

theorem getElem_paired_at {P : List Nat} {b i : Nat} (h : i + 2 ^ b ≤ P.length) :
    (paired_at P b)[i]? = some (build b (slice P i (2 ^ b))) := by
  induction b generalizing i with
  | zero =>
    have hi : i < P.length := by
      have : (2:Nat) ^ 0 = 1 := rfl
      omega
    have hd := List.drop_eq_getElem_cons hi
    simp only [paired_at, List.getElem?_map, List.getElem?_eq_getElem hi,
      Option.map_some']
    have h1 : (2:Nat) ^ 0 = 0 + 1 := rfl
    simp only [slice, build, hd, h1, List.take_succ_cons, List.take_zero, List.headD]
  | succ b ih =>
    have hpos : 0 < 2 ^ b := Nat.two_pow_pos b
    have hb : 2 ^ (b + 1) = 2 ^ b + 2 ^ b := by
      rw [Nat.pow_succ]
      omega
    have h1 : i + 2 ^ b ≤ P.length := by omega
    have h2 : (2 ^ b + i) + 2 ^ b ≤ P.length := by omega
    simp only [paired_at, pair_level, the_bit_eq_pow, List.getElem?_zipWith,
      List.getElem?_drop, ih h1, ih h2]
    congr 1
    simp only [build]
    congr 1
    · congr 1
      simp only [slice, List.take_take]
      congr 1
      omega
    · congr 1
      simp only [slice, List.drop_take, List.drop_drop]
      congr 1
      · omega
      · congr 1
        omega

/-- `assocs[sz].left` as built by `index_from`: one slot per bit position
`b < bit_width sz`; slot `b` holds `paired.begin()[sz & (bit_m - 1)]` of
level `b` when bit `b` of `sz` is set, else null. -/
def split_left (P : List Nat) (sz : Nat) : List (Option Tr) :=
  (List.range (bit_width sz)).map fun b =>
    if sz &&& the_bit b ≠ 0 then (paired_at P b)[sz &&& (the_bit b - 1)]? else none

/-- `assocs[L - k].right` as built by `index_from` (`k` is the length of the
suffix covered): slot `b` holds `paired.rbegin()[sz & (bit_m - 1)]` of level
`b` when bit `b` of `k` is set, else null. -/
def split_right (P : List Nat) (k : Nat) : List (Option Tr) :=
  (List.range (bit_width k)).map fun b =>
    if k &&& the_bit b ≠ 0 then (paired_at P b).reverse[k &&& (the_bit b - 1)]? else none

@[simp] theorem length_split_left (P : List Nat) (sz : Nat) :
    (split_left P sz).length = bit_width sz := by
  simp [split_left]

@[simp] theorem length_split_right (P : List Nat) (k : Nat) :
    (split_right P k).length = bit_width k := by
  simp [split_right]

/-- Splitting a `mod` at the next bit: `n % 2 ^ (b + 1)` is `n % 2 ^ b` plus
`2 ^ b` if bit `b` of `n` is set. -/
theorem mod_pow_succ_eq (n b : Nat) :
    n % 2 ^ (b + 1) = n % 2 ^ b + 2 ^ b * (n / 2 ^ b % 2) := by
  rw [Nat.pow_succ, Nat.mod_mul]

theorem testBit_mod_add_pow_le {n b : Nat} (h : Nat.testBit n b = true) :
    n % 2 ^ b + 2 ^ b ≤ n := by
  have h1 := mod_pow_succ_eq n b
  rw [Nat.testBit_to_div_mod] at h
  have h2 : n / 2 ^ b % 2 = 1 := of_decide_eq_true h
  rw [h2, Nat.mul_one] at h1
  have h3 : n % 2 ^ (b + 1) ≤ n := Nat.mod_le _ _
  omega

theorem mod_pow_succ_of_testBit {n b : Nat} (h : Nat.testBit n b = true) :
    n % 2 ^ (b + 1) = n % 2 ^ b + 2 ^ b := by
  have h1 := mod_pow_succ_eq n b
  rw [Nat.testBit_to_div_mod] at h
  have h2 : n / 2 ^ b % 2 = 1 := of_decide_eq_true h
  rw [h2, Nat.mul_one] at h1
  exact h1

theorem mod_pow_succ_of_not_testBit {n b : Nat} (h : Nat.testBit n b = false) :
    n % 2 ^ (b + 1) = n % 2 ^ b := by
  have h1 := mod_pow_succ_eq n b
  rw [Nat.testBit_to_div_mod] at h
  have h2 : n / 2 ^ b % 2 = 0 := by
    have := of_decide_eq_false h
    omega
  rw [h2, Nat.mul_zero] at h1
  omega

theorem and_the_bit_ne_zero_iff (n b : Nat) :
    (n &&& the_bit b ≠ 0) ↔ Nat.testBit n b = true := by
  rw [the_bit_eq_pow, Nat.and_two_pow]
  have hpos : 0 < 2 ^ b := Nat.two_pow_pos b
  cases h : Nat.testBit n b
  · simp
  · simp only [Bool.toNat_true, Nat.one_mul, ne_eq]
    constructor
    · intro _
      trivial
    · intro _
      omega

theorem getElem_split_left {P : List Nat} {sz b : Nat} (hsz : sz ≤ P.length)
    (hb : b < bit_width sz) :
    (split_left P sz)[b]? =
      some (if Nat.testBit sz b then
        some (build b (slice P (sz % 2 ^ b) (2 ^ b))) else none) := by
  have hrange : (List.range (bit_width sz))[b]? = some b := by
    simp [List.getElem?_range, hb]
  simp only [split_left, List.getElem?_map, hrange, Option.map_some']
  congr 1
  by_cases ht : Nat.testBit sz b
  · rw [if_pos ((and_the_bit_ne_zero_iff sz b).mpr ht), if_pos ht]
    rw [the_bit_eq_pow, Nat.and_pow_two_sub_one_eq_mod]
    exact getElem_paired_at (Nat.le_trans (testBit_mod_add_pow_le ht) hsz)
  · rw [if_neg (fun hc => ht ((and_the_bit_ne_zero_iff sz b).mp hc)),
      if_neg (fun hc => ht hc)]

theorem getElem_split_right {P : List Nat} {k b : Nat} (hk : k ≤ P.length)
    (hb : b < bit_width k) :
    (split_right P k)[b]? =
      some (if Nat.testBit k b then
        some (build b (slice P (P.length - 2 ^ b - k % 2 ^ b) (2 ^ b))) else none) := by
  have hrange : (List.range (bit_width k))[b]? = some b := by
    simp [List.getElem?_range, hb]
  simp only [split_right, List.getElem?_map, hrange, Option.map_some']
  congr 1
  by_cases ht : Nat.testBit k b
  · rw [if_pos ((and_the_bit_ne_zero_iff k b).mpr ht), if_pos ht]
    rw [the_bit_eq_pow, Nat.and_pow_two_sub_one_eq_mod]
    have hoff : k % 2 ^ b + 2 ^ b ≤ P.length :=
      Nat.le_trans (testBit_mod_add_pow_le ht) hk
    have hlen := length_paired_at P b
    have hpos : 0 < 2 ^ b := Nat.two_pow_pos b
    have hlt : k % 2 ^ b < (paired_at P b).length := by omega
    rw [List.getElem?_reverse hlt, hlen]
    have hidx : P.length + 1 - 2 ^ b - 1 - k % 2 ^ b
        = P.length - 2 ^ b - k % 2 ^ b := by omega
    rw [hidx]
    exact getElem_paired_at (by omega)
  · rw [if_neg (fun hc => ht ((and_the_bit_ne_zero_iff k b).mp hc)),
      if_neg (fun hc => ht hc)]

/-! ## `compute_association` -/

/-- `compute_association` from the source: the suffix length that can be
matched against the stack without borrowing. -/
def compute_association (tree_size string_size : Nat) : Nat :=
  let mask := the_bit (bit_width string_size) - 1
  let masked_size := tree_size &&& mask
  if masked_size ≤ string_size then masked_size
  else tree_size &&& (mask >>> 1)

/-- The width `j` such that `compute_association n L = n % 2 ^ j`. -/
def assoc_width (n L : Nat) : Nat :=
  if n % 2 ^ bit_width L ≤ L then bit_width L else bit_width L - 1

theorem compute_association_eq_mod (n L : Nat) :
    compute_association n L = n % 2 ^ assoc_width n L := by
  simp only [compute_association, assoc_width, the_bit_eq_pow,
    Nat.and_pow_two_sub_one_eq_mod]
  by_cases h : n % 2 ^ bit_width L ≤ L
  · rw [if_pos h, if_pos h]
  · rw [if_neg h, if_neg h]
    have hL : L ≠ 0 := by
      intro h0
      subst h0
      simp [Nat.mod_one] at h
    have hw : 0 < bit_width L := bit_width_pos hL
    have hmask : (2 ^ bit_width L - 1) >>> 1 = 2 ^ (bit_width L - 1) - 1 := by
      rw [Nat.shiftRight_eq_div_pow, Nat.pow_one]
      have : 2 ^ bit_width L = 2 ^ (bit_width L - 1) * 2 := by
        rw [← Nat.pow_succ]
        congr 1
        omega
      have hpos : 0 < 2 ^ (bit_width L - 1) := Nat.two_pow_pos _
      omega
    rw [hmask, Nat.and_pow_two_sub_one_eq_mod]

theorem assoc_width_le (n L : Nat) : assoc_width n L ≤ bit_width L := by
  simp only [assoc_width]
  split <;> omega

theorem assoc_width_ge (n L : Nat) : bit_width L - 1 ≤ assoc_width n L := by
  simp only [assoc_width]
  split <;> omega

theorem compute_association_le (n L : Nat) : compute_association n L ≤ L := by
  rw [compute_association_eq_mod]
  simp only [assoc_width]
  by_cases h : n % 2 ^ bit_width L ≤ L
  · rwa [if_pos h]
  · rw [if_neg h]
    have hL : L ≠ 0 := by
      intro h0
      subst h0
      simp [Nat.mod_one] at h
    have h1 : n % 2 ^ (bit_width L - 1) < 2 ^ (bit_width L - 1) :=
      Nat.mod_lt _ (Nat.two_pow_pos _)
    have h2 : 2 ^ (bit_width L - 1) ≤ L := two_pow_pred_bit_width_le hL
    omega

/-- The residue `L - r` left for the borrow phase always fits under
`2 ^ assoc_width n L`. -/
theorem sub_compute_association_lt (n L : Nat) (hL : L ≠ 0) :
    L - compute_association n L < 2 ^ assoc_width n L := by
  rw [compute_association_eq_mod]
  simp only [assoc_width]
  by_cases h : n % 2 ^ bit_width L ≤ L
  · rw [if_pos h]
    exact Nat.lt_of_le_of_lt (Nat.sub_le _ _) (lt_two_pow_bit_width L)
  · rw [if_neg h]
    -- here bit `bit_width L - 1` of `n` must be set, so the full masked value
    -- exceeds the half-masked value by exactly `2 ^ (bit_width L - 1)`
    have hw : 0 < bit_width L := bit_width_pos hL
    have hsplit := mod_pow_succ_eq n (bit_width L - 1)
    have hsucc : bit_width L - 1 + 1 = bit_width L := by omega
    rw [hsucc] at hsplit
    have h2 : 2 ^ (bit_width L - 1) ≤ L := two_pow_pred_bit_width_le hL
    have hhalf : n % 2 ^ (bit_width L - 1) < 2 ^ (bit_width L - 1) :=
      Nat.mod_lt _ (Nat.two_pow_pos _)
    have ht : n / 2 ^ (bit_width L - 1) % 2 = 0 ∨ n / 2 ^ (bit_width L - 1) % 2 = 1 := by
      omega
    rcases ht with ht | ht
    · rw [ht, Nat.mul_zero, Nat.add_zero] at hsplit
      omega
    · rw [ht, Nat.mul_one] at hsplit
      omega

/-! ## The tree stack (`tree_stack_base`) -/

/-- The state of a `tree_stack_base`: the sparse `trees` vector (slot `b`
holds a perfect tree of size `2 ^ b`, or null) and `_size`. -/
structure Stk where
  trees : List (Option Tr)
  size : Nat
deriving DecidableEq, Repr

/-- `std::vector::resize(k)` with null fill. -/
def resize (ts : List (Option Tr)) (k : Nat) : List (Option Tr) :=
  ts.take k ++ List.replicate (k - ts.length) none

/-- The borrow descent of `has_suffix`
(`while (borrowed_bit > left_bit) { borrowed = rhs; --borrowed_bit; }`),
taking the `rhs` child a given number of times; casting a leaf is a
failure. -/
def descend_rhs : Tr → Nat → Option Tr
  | t, 0 => some t
  | .leaf _, _ + 1 => none
  | .node _ rh, k + 1 => descend_rhs rh k

/-- The left-phase comparison walk of `has_suffix`
(`for (; left_bit; --left_bit)`), processing bit positions `b-1, …, 0`. -/
def left_walk (lft : List (Option Tr)) (l : Nat) : Tr → Nat → Option Bool
  | _, 0 => some true
  | .leaf _, _ + 1 => none
  | .node lh rh, b + 1 =>
    if l &&& the_bit b ≠ 0 then
      if lft[b]? = some (some rh) then left_walk lft l lh b else some false
    else left_walk lft l rh b

/-- `tree_stack_base::has_suffix` against an indexed string with leaf list
`P`.  A `none` result models undefined behaviour in the source (unreachable
from valid states). -/
def has_suffix (stk : Stk) (P : List Nat) : Option Bool :=
  let L := P.length
  if stk.size < L then some false
  else if L = 0 then some true
  else
    let on_right := compute_association stk.size L
    let on_left := L - on_right
    let lft := split_left P on_left
    let rgt := split_right P on_right
    if ¬ (List.range rgt.length).all (fun b => rgt[b]? == stk.trees[b]?) then some false
    else if on_left = 0 then some true
    else
      let borrowed_bit := ctz (stk.size - on_right)
      match stk.trees[borrowed_bit]? with
      | some (some t) =>
        match descend_rhs t (borrowed_bit - lft.length) with
        | some borrowed => left_walk lft on_left borrowed lft.length
        | none => none
      | _ => none

/-- The combining loop of the `append` left phase
(`for (; the_bit(bit_no) <= on_left; ++bit_no)`), with an iteration bound
(first argument) that call sites choose large enough to be unreachable. -/
def append_left_loop (lft : List (Option Tr)) (l : Nat) :
    Nat → List (Option Tr) → Tr → Nat → Option (List (Option Tr) × Tr × Nat)
  | fuel + 1, trees, c, b =>
    if the_bit b ≤ l then
      if l &&& the_bit b ≠ 0 then
        match lft[b]? with
        | some (some s) => append_left_loop lft l fuel trees (.node c s) (b + 1)
        | _ => none
      else
        match trees[b]? with
        | some (some s) =>
          append_left_loop lft l fuel (trees.set b none) (.node s c) (b + 1)
        | _ => none
    else some (trees, c, b)
  | 0, trees, c, b => if the_bit b ≤ l then none else some (trees, c, b)

/-- The carry loop of `append`
(`while (true) { lhs = trees[bit_no]; if (!lhs) break; … }`); reading past
the end of `trees` stops like a null slot (the source never does either from
a valid state). -/
def carry_loop :
    Nat → List (Option Tr) → Tr → Nat → Option (List (Option Tr) × Tr × Nat)
  | fuel + 1, trees, c, b =>
    match trees[b]? with
    | some (some s) => carry_loop fuel (trees.set b none) (.node s c) (b + 1)
    | _ => some (trees, c, b)
  | 0, trees, c, b =>
    match trees[b]? with
    | some (some _) => none
    | _ => some (trees, c, b)

/-- The right phase of `append`: for each set bit of `remaining_right` (low
to high), copy `split.right` into `trees`. -/
def append_right_loop (rgt : List (Option Tr)) :
    Nat → List (Option Tr) → Nat → Nat → Option (List (Option Tr))
  | _, trees, 0, _ => some trees
  | fuel + 1, trees, rem + 1, pos =>
    let step := ctz (rem + 1)
    let b := pos + step
    match rgt[b]? with
    | some s => append_right_loop rgt fuel (trees.set b s) ((rem + 1) >>> (step + 1)) (b + 1)
    | none => none
  | 0, _, _ + 1, _ => none

/-- The resize and left phase of `tree_stack_base::append` (everything before
`remaining_right` is processed), returning the updated `trees` vector. -/
def append_left_phase (stk : Stk) (P : List Nat) : Option (List (Option Tr)) :=
  let L := P.length
  let new_size := stk.size + L
  let on_right := compute_association new_size L
  let on_left := L - on_right
  let lft := split_left P on_left
  let trees0 := resize stk.trees (bit_width new_size)
  if on_left = 0 then some trees0
  else
    let bit_no := ctz on_left
    match trees0[bit_no]? with
    | some (some constructing) =>
      match append_left_loop lft on_left (bit_width on_left + 1)
          (trees0.set bit_no none) constructing bit_no with
      | some (trees1, c1, b1) =>
        match carry_loop (trees1.length + 1) trees1 c1 b1 with
        | some (trees2, c2, b2) => some (trees2.set b2 (some c2))
        | none => none
      | none => none
    | _ => none

/-- `tree_stack_base::append` for an indexed string with leaf list `P`. -/
def append (stk : Stk) (P : List Nat) : Option Stk :=
  let L := P.length
  if L = 0 then some stk
  else
    let new_size := stk.size + L
    let on_right := compute_association new_size L
    let rgt := split_right P on_right
    match append_left_phase stk P with
    | some trees1 =>
      match append_right_loop rgt (bit_width on_right + 1) trees1 on_right 0 with
      | some trees2 => some ⟨trees2, new_size⟩
      | none => none
    | none => none

/-- The right phase of `truncate`: null out one slot per set bit of
`on_right` (low to high). -/
def truncate_right_loop :
    Nat → List (Option Tr) → Nat → Nat → Option (List (Option Tr))
  | _, trees, 0, _ => some trees
  | fuel + 1, trees, rem + 1, pos =>
    let step := ctz (rem + 1)
    let b := pos + step
    truncate_right_loop fuel (trees.set b none) ((rem + 1) >>> (step + 1)) (b + 1)
  | 0, _, _ + 1, _ => none

/-- The deconstruction walk of the `truncate` left phase
(`for (; bit; --bit_no, bit >>= 1)`): at a kept bit store `lhs` and descend
into `rhs`, otherwise descend into `lhs`. -/
def truncate_walk (keep : Nat) : Nat → Tr → List (Option Tr) → Option (List (Option Tr))
  | 0, _, trees => some trees
  | _ + 1, .leaf _, _ => none
  | b + 1, .node lh rh, trees =>
    if keep &&& the_bit b ≠ 0 then truncate_walk keep b rh (trees.set b (some lh))
    else truncate_walk keep b lh trees

/-- `tree_stack_base::truncate`.  The C++ computes `_size - new_size` in
`size_t`; callers guarantee `new_size ≤ _size` (`pop` clamps), so the
underflowing call is modelled as a failure, as is the `bit_no` underflow
when `to_deconstruct = 0` (unreachable from valid states). -/
def truncate (stk : Stk) (new_size : Nat) : Option Stk :=
  if stk.size < new_size then none
  else
    let to_remove := stk.size - new_size
    let on_right := compute_association stk.size to_remove
    let on_left := to_remove - on_right
    match truncate_right_loop (bit_width on_right + 1) stk.trees on_right 0 with
    | none => none
    | some trees1 =>
      let afterLeft : Option (List (Option Tr)) :=
        if on_left = 0 then some trees1
        else
          let to_deconstruct := ctz (stk.size - on_right)
          let to_remain := the_bit to_deconstruct - on_left
          match trees1[to_deconstruct]? with
          | some (some splitting) =>
            if to_deconstruct = 0 then none
            else truncate_walk to_remain to_deconstruct splitting
              (trees1.set to_deconstruct none)
          | _ => none
      match afterLeft with
      | some trees2 => some ⟨resize trees2 (bit_width new_size), new_size⟩
      | none => none

/-- `tree_stack_base::pop`. -/
def pop (stk : Stk) (count : Nat) : Option Stk :=
  truncate stk (if count > stk.size then 0 else stk.size - count)

/-- `tree_stack_base::back`: descend the smallest present tree always to the
right; fails on an empty stack (where the source would index out of
range). -/
def back (stk : Stk) : Option Nat :=
  let bit := ctz stk.size
  match stk.trees[bit]? with
  | some (some t) =>
    match descend_rhs t bit with
    | some (.leaf v) => some v
    | _ => none
  | _ => none

/-! ## Reverse iteration

`node::iterator` resolves the leaf at index `idx` of a perfect tree through
`stack[it] = node(*stack[it+1])[idx & the_bit(it)]` (`resolve_from`); on a
move it only re-resolves the levels below `bit_width (idx XOR oldIdx)`, which
leaves the same resolved descent, so the yield sequence is that of a full
resolve per index.  `tree_stack_base::r_iterator` walks the populated bit
positions of `size` in ascending order, reading each tree from index
`the_bit b - 1` down to `0`. -/

/-- Leaf of a perfect tree of height `b` at index `idx`, following
`resolve_from`. -/
def leaf_at : Nat → Tr → Nat → Option Nat
  | 0, .leaf v, _ => some v
  | 0, .node _ _, _ => none
  | _ + 1, .leaf _, _ => none
  | b + 1, .node lh rh, idx =>
    leaf_at b (if idx &&& the_bit b ≠ 0 then rh else lh) idx

/-- The set bits of `size` in ascending order, as visited by
`r_iterator::operator++` (`remaining_size = size & ~(the_bit(bit+1) - 1)`;
the next bit is `countr_zero(remaining_size)`).  First argument is an
iteration bound, `size` itself always suffices. -/
def outer_bits : Nat → Nat → List Nat
  | _, 0 => []
  | fuel + 1, size + 1 =>
    let b := ctz (size + 1)
    b :: outer_bits fuel ((size + 1) >>> (b + 1) <<< (b + 1))
  | 0, _ + 1 => []

/-- The full sequence yielded by reverse iteration, from `rbegin()` to
`rend()`; a `none` entry marks a failed resolution (unreachable from valid
states). -/
def rev_leaves (stk : Stk) : List (Option Nat) :=
  (outer_bits stk.size stk.size).flatMap fun b =>
    match stk.trees[b]? with
    | some (some t) => ((List.range (the_bit b)).reverse).map (leaf_at b t)
    | _ => [none]

/-! ## The naive reference stack (`naive_stack`) -/

/-- `naive_stack::has_suffix`: size guard, then reversed-prefix equality. -/
def naive_has_suffix (values suff : List Nat) : Bool :=
  if values.length < suff.length then false
  else values.reverse.take suff.length == suff.reverse

/-- `naive_stack::append`. -/
def naive_append (values suff : List Nat) : List Nat := values ++ suff

/-- `naive_stack::truncate` is `std::vector::resize`, which zero-pads when
growing. -/
def naive_truncate (values : List Nat) (count : Nat) : List Nat :=
  values.take count ++ List.replicate (count - values.length) 0

/-- `naive_stack::pop`. -/
def naive_pop (values : List Nat) (count : Nat) : List Nat :=
  naive_truncate values (if count > values.length then 0 else values.length - count)

/-! ## Operation sequences for the oracle-equivalence claim -/

/-- One randomised-test operation: `append`, `pop`, or `has_suffix`. -/
inductive Op where
  | push (v : List Nat)
  | popN (k : Nat)
  | query (s : List Nat)

/-- Observation after one operation: the stack's size, its reverse-iteration
sequence, and (for queries) the `has_suffix` answer. -/
structure Obs where
  size : Nat
  rev : List (Option Nat)
  ans : Option Bool
deriving DecidableEq, Repr

/-- What reverse iteration of the naive stack yields. -/
def naive_rev (values : List Nat) : List (Option Nat) := values.reverse.map some

/-- Run a sequence of operations on the naive stack, recording the
observations. -/
def naive_run : List Nat → List Op → List Obs
  | _, [] => []
  | vs, .push v :: ops =>
    let vs' := naive_append vs v
    ⟨vs'.length, naive_rev vs', none⟩ :: naive_run vs' ops
  | vs, .popN k :: ops =>
    let vs' := naive_pop vs k
    ⟨vs'.length, naive_rev vs', none⟩ :: naive_run vs' ops
  | vs, .query s :: ops =>
    ⟨vs.length, naive_rev vs, some (naive_has_suffix vs s)⟩ :: naive_run vs ops

/-- Run a sequence of operations on the tree stack, recording the
observations (`none` on any undefined behaviour). -/
def tree_run : Stk → List Op → Option (List Obs)
  | _, [] => some []
  | stk, .push v :: ops =>
    match append stk v with
    | some stk' => (tree_run stk' ops).map (⟨stk'.size, rev_leaves stk', none⟩ :: ·)
    | none => none
  | stk, .popN k :: ops =>
    match pop stk k with
    | some stk' => (tree_run stk' ops).map (⟨stk'.size, rev_leaves stk', none⟩ :: ·)
    | none => none
  | stk, .query s :: ops =>
    match has_suffix stk s with
    | some b => (tree_run stk ops).map (⟨stk.size, rev_leaves stk, some b⟩ :: ·)
    | none => none

/-! ## The canonical state and the length-decomposition invariant -/

/-- Segment of the contents covered by populated slot `b`: the elements at
distance `[n % 2 ^ b, n % 2 ^ (b + 1))` from the top. -/
def seg (xs : List Nat) (b : Nat) : List Nat :=
  slice xs (xs.length - xs.length % 2 ^ b - 2 ^ b) (2 ^ b)

/-- The canonical `trees` vector for contents `xs`. -/
def canonical (xs : List Nat) : List (Option Tr) :=
  (List.range (bit_width xs.length)).map fun b =>
    if Nat.testBit xs.length b then some (build b (seg xs b)) else none

/-- The state invariant: the state is exactly the canonical state of its
contents (this pins down the length-decomposition invariant, since
interning makes each slot canonical). -/
def Inv (stk : Stk) (xs : List Nat) : Prop :=
  stk.size = xs.length ∧ stk.trees = canonical xs

/-- States reachable from the empty stack by the mutating operations. -/
inductive Reach : Stk → List Nat → Prop where
  | init : Reach ⟨[], 0⟩ []
  | app {stk xs v stk'} : Reach stk xs → append stk v = some stk' →
      Reach stk' (xs ++ v)
  | trunc {stk xs k stk'} : Reach stk xs → truncate stk k = some stk' →
      Reach stk' (xs.take k)
  | popped {stk xs k stk'} : Reach stk xs → pop stk k = some stk' →
      Reach stk' (xs.take (xs.length - k))

/-! ## Auxiliary list and bit lemmas for the correctness proofs -/

theorem slice_append_left {xs v : List Nat} {i k : Nat} (h : i + k ≤ xs.length) :
    slice (xs ++ v) i k = slice xs i k := by
  simp only [slice]
  rw [List.drop_append_of_le_length (by omega)]
  rw [List.take_append_of_le_length (by simp only [List.length_drop]; omega)]

theorem slice_append_right {xs v : List Nat} {i k : Nat} :
    slice (xs ++ v) (xs.length + i) k = slice v i k := by
  simp only [slice]
  rw [List.drop_append]

theorem slice_zero_len (xs : List Nat) (i : Nat) : slice xs i 0 = [] := by
  simp [slice]

theorem slice_split {xs : List Nat} (i k₁ k₂ : Nat) :
    slice xs i (k₁ + k₂) = slice xs i k₁ ++ slice xs (i + k₁) k₂ := by
  simp only [slice]
  rw [List.take_add, List.drop_drop]

theorem drop_eq_slice_append {xs : List Nat} (i k : Nat) :
    xs.drop i = slice xs i k ++ xs.drop (i + k) := by
  simp only [slice]
  conv_lhs => rw [← List.take_append_drop k (xs.drop i)]
  rw [List.drop_drop]

theorem slice_all (xs : List Nat) : slice xs 0 xs.length = xs := by
  simp [slice]

/-- `bit_width` of a right shift. -/
theorem bit_width_shiftRight (m k : Nat) :
    bit_width (m >>> k) = bit_width m - k := by
  rw [Nat.shiftRight_eq_div_pow]
  rcases Nat.le_total (bit_width m) k with h | h
  · have : m / 2 ^ k = 0 := Nat.div_eq_of_lt
      (Nat.lt_of_lt_of_le (lt_two_pow_bit_width m) (Nat.pow_le_pow_right (by decide) h))
    rw [this]
    simp
    omega
  · have h1 : m / 2 ^ k < 2 ^ (bit_width m - k) := by
      rw [Nat.div_lt_iff_lt_mul (Nat.two_pow_pos k), ← Nat.pow_add]
      have : bit_width m - k + k = bit_width m := by omega
      rw [this]
      exact lt_two_pow_bit_width m
    have h2 : bit_width (m / 2 ^ k) ≤ bit_width m - k := bit_width_le.mpr h1
    rcases Nat.eq_zero_or_pos (bit_width m) with hz | hpos
    · have : m = 0 := by
        have := lt_two_pow_bit_width m
        rw [hz] at this
        omega
      subst this
      simp
    · by_cases hmk : bit_width m - k = 0
      · omega
      · have h3 : 2 ^ (bit_width m - k - 1) ≤ m / 2 ^ k := by
          rw [Nat.le_div_iff_mul_le (Nat.two_pow_pos k), ← Nat.pow_add]
          have he : bit_width m - k - 1 + k = bit_width m - 1 := by omega
          rw [he]
          exact two_pow_pred_bit_width_le (by
            intro h0
            subst h0
            simp at hpos)
        have h4 := two_pow_le_iff_lt_bit_width.mp h3
        omega

theorem testBit_shiftRight_add (m k b : Nat) :
    Nat.testBit (m >>> k) b = Nat.testBit m (k + b) := by
  rw [Nat.shiftRight_eq_div_pow, Nat.testBit_to_div_mod, Nat.testBit_to_div_mod,
    Nat.div_div_eq_div_mul, ← Nat.pow_add]

theorem ctz_ge_of_mod_eq_zero {m j : Nat} (hm : m ≠ 0) (h : m % 2 ^ j = 0) :
    j ≤ ctz m := by
  by_contra hlt
  have h1 : Nat.testBit m (ctz m) = true := testBit_ctz hm
  have h2 : Nat.testBit m (ctz m) = false := by
    rw [Nat.testBit_to_div_mod]
    have : 2 ^ (ctz m + 1) ∣ m := by
      refine (Nat.pow_dvd_pow 2 (by omega)).trans (Nat.dvd_of_mod_eq_zero h)
    simp [div_pow_mod_two_eq_zero_of_dvd this]
  rw [h1] at h2
  simp at h2

theorem ctz_shifted_clear (m b : Nat) (hb : b = ctz m) :
    m >>> (b + 1) <<< (b + 1) = m - m % 2 ^ (b + 1) := by
  subst hb
  rw [Nat.shiftLeft_eq, Nat.shiftRight_eq_div_pow]
  have h := Nat.mod_add_div m (2 ^ (ctz m + 1))
  rw [Nat.mul_comm] at h
  omega

/-- Clearing the low bits leaves the high bits unchanged. -/
theorem testBit_sub_mod {n j b : Nat} (hb : j ≤ b) :
    Nat.testBit (n - n % 2 ^ j) b = Nat.testBit n b := by
  rw [Nat.testBit_to_div_mod, Nat.testBit_to_div_mod]
  have hsplit : 2 ^ b = 2 ^ j * 2 ^ (b - j) := by
    rw [← Nat.pow_add]
    congr 1
    omega
  have hdiv : (n - n % 2 ^ j) / 2 ^ j = n / 2 ^ j := by
    have h := Nat.mod_add_div n (2 ^ j)
    have hq : n - n % 2 ^ j = 2 ^ j * (n / 2 ^ j) := by omega
    rw [hq, Nat.mul_div_cancel_left _ (Nat.two_pow_pos j)]
  rw [hsplit, ← Nat.div_div_eq_div_mul, ← Nat.div_div_eq_div_mul, hdiv]

/-! ## Lemmas about the canonical state -/

@[simp] theorem length_canonical (xs : List Nat) :
    (canonical xs).length = bit_width xs.length := by
  simp [canonical]

theorem getElem_canonical {xs : List Nat} {b : Nat} (hb : b < bit_width xs.length) :
    (canonical xs)[b]? =
      some (if Nat.testBit xs.length b then some (build b (seg xs b)) else none) := by
  have hrange : (List.range (bit_width xs.length))[b]? = some b := by
    simp [List.getElem?_range, hb]
  simp [canonical, List.getElem?_map, hrange]

theorem getElem_canonical_oob {xs : List Nat} {b : Nat}
    (hb : bit_width xs.length ≤ b) : (canonical xs)[b]? = none := by
  rw [List.getElem?_eq_none]
  simp only [length_canonical]
  exact hb

/-- The populated slot `b` of the canonical state, as a tail slice. -/
theorem seg_def (xs : List Nat) (b : Nat) :
    seg xs b =
      slice xs (xs.length - xs.length % 2 ^ b - 2 ^ b) (2 ^ b) := rfl

theorem length_seg {xs : List Nat} {b : Nat}
    (h : Nat.testBit xs.length b = true) : (seg xs b).length = 2 ^ b := by
  have := testBit_mod_add_pow_le h
  apply length_slice
  omega

/-! ## Correctness of `has_suffix` -/

theorem testBit_add_of_dvd {m r b : Nat} (hd : 2 ^ b ∣ m) (hr : r < 2 ^ b) :
    Nat.testBit (m + r) b = Nat.testBit m b := by
  obtain ⟨q, rfl⟩ := hd
  rw [Nat.testBit_to_div_mod, Nat.testBit_to_div_mod]
  rw [Nat.mul_comm]
  rw [Nat.add_comm, Nat.add_mul_div_right _ _ (Nat.two_pow_pos b),
    Nat.div_eq_of_lt hr, Nat.zero_add, Nat.mul_div_cancel _ (Nat.two_pow_pos b)]

theorem add_multiple_mod {m r b : Nat} (hd : 2 ^ b ∣ m) (hr : r < 2 ^ b) :
    (m + r) % 2 ^ b = r := by
  obtain ⟨q, rfl⟩ := hd
  rw [Nat.mul_add_mod, Nat.mod_eq_of_lt hr]

theorem descend_rhs_build {k : Nat} : ∀ {b : Nat} {xs : List Nat},
    xs.length = 2 ^ b → k ≤ b →
    descend_rhs (build b xs) k
      = some (build (b - k) (xs.drop (2 ^ b - 2 ^ (b - k)))) := by
  induction k with
  | zero =>
    intro b xs hlen _
    simp [descend_rhs]
  | succ k ih =>
    intro b xs hlen hk
    match b, hk with
    | b + 1, hk =>
      have hpow : (2:Nat) ^ (b + 1) = 2 ^ b + 2 ^ b := by
        rw [Nat.pow_succ]
        omega
      have hdlen : (xs.drop (2 ^ b)).length = 2 ^ b := by
        simp only [List.length_drop, hlen]
        omega
      simp only [build, descend_rhs]
      rw [ih hdlen (by omega), List.drop_drop]
      have hidx : b + 1 - (k + 1) = b - k := by omega
      rw [hidx]
      have hle1 : (2:Nat) ^ (b - k) ≤ 2 ^ b := Nat.pow_le_pow_right (by decide) (by omega)
      have hidx2 : 2 ^ b + (2 ^ b - 2 ^ (b - k)) = 2 ^ (b + 1) - 2 ^ (b - k) := by
        omega
      rw [hidx2]

theorem slice_drop {xs : List Nat} (i K d : Nat) :
    (slice xs i K).drop d = slice xs (i + d) (K - d) := by
  simp only [slice]
  rw [List.drop_take, List.drop_drop]

/-- The left-phase walk computes equality of the residual suffix piece with
the first `l mod 2 ^ w` elements of the string. -/
theorem left_walk_spec (s xs : List Nat) (r l : Nat) (hls : l ≤ s.length) :
    ∀ w, w ≤ bit_width l →
      r + (l - l % 2 ^ w) + 2 ^ w ≤ xs.length →
      left_walk (split_left s l) l
        (build w (slice xs (xs.length - (r + (l - l % 2 ^ w)) - 2 ^ w) (2 ^ w))) w
      = some (decide
          (slice xs (xs.length - r - l) (l % 2 ^ w) = s.take (l % 2 ^ w))) := by
  intro w
  induction w with
  | zero =>
    intro _ _
    have h1 : l % 2 ^ 0 = 0 := by
      simp [Nat.pow_zero, Nat.mod_one]
    rw [h1]
    simp [left_walk, slice_zero_len]
  | succ w ih =>
    intro hw hbound
    have hpos : 0 < 2 ^ w := Nat.two_pow_pos w
    have hpow : (2:Nat) ^ (w + 1) = 2 ^ w + 2 ^ w := by
      rw [Nat.pow_succ]
      omega
    have hmod_le : l % 2 ^ (w + 1) ≤ l := Nat.mod_le _ _
    have hmodw_le : l % 2 ^ w ≤ l := Nat.mod_le _ _
    have hml : l % 2 ^ (w + 1) < 2 ^ (w + 1) := Nat.mod_lt _ (Nat.two_pow_pos _)
    have hmlw : l % 2 ^ w < 2 ^ w := Nat.mod_lt _ (Nat.two_pow_pos _)
    have hrl : r + l ≤ xs.length := by omega
    set S := xs.length - (r + (l - l % 2 ^ (w + 1))) - 2 ^ (w + 1) with hS
    have hsplit : slice xs S (2 ^ (w + 1))
        = slice xs S (2 ^ w) ++ slice xs (S + 2 ^ w) (2 ^ w) := by
      rw [hpow, slice_split]
    have hlen1 : (slice xs S (2 ^ w)).length = 2 ^ w := by
      apply length_slice
      omega
    rw [hsplit, build_append hlen1]
    simp only [left_walk]
    by_cases ht : Nat.testBit l w
    -- the `supplied` comparison case
    · have hwlt : w < bit_width l := testBit_lt_bit_width ht
      rw [if_pos ((and_the_bit_ne_zero_iff l w).mpr ht)]
      have hmod : l % 2 ^ (w + 1) = l % 2 ^ w + 2 ^ w := mod_pow_succ_of_testBit ht
      have hslt : (split_left s l)[w]? =
          some (some (build w (slice s (l % 2 ^ w) (2 ^ w)))) := by
        rw [getElem_split_left hls hwlt, if_pos ht]
      have hlen_s : (slice s (l % 2 ^ w) (2 ^ w)).length = 2 ^ w := by
        apply length_slice
        have := testBit_mod_add_pow_le ht
        omega
      have hlen_x : (slice xs (S + 2 ^ w) (2 ^ w)).length = 2 ^ w := by
        apply length_slice
        omega
      have hSrh : S + 2 ^ w = xs.length - r - l + l % 2 ^ w := by
        omega
      have hSlh : S = xs.length - (r + (l - l % 2 ^ w)) - 2 ^ w := by
        omega
      have hbound' : r + (l - l % 2 ^ w) + 2 ^ w ≤ xs.length := by
        omega
      have hlenA : (slice xs (xs.length - r - l) (l % 2 ^ w)).length = l % 2 ^ w := by
        apply length_slice
        omega
      have hlenB : (s.take (l % 2 ^ w)).length = l % 2 ^ w := by
        simp only [List.length_take]
        omega
      have hcond : ((split_left s l)[w]? = some (some (build w (slice xs (S + 2 ^ w) (2 ^ w)))))
          ↔ slice s (l % 2 ^ w) (2 ^ w) = slice xs (S + 2 ^ w) (2 ^ w) := by
        rw [hslt]
        simp only [Option.some.injEq]
        exact build_eq_build_iff hlen_s hlen_x
      by_cases heq : slice s (l % 2 ^ w) (2 ^ w) = slice xs (S + 2 ^ w) (2 ^ w)
      · rw [if_pos (hcond.mpr heq)]
        rw [hSlh]
        rw [ih (by omega) hbound']
        congr 1
        apply decide_eq_decide.mpr
        rw [hmod, slice_split, List.take_add]
        constructor
        · intro h
          rw [h]
          congr 1
          have h2 : xs.length - r - l + l % 2 ^ w = S + 2 ^ w := hSrh.symm
          rw [h2, ← heq]
          rfl
        · intro h
          exact (List.append_inj h (by rw [hlenA, hlenB])).1
      · rw [if_neg (fun hc => heq (hcond.mp hc))]
        congr 1
        symm
        apply decide_eq_false
        intro hcon
        apply heq
        rw [hmod, slice_split, List.take_add] at hcon
        have hinj := List.append_inj hcon (by rw [hlenA, hlenB])
        have h2 : xs.length - r - l + l % 2 ^ w = S + 2 ^ w := hSrh.symm
        rw [h2] at hinj
        have h3 : (s.drop (l % 2 ^ w)).take (2 ^ w) = slice s (l % 2 ^ w) (2 ^ w) := rfl
        rw [h3] at hinj
        exact hinj.2.symm
    -- the descend-right case
    · rw [if_neg (by
        intro hc
        exact absurd ((and_the_bit_ne_zero_iff l w).mp hc) (by simp [ht]))]
      have hmod : l % 2 ^ (w + 1) = l % 2 ^ w :=
        mod_pow_succ_of_not_testBit (by simp [ht])
      have hSrh : S + 2 ^ w = xs.length - (r + (l - l % 2 ^ w)) - 2 ^ w := by
        omega
      rw [hSrh]
      rw [ih (by omega) (by omega)]
      rw [hmod]

theorem mod_eq_mod_of_testBit {n r w : Nat}
    (h : ∀ b, b < w → Nat.testBit n b = Nat.testBit r b) :
    n % 2 ^ w = r % 2 ^ w := by
  apply Nat.eq_of_testBit_eq
  intro i
  rw [Nat.testBit_mod_two_pow, Nat.testBit_mod_two_pow]
  by_cases hi : i < w
  · simp [hi, h i hi]
  · simp [hi]

theorem mod_sub_mod_eq_zero (n j : Nat) : (n - n % 2 ^ j) % 2 ^ j = 0 := by
  have h := Nat.mod_add_div n (2 ^ j)
  have hq : n - n % 2 ^ j = 2 ^ j * (n / 2 ^ j) := by omega
  rw [hq, Nat.mul_mod_right]

/-- The right-phase comparisons up to width `w` hold exactly when the last
`r mod 2 ^ w` elements agree. -/
theorem right_phase_partial {stk : Stk} {xs s : List Nat}
    (htr : stk.trees = canonical xs)
    {r : Nat} (hrs : r ≤ s.length) (hsx : s.length ≤ xs.length)
    (hbits : ∀ b, b < bit_width r → Nat.testBit xs.length b = Nat.testBit r b) :
    ∀ w, w ≤ bit_width r →
      ((∀ b, b < w → (split_right s r)[b]? = stk.trees[b]?) ↔
        xs.drop (xs.length - r % 2 ^ w) = s.drop (s.length - r % 2 ^ w)) := by
  intro w
  induction w with
  | zero =>
    intro _
    have h1 : r % 2 ^ 0 = 0 := by simp [Nat.mod_one]
    rw [h1]
    simp [List.drop_length]
  | succ w ih =>
    intro hw
    have hpos : 0 < 2 ^ w := Nat.two_pow_pos w
    have hwbw : w < bit_width r := by omega
    have hr_lt : r % 2 ^ (w + 1) ≤ r := Nat.mod_le _ _
    have hrw_lt : r % 2 ^ w ≤ r := Nat.mod_le _ _
    have hbwn : bit_width r ≤ bit_width xs.length :=
      bit_width_mono (Nat.le_trans hrs hsx)
    have hcan : stk.trees[w]? =
        some (if Nat.testBit xs.length w then some (build w (seg xs w)) else none) := by
      rw [htr]
      exact getElem_canonical (by omega)
    have hrgt : (split_right s r)[w]? =
        some (if Nat.testBit r w then
          some (build w (slice s (s.length - 2 ^ w - r % 2 ^ w) (2 ^ w))) else none) :=
      getElem_split_right hrs hwbw
    have hnw : Nat.testBit xs.length w = Nat.testBit r w := hbits w hwbw
    have hmodeq : xs.length % 2 ^ w = r % 2 ^ w :=
      mod_eq_mod_of_testBit (fun b hb => hbits b (by omega))
    have hsplit_all : (∀ b, b < w + 1 → (split_right s r)[b]? = stk.trees[b]?) ↔
        ((∀ b, b < w → (split_right s r)[b]? = stk.trees[b]?) ∧
          (split_right s r)[w]? = stk.trees[w]?) := by
      constructor
      · intro h
        exact ⟨fun b hb => h b (by omega), h w (by omega)⟩
      · intro h b hb
        rcases Nat.lt_or_ge b w with hb' | hb'
        · exact h.1 b hb'
        · have : b = w := by omega
          subst this
          exact h.2
    rw [hsplit_all, ih (by omega)]
    by_cases ht : Nat.testBit r w
    · -- populated slot: compare two perfect trees
      have hmod : r % 2 ^ (w + 1) = r % 2 ^ w + 2 ^ w := mod_pow_succ_of_testBit ht
      have hoff : r % 2 ^ w + 2 ^ w ≤ r := testBit_mod_add_pow_le ht
      have hlen_s : (slice s (s.length - 2 ^ w - r % 2 ^ w) (2 ^ w)).length = 2 ^ w := by
        apply length_slice
        omega
      have hlen_x : (seg xs w).length = 2 ^ w := length_seg (by rw [hnw]; exact ht)
      have hseg : seg xs w = slice xs (xs.length - 2 ^ w - r % 2 ^ w) (2 ^ w) := by
        rw [seg_def, hmodeq]
        congr 1
        omega
      have hslot : ((split_right s r)[w]? = stk.trees[w]?) ↔
          slice s (s.length - 2 ^ w - r % 2 ^ w) (2 ^ w)
            = slice xs (xs.length - 2 ^ w - r % 2 ^ w) (2 ^ w) := by
        rw [hcan, hrgt, if_pos ht, if_pos (by rw [hnw]; exact ht)]
        simp only [Option.some.injEq]
        rw [hseg] at hlen_x ⊢
        exact build_eq_build_iff hlen_s hlen_x
      rw [hslot]
      -- split the drops at the new segment
      have hdx : xs.drop (xs.length - r % 2 ^ (w + 1))
          = slice xs (xs.length - 2 ^ w - r % 2 ^ w) (2 ^ w)
            ++ xs.drop (xs.length - r % 2 ^ w) := by
        have h1 : xs.length - r % 2 ^ (w + 1) = xs.length - 2 ^ w - r % 2 ^ w := by
          omega
        have h2 : xs.length - 2 ^ w - r % 2 ^ w + 2 ^ w = xs.length - r % 2 ^ w := by
          omega
        rw [h1, drop_eq_slice_append (xs.length - 2 ^ w - r % 2 ^ w) (2 ^ w), h2]
      have hds : s.drop (s.length - r % 2 ^ (w + 1))
          = slice s (s.length - 2 ^ w - r % 2 ^ w) (2 ^ w)
            ++ s.drop (s.length - r % 2 ^ w) := by
        have h1 : s.length - r % 2 ^ (w + 1) = s.length - 2 ^ w - r % 2 ^ w := by
          omega
        have h2 : s.length - 2 ^ w - r % 2 ^ w + 2 ^ w = s.length - r % 2 ^ w := by
          omega
        rw [h1, drop_eq_slice_append (s.length - 2 ^ w - r % 2 ^ w) (2 ^ w), h2]
      rw [hdx, hds]
      constructor
      · rintro ⟨h1, h2⟩
        rw [h1, h2]
      · intro h
        have hinj := List.append_inj h (by rw [hlen_s]; rw [hseg] at hlen_x; rw [hlen_x])
        exact ⟨hinj.2, hinj.1.symm⟩
    · -- absent slot on both sides
      have htb : Nat.testBit r w = false := by
        cases h : Nat.testBit r w
        · rfl
        · exact absurd h ht
      have hmod : r % 2 ^ (w + 1) = r % 2 ^ w := mod_pow_succ_of_not_testBit htb
      have hslot : (split_right s r)[w]? = stk.trees[w]? := by
        rw [hcan, hrgt, if_neg (by rw [htb]; simp), if_neg (by rw [hnw, htb]; simp)]
      rw [hmod]
      constructor
      · rintro ⟨h1, _⟩
        exact h1
      · intro h
        exact ⟨h, hslot⟩

theorem all_beq_iff (rgt trees : List (Option Tr)) (k : Nat) :
    (((List.range k).all fun b => rgt[b]? == trees[b]?) = true) ↔
      (∀ b, b < k → rgt[b]? = trees[b]?) := by
  rw [List.all_eq_true]
  constructor
  · intro h b hb
    have := h b (List.mem_range.mpr hb)
    exact eq_of_beq this
  · intro h b hb
    exact beq_iff_eq.mpr (h b (List.mem_range.mp hb))

/-- Correctness of `has_suffix` on states satisfying the invariant: it
computes whether the last `|s|` elements of the contents equal `s`. -/
theorem has_suffix_correct {stk : Stk} {xs : List Nat} (hinv : Inv stk xs)
    (s : List Nat) :
    has_suffix stk s
      = some (decide (s.length ≤ xs.length ∧ xs.drop (xs.length - s.length) = s)) := by
  obtain ⟨hsz, htr⟩ := hinv
  simp only [has_suffix, hsz]
  by_cases hlt : xs.length < s.length
  · rw [if_pos hlt]
    have hns : ¬ (s.length ≤ xs.length) := by omega
    simp [hns]
  · rw [if_neg hlt]
    have hLn : s.length ≤ xs.length := by omega
    by_cases hL0 : s.length = 0
    · rw [if_pos hL0]
      have hs : s = [] := List.eq_nil_of_length_eq_zero hL0
      subst hs
      simp [List.drop_length, hLn]
    · rw [if_neg hL0]
      -- shared context facts
      set n := xs.length with hdn
      set L := s.length with hdL
      set r := compute_association n L with hdr
      set j := assoc_width n L with hdj
      have hrmod : r = n % 2 ^ j := compute_association_eq_mod n L
      have hrL : r ≤ L := compute_association_le n L
      have hlj : L - r < 2 ^ j := sub_compute_association_lt n L hL0
      have hrj : r < 2 ^ j := by
        rw [hrmod]
        exact Nat.mod_lt _ (Nat.two_pow_pos _)
      have hbwrj : bit_width r ≤ j := bit_width_le.mpr hrj
      have hbits : ∀ b, b < bit_width r → Nat.testBit n b = Nat.testBit r b := by
        intro b hb
        rw [hrmod, Nat.testBit_mod_two_pow]
        have hbj : b < j := by omega
        simp [hbj]
      have hiff := right_phase_partial htr hrL hLn hbits (bit_width r) (Nat.le_refl _)
      rw [Nat.mod_eq_of_lt (lt_two_pow_bit_width r)] at hiff
      have hlsr : (split_right s r).length = bit_width r := length_split_right s r
      -- the value the right phase compares
      by_cases hall : (((List.range (split_right s r).length).all
          fun b => (split_right s r)[b]? == stk.trees[b]?) = true)
      · rw [if_neg (by
          intro hc
          exact hc hall)]
        have htail : xs.drop (n - r) = s.drop (s.length - r) := by
          apply (hiff.mp _)
          rw [hlsr] at hall
          exact (all_beq_iff _ _ _).mp hall
        by_cases hl0 : L - r = 0
        · rw [if_pos hl0]
          have hsf : xs.drop (n - L) = s := by
            have h1 : n - L = n - r := by omega
            have h2 : s.length - r = 0 := hl0
            rw [h1, htail, h2, List.drop_zero]
          simp [hsf, hLn]
        · rw [if_neg hl0]
          -- borrow-phase context
          set l := L - r with hdl
          have hl_ne : l ≠ 0 := hl0
          have hrltL : r < L := by omega
          have hm_ne : n - r ≠ 0 := by omega
          have hmmod : (n - r) % 2 ^ j = 0 := by
            rw [hrmod]
            exact mod_sub_mod_eq_zero n j
          set bd := ctz (n - r) with hdbd
          have hjbd : j ≤ bd := ctz_ge_of_mod_eq_zero hm_ne hmmod
          have hbd_dvd : 2 ^ bd ∣ (n - r) :=
            Nat.dvd_of_mod_eq_zero (mod_two_pow_ctz hm_ne)
          have hpowle : (2:Nat) ^ j ≤ 2 ^ bd := Nat.pow_le_pow_right (by decide) hjbd
          have hrbd : r < 2 ^ bd := by omega
          have hneq : n = (n - r) + r := by omega
          have htbd : Nat.testBit n bd = true := by
            rw [hneq]
            rw [testBit_add_of_dvd hbd_dvd hrbd]
            exact testBit_ctz hm_ne
          have hnmodbd : n % 2 ^ bd = r := by
            rw [hneq]
            exact add_multiple_mod hbd_dvd hrbd
          have hbdn : bd < bit_width n := testBit_lt_bit_width htbd
          have h2bd : 2 ^ bd ≤ n - r := Nat.testBit_implies_ge (testBit_ctz hm_ne)
          set lam := bit_width l with hdlam
          have hllam : l < 2 ^ lam := lt_two_pow_bit_width l
          have hlamj : lam ≤ j := bit_width_le.mpr hlj
          have hlambd : lam ≤ bd := by omega
          have hpow_lam : (2:Nat) ^ lam ≤ 2 ^ bd := Nat.pow_le_pow_right (by decide) hlambd
          -- the borrowed tree
          have hslotbd : stk.trees[bd]? = some (some (build bd (seg xs bd))) := by
            rw [htr, getElem_canonical hbdn, if_pos htbd]
          have hsegbd : seg xs bd = slice xs (n - r - 2 ^ bd) (2 ^ bd) := by
            rw [seg_def, hnmodbd]
          have hlenbd : (slice xs (n - r - 2 ^ bd) (2 ^ bd)).length = 2 ^ bd := by
            apply length_slice
            omega
          rw [hslotbd]
          rw [length_split_left]
          rw [← hdlam]
          dsimp only
          have hidx1 : n - r - 2 ^ bd + (2 ^ bd - 2 ^ lam) = n - r - 2 ^ lam := by
            omega
          have hidx2 : 2 ^ bd - (2 ^ bd - 2 ^ lam) = 2 ^ lam := by omega
          have hdesc : descend_rhs (build bd (seg xs bd)) (bd - lam)
              = some (build lam (slice xs (n - r - 2 ^ lam) (2 ^ lam))) := by
            rw [hsegbd]
            rw [descend_rhs_build hlenbd (by omega)]
            have hbdlam : bd - (bd - lam) = lam := by omega
            rw [hbdlam, slice_drop, hidx1, hidx2]
          rw [hdesc]
          dsimp only
          have hlmod : l % 2 ^ lam = l := Nat.mod_eq_of_lt hllam
          have hwalk := left_walk_spec s xs r l (by omega) lam (Nat.le_refl lam)
            (by rw [hlmod]; omega)
          rw [hlmod] at hwalk
          have hsub0 : l - l = 0 := by omega
          rw [hsub0, Nat.add_zero] at hwalk
          rw [← hdn] at hwalk
          rw [hwalk]
          congr 1
          apply decide_eq_decide.mpr
          have hnrl : n - r - l = n - L := by omega
          rw [hnrl]
          constructor
          · intro hsl
            refine ⟨hLn, ?_⟩
            rw [drop_eq_slice_append (n - L) l, hsl]
            have h2 : n - L + l = n - r := by omega
            rw [h2, htail]
            exact (List.take_append_drop l s)
          · rintro ⟨_, hsf⟩
            have h4 : slice xs (n - L) l = (xs.drop (n - L)).take l := rfl
            rw [h4, hsf]
      · rw [if_pos hall]
        congr 1
        symm
        apply decide_eq_false
        rintro ⟨_, hsf⟩
        apply hall
        rw [hlsr]
        apply (all_beq_iff _ _ _).mpr
        apply hiff.mpr
        have h1 : xs.drop (xs.length - r)
            = (xs.drop (xs.length - s.length)).drop (s.length - r) := by
          rw [List.drop_drop]
          congr 1
          omega
        rw [h1]
        rw [show xs.length - s.length = n - L from rfl, hsf]

/-! ## Correctness of `append` -/

@[simp] theorem length_resize (ts : List (Option Tr)) (k : Nat) :
    (resize ts k).length = k := by
  simp only [resize, List.length_append, List.length_take, List.length_replicate]
  omega

theorem getElem_resize_lt {ts : List (Option Tr)} {k i : Nat}
    (h1 : i < ts.length) (h2 : i < k) : (resize ts k)[i]? = ts[i]? := by
  simp only [resize]
  rw [List.getElem?_append_left (by simp only [List.length_take]; omega)]
  rw [List.getElem?_take]
  simp [h2]

theorem getElem_resize_pad {ts : List (Option Tr)} {k i : Nat}
    (h1 : ts.length ≤ i) (h2 : i < k) : (resize ts k)[i]? = some none := by
  simp only [resize]
  rw [List.getElem?_append_right (by simp only [List.length_take]; omega)]
  rw [List.getElem?_replicate]
  simp only [List.length_take]
  rw [if_pos (by omega)]

theorem getElem_resize_oob {ts : List (Option Tr)} {k i : Nat}
    (h : k ≤ i) : (resize ts k)[i]? = none := by
  rw [List.getElem?_eq_none]
  rw [length_resize]
  exact h

/-- A multiple split off one unit: `A * B = A * (B - 1) + A` for `B ≥ 1`. -/
theorem mul_pred_add {A B : Nat} (hB : 1 ≤ B) : A * B = A * (B - 1) + A := by
  have h2 : B - 1 + 1 = B := by omega
  conv_lhs => rw [← h2]
  rw [Nat.mul_add, Nat.mul_one]

/-- Bits of `l - 1` below the lowest set bit of `l` are all ones. -/
theorem testBit_pred_of_lt_ctz {l b : Nat} (hl : l ≠ 0) (hb : b < ctz l) :
    Nat.testBit (l - 1) b = true := by
  have hmod : l % 2 ^ ctz l = 0 := mod_two_pow_ctz hl
  obtain ⟨q, hq⟩ := Nat.dvd_of_mod_eq_zero hmod
  have hq1 : 1 ≤ q := by
    rcases Nat.eq_zero_or_pos q with h0 | h
    · subst h0
      simp at hq
      exact absurd hq hl
    · exact h
  have hpows : 2 ^ (b + 1) ∣ 2 ^ ctz l := Nat.pow_dvd_pow 2 (by omega)
  obtain ⟨p, hp⟩ := hpows
  have hp1 : 1 ≤ p := by
    rcases Nat.eq_zero_or_pos p with h0 | h
    · subst h0
      simp at hp
    · exact h
  have hpq1 : 1 ≤ p * q := Nat.mul_pos hp1 hq1
  have hpos : 0 < 2 ^ b := Nat.two_pow_pos b
  have hl' : l = 2 ^ b * (2 * (p * q)) := by
    rw [hq, hp]
    ring
  have hexp : 2 ^ b * (2 * (p * q)) = 2 ^ b * (2 * (p * q) - 1) + 2 ^ b :=
    mul_pred_add (by omega)
  have hkey : l - 1 = 2 ^ b * (2 * (p * q) - 1) + (2 ^ b - 1) := by
    omega
  rw [hkey, Nat.testBit_to_div_mod, Nat.mul_add_div hpos,
    Nat.div_eq_of_lt (by omega), Nat.add_zero]
  have hmod2 : (2 * (p * q) - 1) % 2 = 1 := by omega
  simp [hmod2]

/-- Bit `ctz l` of `l - 1` is clear. -/
theorem testBit_pred_ctz {l : Nat} (hl : l ≠ 0) :
    Nat.testBit (l - 1) (ctz l) = false := by
  obtain ⟨hmod, hodd⟩ := ctz_spec l hl
  obtain ⟨q, hq⟩ := Nat.dvd_of_mod_eq_zero hmod
  have hq1 : 1 ≤ q := by
    rcases Nat.eq_zero_or_pos q with h0 | h
    · subst h0
      simp at hq
      exact absurd hq hl
    · exact h
  have hpos : 0 < 2 ^ ctz l := Nat.two_pow_pos (ctz l)
  have hd2 : l / 2 ^ ctz l = q := Nat.div_eq_of_eq_mul_right hpos hq
  have hqodd : q % 2 = 1 := by
    rw [hd2] at hodd
    exact hodd
  have hexp : 2 ^ ctz l * q = 2 ^ ctz l * (q - 1) + 2 ^ ctz l :=
    mul_pred_add hq1
  have hkey : l - 1 = 2 ^ ctz l * (q - 1) + (2 ^ ctz l - 1) := by
    omega
  rw [hkey, Nat.testBit_to_div_mod, Nat.mul_add_div hpos,
    Nat.div_eq_of_lt (by omega), Nat.add_zero]
  have hmod2 : (q - 1) % 2 = 0 := by omega
  simp [hmod2]

/-- Bits of `l - 1` above the lowest set bit of `l` agree with `l`. -/
theorem testBit_pred_of_gt_ctz {l b : Nat} (hl : l ≠ 0) (hb : ctz l < b) :
    Nat.testBit (l - 1) b = Nat.testBit l b := by
  obtain ⟨hmod, hodd⟩ := ctz_spec l hl
  obtain ⟨q, hq⟩ := Nat.dvd_of_mod_eq_zero hmod
  have hpos : 0 < 2 ^ ctz l := Nat.two_pow_pos (ctz l)
  have hq1 : 1 ≤ q := by
    rcases Nat.eq_zero_or_pos q with h0 | h
    · subst h0
      simp at hq
      exact absurd hq hl
    · exact h
  have hd2 : l / 2 ^ ctz l = q := Nat.div_eq_of_eq_mul_right hpos hq
  have hqodd : q % 2 = 1 := by
    rw [hd2] at hodd
    exact hodd
  rw [Nat.testBit_to_div_mod, Nat.testBit_to_div_mod]
  have hb' : b = ctz l + (b - ctz l) := by omega
  rw [hb']
  have hsplit : (2:Nat) ^ (ctz l + (b - ctz l)) = 2 ^ ctz l * 2 ^ (b - ctz l) := by
    rw [Nat.pow_add]
  rw [hsplit, ← Nat.div_div_eq_div_mul, ← Nat.div_div_eq_div_mul]
  have hexp : 2 ^ ctz l * q = 2 ^ ctz l * (q - 1) + 2 ^ ctz l :=
    mul_pred_add hq1
  have hkey : l - 1 = 2 ^ ctz l * (q - 1) + (2 ^ ctz l - 1) := by
    omega
  have hd1 : (l - 1) / 2 ^ ctz l = q - 1 := by
    rw [hkey, Nat.mul_add_div hpos, Nat.div_eq_of_lt (by omega), Nat.add_zero]
  rw [hd1, hd2]
  have hk' : b - ctz l = 1 + (b - ctz l - 1) := by omega
  rw [hk']
  have hsplit2 : (2:Nat) ^ (1 + (b - ctz l - 1)) = 2 * 2 ^ (b - ctz l - 1) := by
    rw [Nat.pow_add, Nat.pow_one]
  rw [hsplit2, ← Nat.div_div_eq_div_mul, ← Nat.div_div_eq_div_mul]
  have hqd : (q - 1) / 2 = q / 2 := by omega
  rw [hqd]

theorem shiftRight_ne_zero_iff {r pos : Nat} :
    r >>> pos ≠ 0 ↔ ∃ b, pos ≤ b ∧ Nat.testBit r b = true := by
  constructor
  · intro h
    obtain ⟨i, hi⟩ := Nat.ne_zero_implies_bit_true h
    exact ⟨pos + i, by omega, by rw [← testBit_shiftRight_add]; exact hi⟩
  · rintro ⟨b, hb, ht⟩ h0
    have := testBit_shiftRight_add r pos (b - pos)
    rw [h0] at this
    simp only [Nat.zero_testBit] at this
    have hpb : pos + (b - pos) = b := by omega
    rw [hpb] at this
    rw [ht] at this
    simp at this

theorem lt_length_of_getElem? {α : Type} {l : List α} {n : Nat} {a : α}
    (h : l[n]? = some a) : n < l.length := by
  by_contra hn
  rw [List.getElem?_eq_none (by omega)] at h
  exact Option.noConfusion h

theorem take_slice (P : List Nat) (i b : Nat) :
    (slice P i (2 ^ (b + 1))).take (2 ^ b) = slice P i (2 ^ b) := by
  simp only [slice, List.take_take]
  congr 1
  have hpos : 0 < 2 ^ b := Nat.two_pow_pos b
  rw [Nat.pow_succ]
  omega

theorem drop_slice (P : List Nat) (i b : Nat) :
    (slice P i (2 ^ (b + 1))).drop (2 ^ b) = slice P (i + 2 ^ b) (2 ^ b) := by
  simp only [slice, List.drop_take, List.drop_drop]
  congr 1
  rw [Nat.pow_succ]
  omega

/-- Splitting a canonical tree over a power-of-two slice into its two
children, with no length side conditions. -/
theorem build_succ_slice (P : List Nat) (i b : Nat) :
    build (b + 1) (slice P i (2 ^ (b + 1)))
      = .node (build b (slice P i (2 ^ b))) (build b (slice P (i + 2 ^ b) (2 ^ b))) := by
  simp only [build, take_slice, drop_slice]

/-- The right phase of `append`: every set bit of `r` at position `≥ pos`
receives the corresponding slot of `split.right`; other slots are
untouched. -/
theorem append_right_loop_spec (rgt : List (Option Tr)) (r : Nat)
    (hr : ∀ b, Nat.testBit r b = true → ∃ s, rgt[b]? = some s) :
    ∀ fuel pos trees, bit_width (r >>> pos) ≤ fuel →
      (∀ b, Nat.testBit r b = true → b < trees.length) →
      ∃ trees', append_right_loop rgt fuel trees (r >>> pos) pos = some trees' ∧
        trees'.length = trees.length ∧
        ∀ i, trees'[i]? =
          if pos ≤ i ∧ Nat.testBit r i = true then rgt[i]? else trees[i]? := by
  intro fuel
  induction fuel with
  | zero =>
    intro pos trees hfuel hlen
    have h0 : r >>> pos = 0 := by
      by_contra hne
      have := bit_width_pos hne
      omega
    rw [h0]
    refine ⟨trees, rfl, rfl, ?_⟩
    intro i
    rw [if_neg]
    rintro ⟨hpi, hti⟩
    exact (shiftRight_ne_zero_iff.mpr ⟨i, hpi, hti⟩) h0
  | succ fuel ih =>
    intro pos trees hfuel hlen
    rcases hrem : r >>> pos with _ | m
    · refine ⟨trees, rfl, rfl, ?_⟩
      intro i
      rw [if_neg]
      rintro ⟨hpi, hti⟩
      exact (shiftRight_ne_zero_iff.mpr ⟨i, hpi, hti⟩) hrem
    · have hne : r >>> pos ≠ 0 := by rw [hrem]; exact Nat.succ_ne_zero m
      have hstep : Nat.testBit r (pos + ctz (m + 1)) = true := by
        rw [← testBit_shiftRight_add, hrem]
        exact testBit_ctz (Nat.succ_ne_zero m)
      obtain ⟨s, hs⟩ := hr _ hstep
      have hblen : pos + ctz (m + 1) < trees.length := hlen _ hstep
      simp only [append_right_loop, hs]
      have hshift : (m + 1) >>> (ctz (m + 1) + 1) = r >>> (pos + ctz (m + 1) + 1) := by
        rw [← hrem, ← Nat.shiftRight_add, ← Nat.add_assoc]
      have hfuel' : bit_width (r >>> (pos + ctz (m + 1) + 1)) ≤ fuel := by
        rw [← hshift, bit_width_shiftRight]
        have h1 : bit_width (m + 1) ≤ fuel + 1 := by rw [← hrem]; exact hfuel
        have h2 : ctz (m + 1) < bit_width (m + 1) :=
          testBit_lt_bit_width (testBit_ctz (Nat.succ_ne_zero m))
        omega
      have hlen' : ∀ b, Nat.testBit r b = true →
          b < (trees.set (pos + ctz (m + 1)) s).length := by
        intro b hb
        rw [List.length_set]
        exact hlen b hb
      obtain ⟨trees', heq, hlen2, hpt⟩ := ih (pos + ctz (m + 1) + 1)
        (trees.set (pos + ctz (m + 1)) s) hfuel' hlen'
      rw [hshift]
      refine ⟨trees', heq, by rw [hlen2, List.length_set], ?_⟩
      intro i
      rw [hpt i]
      by_cases hti : Nat.testBit r i = true
      · by_cases hi1 : pos + ctz (m + 1) + 1 ≤ i
        · rw [if_pos ⟨hi1, hti⟩, if_pos ⟨by omega, hti⟩]
        · by_cases hieq : i = pos + ctz (m + 1)
          · rw [if_neg (fun h => absurd h.1 (by omega))]
            rw [if_pos ⟨by omega, hti⟩]
            rw [hieq, hs]
            exact List.getElem?_set_self hblen
          · by_cases hpi : pos ≤ i
            · exfalso
              have h2 : Nat.testBit (m + 1) (i - pos) = true := by
                rw [← hrem]
                have := testBit_shiftRight_add r pos (i - pos)
                rw [show pos + (i - pos) = i by omega] at this
                rw [this]
                exact hti
              have h3 := testBit_eq_false_of_lt_ctz (Nat.succ_ne_zero m)
                (show i - pos < ctz (m + 1) by omega)
              rw [h3] at h2
              simp at h2
            · rw [if_neg (fun h => absurd h.1 (by omega)),
                if_neg (fun h => absurd h.1 (by omega))]
              exact List.getElem?_set_ne (by omega)
      · rw [if_neg (fun h => hti h.2), if_neg (fun h => hti h.2)]
        have hne2 : i ≠ pos + ctz (m + 1) := by
          intro hc
          rw [hc] at hti
          exact hti hstep
        exact List.getElem?_set_ne (fun hc => hne2 hc.symm)

/-- The carry loop of `append`: consecutive populated slots `b, …, B - 1`
holding canonical trees whose leaf ranges end at anchor `E` are merged into
the carried tree, stopping at the first non-populated slot `B`. -/
theorem carry_loop_spec (xs' : List Nat) (E B : Nat) (hE : 2 ^ B ≤ E) :
    ∀ fuel b trees c, b ≤ B → B - b ≤ fuel →
      (∀ b', b ≤ b' → b' < B →
        trees[b']? = some (some (build b' (slice xs' (E - 2 ^ (b' + 1)) (2 ^ b'))))) →
      (trees[B]? = some none ∨ trees[B]? = none) →
      c = build b (slice xs' (E - 2 ^ b) (2 ^ b)) →
      ∃ trees', carry_loop fuel trees c b
          = some (trees', build B (slice xs' (E - 2 ^ B) (2 ^ B)), B) ∧
        trees'.length = trees.length ∧
        ∀ i, trees'[i]? = if b ≤ i ∧ i < B then some none else trees[i]? := by
  intro fuel
  induction fuel with
  | zero =>
    intro b trees c hbB hfuel htrees hstop hc
    have hbe : b = B := by omega
    subst hbe
    subst hc
    refine ⟨trees, ?_, rfl, ?_⟩
    · rcases hstop with h | h <;> simp only [carry_loop, h]
    · intro i
      rw [if_neg (fun h => absurd h.2 (by omega))]
  | succ fuel ih =>
    intro b trees c hbB hfuel htrees hstop hc
    by_cases hbe : b = B
    · subst hbe
      subst hc
      refine ⟨trees, ?_, rfl, ?_⟩
      · rcases hstop with h | h <;> simp only [carry_loop, h]
      · intro i
        rw [if_neg (fun h => absurd h.2 (by omega))]
    · have hblt : b < B := by omega
      have hslot := htrees b (Nat.le_refl b) hblt
      have hblen : b < trees.length := lt_length_of_getElem? hslot
      have hpow : 2 ^ (b + 1) ≤ E :=
        Nat.le_trans (Nat.pow_le_pow_right (by omega) (by omega)) hE
      have hpos : 0 < 2 ^ b := Nat.two_pow_pos b
      have hpos1 : 0 < 2 ^ (b + 1) := Nat.two_pow_pos (b + 1)
      have harith : E - 2 ^ (b + 1) + 2 ^ b = E - 2 ^ b := by
        rw [Nat.pow_succ] at hpow ⊢
        omega
      have hc' : Tr.node (build b (slice xs' (E - 2 ^ (b + 1)) (2 ^ b))) c
          = build (b + 1) (slice xs' (E - 2 ^ (b + 1)) (2 ^ (b + 1))) := by
        rw [build_succ_slice, harith, hc]
      have htrees' : ∀ b', b + 1 ≤ b' → b' < B →
          (trees.set b none)[b']? =
            some (some (build b' (slice xs' (E - 2 ^ (b' + 1)) (2 ^ b')))) := by
        intro b' h1 h2
        rw [List.getElem?_set_ne (by omega)]
        exact htrees b' (by omega) h2
      have hstop' : (trees.set b none)[B]? = some none ∨ (trees.set b none)[B]? = none := by
        rw [List.getElem?_set_ne (by omega)]
        exact hstop
      obtain ⟨trees', heq, hlen2, hpt⟩ := ih (b + 1) (trees.set b none)
        (.node (build b (slice xs' (E - 2 ^ (b + 1)) (2 ^ b))) c)
        (by omega) (by omega) htrees' hstop' hc'
      refine ⟨trees', ?_, by rw [hlen2, List.length_set], ?_⟩
      · simp only [carry_loop, hslot]
        exact heq
      · intro i
        rw [hpt i]
        by_cases hieq : i = b
        · subst hieq
          rw [if_neg (fun h => absurd h.1 (by omega)), if_pos ⟨Nat.le_refl i, hblt⟩]
          exact List.getElem?_set_self hblen
        · rw [List.getElem?_set_ne (fun hc => hieq hc.symm)]
          by_cases hcond : b + 1 ≤ i ∧ i < B
          · rw [if_pos hcond, if_pos ⟨by omega, hcond.2⟩]
          · rw [if_neg hcond, if_neg (fun h => hcond ⟨by omega, h.2⟩)]

/-- The combining loop of the `append` left phase: at supplied bits the
split-table tree is appended on the right of the carried tree, at
non-supplied bits the stack's own slot is consumed on the left; the carried
tree's leaf range always ends `l % 2 ^ b` places past the anchor `n`. -/
theorem append_left_loop_spec (lft : List (Option Tr)) (l : Nat) (xs' : List Nat) (n : Nat)
    (hlft : ∀ b, b < bit_width l → Nat.testBit l b = true →
      lft[b]? = some (some (build b (slice xs' (n + l % 2 ^ b) (2 ^ b)))))
    (hsafe : ∀ b, b < bit_width l → 2 ^ b ≤ n + l % 2 ^ b)
    (hsafe2 : ∀ b, b < bit_width l → Nat.testBit l b = false →
      2 ^ (b + 1) ≤ n + l % 2 ^ b) :
    ∀ fuel b trees c, b ≤ bit_width l → bit_width l - b ≤ fuel →
      (∀ b', b ≤ b' → b' < bit_width l → Nat.testBit l b' = false →
        trees[b']? =
          some (some (build b' (slice xs' (n + l % 2 ^ b' - 2 ^ (b' + 1)) (2 ^ b'))))) →
      c = build b (slice xs' (n + l % 2 ^ b - 2 ^ b) (2 ^ b)) →
      ∃ trees', append_left_loop lft l fuel trees c b
          = some (trees',
              build (bit_width l)
                (slice xs' (n + l % 2 ^ bit_width l - 2 ^ bit_width l) (2 ^ bit_width l)),
              bit_width l) ∧
        trees'.length = trees.length ∧
        ∀ i, trees'[i]? = if b ≤ i ∧ i < bit_width l ∧ Nat.testBit l i = false
          then some none else trees[i]? := by
  intro fuel
  induction fuel with
  | zero =>
    intro b trees c hb hfuel htrees hc
    have hbe : b = bit_width l := by omega
    have hguardF : ¬ the_bit b ≤ l := by
      rw [the_bit_eq_pow]
      intro hg
      exact absurd (two_pow_le_iff_lt_bit_width.mp hg) (by omega)
    subst hbe
    subst hc
    simp only [append_left_loop]
    rw [if_neg hguardF]
    refine ⟨trees, rfl, rfl, ?_⟩
    intro i
    rw [if_neg (fun h => absurd h.2.1 (by omega))]
  | succ fuel ih =>
    intro b trees c hb hfuel htrees hc
    by_cases hbe : b = bit_width l
    · have hguardF : ¬ the_bit b ≤ l := by
        rw [the_bit_eq_pow]
        intro hg
        exact absurd (two_pow_le_iff_lt_bit_width.mp hg) (by omega)
      subst hbe
      subst hc
      simp only [append_left_loop]
      rw [if_neg hguardF]
      refine ⟨trees, rfl, rfl, ?_⟩
      intro i
      rw [if_neg (fun h => absurd h.2.1 (by omega))]
    · have hblt : b < bit_width l := by omega
      have hguard : the_bit b ≤ l := by
        rw [the_bit_eq_pow]
        exact two_pow_le_iff_lt_bit_width.mpr hblt
      have hpos : 0 < 2 ^ b := Nat.two_pow_pos b
      simp only [append_left_loop]
      rw [if_pos hguard]
      by_cases ht : Nat.testBit l b = true
      · -- supplied bit: combine with the split-table tree on the right
        rw [if_pos ((and_the_bit_ne_zero_iff l b).mpr ht)]
        have hlftb := hlft b hblt ht
        simp only [hlftb]
        have hm : l % 2 ^ (b + 1) = l % 2 ^ b + 2 ^ b := mod_pow_succ_of_testBit ht
        have hc' : Tr.node c (build b (slice xs' (n + l % 2 ^ b) (2 ^ b)))
            = build (b + 1) (slice xs' (n + l % 2 ^ (b + 1) - 2 ^ (b + 1)) (2 ^ (b + 1))) := by
          have hstart : n + l % 2 ^ (b + 1) - 2 ^ (b + 1) = n + l % 2 ^ b - 2 ^ b := by
            rw [hm, Nat.pow_succ]
            omega
          have hmid : n + l % 2 ^ b - 2 ^ b + 2 ^ b = n + l % 2 ^ b := by
            have := hsafe b hblt
            omega
          rw [hstart, build_succ_slice, hmid, hc]
        have htrees' : ∀ b', b + 1 ≤ b' → b' < bit_width l → Nat.testBit l b' = false →
            trees[b']? =
              some (some (build b' (slice xs' (n + l % 2 ^ b' - 2 ^ (b' + 1)) (2 ^ b')))) :=
          fun b' h1 h2 h3 => htrees b' (by omega) h2 h3
        obtain ⟨trees', heq, hlen2, hpt⟩ := ih (b + 1) trees
          (.node c (build b (slice xs' (n + l % 2 ^ b) (2 ^ b))))
          (by omega) (by omega) htrees' hc'
        refine ⟨trees', heq, hlen2, ?_⟩
        intro i
        rw [hpt i]
        by_cases hieq : i = b
        · subst hieq
          rw [if_neg (fun h => absurd h.1 (by omega)),
            if_neg (fun h => by simp [ht] at h)]
        · by_cases hcond : b + 1 ≤ i ∧ i < bit_width l ∧ Nat.testBit l i = false
          · rw [if_pos hcond, if_pos ⟨by omega, hcond.2⟩]
          · rw [if_neg hcond, if_neg (fun h => hcond ⟨by omega, h.2⟩)]
      · -- non-supplied bit: consume the stack's own slot on the left
        have htf : Nat.testBit l b = false := by
          cases h : Nat.testBit l b
          · rfl
          · exact absurd h ht
        rw [if_neg (fun hg => ht ((and_the_bit_ne_zero_iff l b).mp hg))]
        have hslot := htrees b (Nat.le_refl b) hblt htf
        have hblen : b < trees.length := lt_length_of_getElem? hslot
        simp only [hslot]
        have hm : l % 2 ^ (b + 1) = l % 2 ^ b := mod_pow_succ_of_not_testBit htf
        have hc' : Tr.node (build b (slice xs' (n + l % 2 ^ b - 2 ^ (b + 1)) (2 ^ b))) c
            = build (b + 1) (slice xs' (n + l % 2 ^ (b + 1) - 2 ^ (b + 1)) (2 ^ (b + 1))) := by
          have hmid : n + l % 2 ^ b - 2 ^ (b + 1) + 2 ^ b = n + l % 2 ^ b - 2 ^ b := by
            have := hsafe2 b hblt htf
            rw [Nat.pow_succ] at this ⊢
            omega
          rw [hm, build_succ_slice, hmid, hc]
        have htrees' : ∀ b', b + 1 ≤ b' → b' < bit_width l → Nat.testBit l b' = false →
            (trees.set b none)[b']? =
              some (some (build b' (slice xs' (n + l % 2 ^ b' - 2 ^ (b' + 1)) (2 ^ b')))) := by
          intro b' h1 h2 h3
          rw [List.getElem?_set_ne (by omega)]
          exact htrees b' (by omega) h2 h3
        obtain ⟨trees', heq, hlen2, hpt⟩ := ih (b + 1) (trees.set b none)
          (.node (build b (slice xs' (n + l % 2 ^ b - 2 ^ (b + 1)) (2 ^ b))) c)
          (by omega) (by omega) htrees' hc'
        refine ⟨trees', heq, by rw [hlen2, List.length_set], ?_⟩
        intro i
        rw [hpt i]
        by_cases hieq : i = b
        · subst hieq
          rw [if_neg (fun h => absurd h.1 (by omega)), if_pos ⟨Nat.le_refl i, hblt, htf⟩]
          exact List.getElem?_set_self hblen
        · rw [List.getElem?_set_ne (fun hcc => hieq hcc.symm)]
          by_cases hcond : b + 1 ≤ i ∧ i < bit_width l ∧ Nat.testBit l i = false
          · rw [if_pos hcond, if_pos ⟨by omega, hcond.2⟩]
          · rw [if_neg hcond, if_neg (fun h => hcond ⟨by omega, h.2⟩)]

/-- The right phase of `truncate`: every set bit of `r` at position `≥ pos`
is nulled out; other slots are untouched. -/
theorem truncate_right_loop_spec (r : Nat) :
    ∀ fuel pos trees, bit_width (r >>> pos) ≤ fuel →
      (∀ b, Nat.testBit r b = true → b < trees.length) →
      ∃ trees', truncate_right_loop fuel trees (r >>> pos) pos = some trees' ∧
        trees'.length = trees.length ∧
        ∀ i, trees'[i]? =
          if pos ≤ i ∧ Nat.testBit r i = true then some none else trees[i]? := by
  intro fuel
  induction fuel with
  | zero =>
    intro pos trees hfuel hlen
    have h0 : r >>> pos = 0 := by
      by_contra hne
      have := bit_width_pos hne
      omega
    rw [h0]
    refine ⟨trees, rfl, rfl, ?_⟩
    intro i
    rw [if_neg]
    rintro ⟨hpi, hti⟩
    exact (shiftRight_ne_zero_iff.mpr ⟨i, hpi, hti⟩) h0
  | succ fuel ih =>
    intro pos trees hfuel hlen
    rcases hrem : r >>> pos with _ | m
    · refine ⟨trees, rfl, rfl, ?_⟩
      intro i
      rw [if_neg]
      rintro ⟨hpi, hti⟩
      exact (shiftRight_ne_zero_iff.mpr ⟨i, hpi, hti⟩) hrem
    · have hne : r >>> pos ≠ 0 := by rw [hrem]; exact Nat.succ_ne_zero m
      have hstep : Nat.testBit r (pos + ctz (m + 1)) = true := by
        rw [← testBit_shiftRight_add, hrem]
        exact testBit_ctz (Nat.succ_ne_zero m)
      have hblen : pos + ctz (m + 1) < trees.length := hlen _ hstep
      simp only [truncate_right_loop]
      have hshift : (m + 1) >>> (ctz (m + 1) + 1) = r >>> (pos + ctz (m + 1) + 1) := by
        rw [← hrem, ← Nat.shiftRight_add, ← Nat.add_assoc]
      have hfuel' : bit_width (r >>> (pos + ctz (m + 1) + 1)) ≤ fuel := by
        rw [← hshift, bit_width_shiftRight]
        have h1 : bit_width (m + 1) ≤ fuel + 1 := by rw [← hrem]; exact hfuel
        have h2 : ctz (m + 1) < bit_width (m + 1) :=
          testBit_lt_bit_width (testBit_ctz (Nat.succ_ne_zero m))
        omega
      have hlen' : ∀ b, Nat.testBit r b = true →
          b < (trees.set (pos + ctz (m + 1)) none).length := by
        intro b hb
        rw [List.length_set]
        exact hlen b hb
      obtain ⟨trees', heq, hlen2, hpt⟩ := ih (pos + ctz (m + 1) + 1)
        (trees.set (pos + ctz (m + 1)) none) hfuel' hlen'
      rw [hshift]
      refine ⟨trees', heq, by rw [hlen2, List.length_set], ?_⟩
      intro i
      rw [hpt i]
      by_cases hti : Nat.testBit r i = true
      · by_cases hi1 : pos + ctz (m + 1) + 1 ≤ i
        · rw [if_pos ⟨hi1, hti⟩, if_pos ⟨by omega, hti⟩]
        · by_cases hieq : i = pos + ctz (m + 1)
          · rw [if_neg (fun h => absurd h.1 (by omega))]
            rw [if_pos ⟨by omega, hti⟩, hieq]
            exact List.getElem?_set_self hblen
          · by_cases hpi : pos ≤ i
            · exfalso
              have h2 : Nat.testBit (m + 1) (i - pos) = true := by
                rw [← hrem]
                have := testBit_shiftRight_add r pos (i - pos)
                rw [show pos + (i - pos) = i by omega] at this
                rw [this]
                exact hti
              have h3 := testBit_eq_false_of_lt_ctz (Nat.succ_ne_zero m)
                (show i - pos < ctz (m + 1) by omega)
              rw [h3] at h2
              simp at h2
            · rw [if_neg (fun h => absurd h.1 (by omega)),
                if_neg (fun h => absurd h.1 (by omega))]
              exact List.getElem?_set_ne (by omega)
      · rw [if_neg (fun h => hti h.2), if_neg (fun h => hti h.2)]
        have hne2 : i ≠ pos + ctz (m + 1) := by
          intro hcc
          rw [hcc] at hti
          exact hti hstep
        exact List.getElem?_set_ne (fun hcc => hne2 hcc.symm)

/-- The deconstruction walk of `truncate`: descending from a canonical tree
whose kept leaves end at anchor `k`, each kept bit `b` deposits the left
child into slot `b`, and the walk never fails. -/
theorem truncate_walk_spec (xs : List Nat) (k keep : Nat) (hk : keep ≤ k) :
    ∀ h trees t, h ≤ trees.length →
      t = build h (slice xs (k - keep % 2 ^ h) (2 ^ h)) →
      ∃ trees', truncate_walk keep h t trees = some trees' ∧
        trees'.length = trees.length ∧
        ∀ i, trees'[i]? = if i < h ∧ Nat.testBit keep i = true then
            some (some (build i (slice xs (k - keep % 2 ^ (i + 1)) (2 ^ i))))
          else trees[i]? := by
  intro h
  induction h with
  | zero =>
    intro trees t hlen ht
    refine ⟨trees, rfl, rfl, ?_⟩
    intro i
    rw [if_neg (fun hcc => absurd hcc.1 (by omega))]
  | succ h ih =>
    intro trees t hlen ht
    rw [build_succ_slice] at ht
    subst ht
    simp only [truncate_walk]
    have hmle : keep % 2 ^ (h + 1) ≤ k := Nat.le_trans (Nat.mod_le _ _) hk
    by_cases htb : Nat.testBit keep h = true
    · rw [if_pos ((and_the_bit_ne_zero_iff keep h).mpr htb)]
      have hm : keep % 2 ^ (h + 1) = keep % 2 ^ h + 2 ^ h := mod_pow_succ_of_testBit htb
      have hmid : k - keep % 2 ^ (h + 1) + 2 ^ h = k - keep % 2 ^ h := by
        omega
      rw [hmid]
      have hblen : h < trees.length := by omega
      obtain ⟨trees', heq, hlen2, hpt⟩ := ih
        (trees.set h (some (build h (slice xs (k - keep % 2 ^ (h + 1)) (2 ^ h)))))
        (build h (slice xs (k - keep % 2 ^ h) (2 ^ h)))
        (by rw [List.length_set]; omega) rfl
      refine ⟨trees', heq, by rw [hlen2, List.length_set], ?_⟩
      intro i
      rw [hpt i]
      by_cases hieq : i = h
      · subst hieq
        rw [if_neg (fun hcc => absurd hcc.1 (by omega)), if_pos ⟨by omega, htb⟩]
        exact List.getElem?_set_self hblen
      · rw [List.getElem?_set_ne (fun hcc => hieq hcc.symm)]
        by_cases hcond : i < h ∧ Nat.testBit keep i = true
        · rw [if_pos hcond, if_pos ⟨by omega, hcond.2⟩]
        · rw [if_neg hcond, if_neg (fun hcc => hcond ⟨by omega, hcc.2⟩)]
    · have htf : Nat.testBit keep h = false := by
        cases hx : Nat.testBit keep h
        · rfl
        · exact absurd hx htb
      rw [if_neg (fun hg => htb ((and_the_bit_ne_zero_iff keep h).mp hg))]
      have hm : keep % 2 ^ (h + 1) = keep % 2 ^ h := mod_pow_succ_of_not_testBit htf
      rw [hm]
      obtain ⟨trees', heq, hlen2, hpt⟩ := ih trees
        (build h (slice xs (k - keep % 2 ^ h) (2 ^ h))) (by omega) rfl
      refine ⟨trees', heq, hlen2, ?_⟩
      intro i
      rw [hpt i]
      by_cases hcond : i < h ∧ Nat.testBit keep i = true
      · rw [if_pos hcond, if_pos ⟨by omega, hcond.2⟩]
      · rw [if_neg hcond, if_neg]
        rintro ⟨h1, h2⟩
        have : i = h ∨ i < h := by omega
        rcases this with h3 | h3
        · rw [h3] at h2
          rw [htf] at h2
          exact Bool.noConfusion h2
        · exact hcond ⟨h3, h2⟩

theorem mod_of_add_mod_eq_zero {N l B : Nat} (hl : 0 < l) (hlB : l ≤ 2 ^ B)
    (hmod : (N + l) % 2 ^ B = 0) : N % 2 ^ B = 2 ^ B - l := by
  have hpos : 0 < 2 ^ B := Nat.two_pow_pos B
  obtain ⟨q, hq⟩ := Nat.dvd_of_mod_eq_zero hmod
  have hq1 : 1 ≤ q := by
    rcases Nat.eq_zero_or_pos q with h0 | h
    · subst h0
      omega
    · exact h
  have hN : N = 2 ^ B * (q - 1) + (2 ^ B - l) := by
    have := mul_pred_add (A := 2 ^ B) hq1
    omega
  rw [hN]
  exact add_multiple_mod (Dvd.intro _ rfl) (by omega)

/-- Low bits of `N` when `N + l` is a multiple of `2 ^ B`: the complement of
the bits of `l - 1`. -/
theorem testBit_of_add_mod_eq_zero {N l B b : Nat} (hl : 0 < l) (hlB : l ≤ 2 ^ B)
    (hmod : (N + l) % 2 ^ B = 0) (hb : b < B) :
    Nat.testBit N b = ! Nat.testBit (l - 1) b := by
  have h1 : Nat.testBit N b = Nat.testBit (N % 2 ^ B) b := by
    rw [Nat.testBit_mod_two_pow]
    simp [hb]
  rw [h1, mod_of_add_mod_eq_zero hl hlB hmod]
  have h2 : 2 ^ B - l = 2 ^ B - (l - 1 + 1) := by omega
  rw [h2, Nat.testBit_two_pow_sub_succ (by omega)]
  simp [hb]

theorem testBit_eq_decide_le {v B : Nat} (hv : v < 2 ^ (B + 1)) :
    Nat.testBit v B = decide (2 ^ B ≤ v) := by
  rw [Nat.testBit_to_div_mod]
  have hpos : 0 < 2 ^ B := Nat.two_pow_pos B
  have h2 : 2 ^ (B + 1) = 2 ^ B + 2 ^ B := by
    rw [Nat.pow_succ]
    omega
  by_cases h : 2 ^ B ≤ v
  · have hd : v / 2 ^ B = 1 := by
      apply Nat.div_eq_of_lt_le (by omega)
      omega
    rw [hd]
    simp [h]
  · have hd : v / 2 ^ B = 0 := Nat.div_eq_of_lt (by omega)
    rw [hd]
    simp [h]

/-- Reading one bit off the residue mod the next power. -/
theorem testBit_eq_decide_mod_succ (N B : Nat) :
    Nat.testBit N B = decide (2 ^ B ≤ N % 2 ^ (B + 1)) := by
  have h1 : Nat.testBit (N % 2 ^ (B + 1)) B = Nat.testBit N B := by
    rw [Nat.testBit_mod_two_pow]
    simp
  rw [← h1, testBit_eq_decide_le (Nat.mod_lt _ (Nat.two_pow_pos _))]

theorem resize_canonical_getElem {xs : List Nat} {k i : Nat}
    (hk : bit_width xs.length ≤ k) (hi : i < k) :
    (resize (canonical xs) k)[i]? =
      some (if Nat.testBit xs.length i then some (build i (seg xs i)) else none) := by
  by_cases hib : i < bit_width xs.length
  · rw [getElem_resize_lt (by simpa using hib) hi]
    exact getElem_canonical hib
  · rw [getElem_resize_pad (by simpa using Nat.le_of_not_lt hib) hi]
    rw [if_neg (by
      rw [testBit_eq_false_of_bit_width_le (by omega)]
      exact Bool.false_ne_true)]

/-- The left phase of `append` when a borrow is needed (`on_left > 0`): it
succeeds, fills slot `ctz (n + on_left)` with the canonical combined tree,
nulls everything below it, and leaves the higher slots untouched. -/
theorem append_left_phase_pos {stk : Stk} {xs v : List Nat} {r l b2 : Nat}
    (hinv : Inv stk xs)
    (hr : r = compute_association (xs.length + v.length) v.length)
    (hl : l = v.length - r) (hlpos : 0 < l)
    (hb2 : b2 = ctz (xs.length + l)) :
    ∃ trees1, append_left_phase stk v = some trees1 ∧
      trees1.length = bit_width (xs.length + v.length) ∧
      trees1[b2]? =
        some (some (build b2 (slice (xs ++ v) (xs.length + l - 2 ^ b2) (2 ^ b2)))) ∧
      (∀ i, i < b2 → trees1[i]? = some none) ∧
      (∀ i, b2 < i →
        trees1[i]? = (resize (canonical xs) (bit_width (xs.length + v.length)))[i]?) := by
  obtain ⟨hsz, htr⟩ := hinv
  have hLpos : 0 < v.length := by
    rcases Nat.eq_zero_or_pos v.length with h0 | h
    · rw [hr] at hl
      rw [h0] at hl
      simp [compute_association] at hl
      omega
    · exact h
  have hrm : r = (xs.length + v.length) % 2 ^ assoc_width (xs.length + v.length) v.length := by
    rw [hr, compute_association_eq_mod]
  have hrL : r ≤ v.length := by
    rw [hr]
    exact compute_association_le _ _
  have hl2 : l < 2 ^ assoc_width (xs.length + v.length) v.length := by
    have := sub_compute_association_lt (xs.length + v.length) v.length (by omega)
    rw [← hr] at this
    omega
  have hnl : xs.length + l = (xs.length + v.length) - r := by omega
  have hmodj : (xs.length + l) % 2 ^ assoc_width (xs.length + v.length) v.length = 0 := by
    rw [hnl]
    conv_lhs => rw [hrm]
    exact mod_sub_mod_eq_zero _ _
  have hnl0 : xs.length + l ≠ 0 := by omega
  have hjb2 : assoc_width (xs.length + v.length) v.length ≤ b2 := by
    rw [hb2]
    exact ctz_ge_of_mod_eq_zero hnl0 hmodj
  have hlwj : bit_width l ≤ assoc_width (xs.length + v.length) v.length :=
    bit_width_le.mpr hl2
  have htzlw : ctz l < bit_width l := testBit_lt_bit_width (testBit_ctz (by omega))
  have hl2b2 : l ≤ 2 ^ b2 :=
    Nat.le_of_lt (Nat.lt_of_lt_of_le hl2 (Nat.pow_le_pow_right (by omega) hjb2))
  have hmodb2 : (xs.length + l) % 2 ^ b2 = 0 := by
    rw [hb2]
    exact mod_two_pow_ctz hnl0
  have hbit : ∀ b, b < b2 → Nat.testBit xs.length b = ! Nat.testBit (l - 1) b :=
    fun b hb => testBit_of_add_mod_eq_zero hlpos hl2b2 hmodb2 hb
  have htzb2 : ctz l < b2 := by omega
  have hbtz : Nat.testBit xs.length (ctz l) = true := by
    rw [hbit (ctz l) htzb2, testBit_pred_ctz (by omega)]
    rfl
  have hbit_high : ∀ b, bit_width l ≤ b → b < b2 → Nat.testBit xs.length b = true := by
    intro b h1 h2
    rw [hbit b h2]
    have hw : bit_width (l - 1) ≤ b := Nat.le_trans (bit_width_mono (by omega)) h1
    rw [testBit_eq_false_of_bit_width_le hw]
    rfl
  have hbit_mid : ∀ b, ctz l < b → b < bit_width l →
      Nat.testBit xs.length b = (! Nat.testBit l b) := by
    intro b h1 h2
    rw [hbit b (by omega), testBit_pred_of_gt_ctz (by omega) h1]
  have hbit_low : ∀ b, b < ctz l → Nat.testBit xs.length b = false := by
    intro b h1
    rw [hbit b (by omega), testBit_pred_of_lt_ctz (by omega) h1]
    rfl
  -- the decomposition `n + l = 2 ^ (b2 + 1) * M + 2 ^ b2`
  obtain ⟨hm0, hmodd⟩ := ctz_spec (xs.length + l) hnl0
  have hq : xs.length + l = 2 ^ b2 * ((xs.length + l) / 2 ^ b2) := by
    rw [hb2]
    exact (Nat.mul_div_cancel' (Nat.dvd_of_mod_eq_zero hm0)).symm
  have hqodd : (xs.length + l) / 2 ^ b2 % 2 = 1 := by
    rw [hb2]
    exact hmodd
  have hdecomp : xs.length + l
      = 2 ^ (b2 + 1) * ((xs.length + l) / 2 ^ b2 / 2) + 2 ^ b2 := by
    have h1 : (xs.length + l) / 2 ^ b2
        = 2 * ((xs.length + l) / 2 ^ b2 / 2) + 1 := by omega
    conv_lhs => rw [hq, h1]
    rw [Nat.mul_add, Nat.mul_one, ← Nat.mul_assoc, ← Nat.pow_succ]
  have hpb2 : 0 < 2 ^ b2 := Nat.two_pow_pos b2
  have hpb21 : 2 ^ (b2 + 1) = 2 ^ b2 + 2 ^ b2 := by
    rw [Nat.pow_succ]
    omega
  have hnmod21 : xs.length % 2 ^ (b2 + 1) = 2 ^ b2 - l := by
    have hn' : xs.length
        = 2 ^ (b2 + 1) * ((xs.length + l) / 2 ^ b2 / 2) + (2 ^ b2 - l) := by omega
    rw [hn']
    exact add_multiple_mod (Dvd.intro _ rfl) (by omega)
  have hbitb2 : Nat.testBit xs.length b2 = false := by
    rw [testBit_eq_decide_mod_succ, hnmod21]
    exact decide_eq_false (by omega)
  have hrb2 : r < 2 ^ b2 :=
    Nat.lt_of_lt_of_le (by rw [hrm]; exact Nat.mod_lt _ (Nat.two_pow_pos _))
      (Nat.pow_le_pow_right (by omega) hjb2)
  have hn'mod21 : (xs.length + v.length) % 2 ^ (b2 + 1) = 2 ^ b2 + r := by
    have hd : xs.length + v.length
        = 2 ^ (b2 + 1) * ((xs.length + l) / 2 ^ b2 / 2) + (2 ^ b2 + r) := by omega
    rw [hd]
    exact add_multiple_mod (Dvd.intro _ rfl) (by omega)
  have hbitn'b2 : Nat.testBit (xs.length + v.length) b2 = true := by
    rw [testBit_eq_decide_mod_succ, hn'mod21]
    exact decide_eq_true (by omega)
  have hb2n' : b2 < bit_width (xs.length + v.length) := testBit_lt_bit_width hbitn'b2
  have hbwn : bit_width xs.length ≤ bit_width (xs.length + v.length) :=
    bit_width_mono (by omega)
  have htrees0 : ∀ i, i < bit_width (xs.length + v.length) →
      (resize (canonical xs) (bit_width (xs.length + v.length)))[i]? =
        some (if Nat.testBit xs.length i then some (build i (seg xs i)) else none) :=
    fun i hi => resize_canonical_getElem hbwn hi
  have hmodb : ∀ b, b ≤ b2 → (xs.length + l) % 2 ^ b = 0 := by
    intro b hb
    obtain ⟨c, hc⟩ := (Nat.pow_dvd_pow 2 hb).trans (Nat.dvd_of_mod_eq_zero hmodb2)
    rw [hc, Nat.mul_mod_right]
  have hnmodb : ∀ b, b ≤ b2 → 0 < l % 2 ^ b →
      xs.length % 2 ^ b = 2 ^ b - l % 2 ^ b := by
    intro b hb hlp
    apply mod_of_add_mod_eq_zero hlp (Nat.le_of_lt (Nat.mod_lt _ (Nat.two_pow_pos _)))
    have hsplit : xs.length + l = xs.length + l % 2 ^ b + 2 ^ b * (l / 2 ^ b) := by
      have := Nat.mod_add_div l (2 ^ b)
      omega
    have h1 := hmodb b hb
    rw [hsplit, Nat.add_mul_mod_self_left] at h1
    exact h1
  have hmodz_iff : ∀ b, l % 2 ^ b = 0 → b ≤ ctz l :=
    fun b hbz => ctz_ge_of_mod_eq_zero (by omega) hbz
  have htzn : 2 ^ ctz l ≤ xs.length := by
    have := testBit_mod_add_pow_le hbtz
    omega
  -- preconditions of the left-loop spec
  have hlft : ∀ b, b < bit_width l → Nat.testBit l b = true →
      (split_left v l)[b]? =
        some (some (build b (slice (xs ++ v) (xs.length + l % 2 ^ b) (2 ^ b)))) := by
    intro b hb ht
    rw [getElem_split_left (by omega) hb, if_pos ht, slice_append_right]
  have hsafe : ∀ b, b < bit_width l → 2 ^ b ≤ xs.length + l % 2 ^ b := by
    intro b hb
    rcases Nat.eq_zero_or_pos (l % 2 ^ b) with h0 | hpos
    · have hble : b ≤ ctz l := hmodz_iff b h0
      have : (2:Nat) ^ b ≤ 2 ^ ctz l := Nat.pow_le_pow_right (by omega) hble
      omega
    · have := hnmodb b (by omega) hpos
      have hmle : xs.length % 2 ^ b ≤ xs.length := Nat.mod_le _ _
      omega
  have hsafe2 : ∀ b, b < bit_width l → Nat.testBit l b = false →
      2 ^ (b + 1) ≤ xs.length + l % 2 ^ b := by
    intro b hb ht
    rcases Nat.lt_trichotomy b (ctz l) with hbt | hbt | hbt
    · have : (2:Nat) ^ (b + 1) ≤ 2 ^ ctz l := Nat.pow_le_pow_right (by omega) (by omega)
      omega
    · rw [hbt] at ht
      rw [testBit_ctz (by omega)] at ht
      exact Bool.noConfusion ht
    · have hpos : 0 < l % 2 ^ b := by
        rcases Nat.eq_zero_or_pos (l % 2 ^ b) with h0 | h
        · have := hmodz_iff b h0
          omega
        · exact h
      have hms : l % 2 ^ (b + 1) = l % 2 ^ b := mod_pow_succ_of_not_testBit ht
      have h1 : xs.length % 2 ^ (b + 1) = 2 ^ (b + 1) - l % 2 ^ (b + 1) :=
        hnmodb (b + 1) (by omega) (by omega)
      have hmle : xs.length % 2 ^ (b + 1) ≤ xs.length := Nat.mod_le _ _
      omega
  have htzW : ctz l < bit_width (xs.length + v.length) := by omega
  have hseg_tz : seg xs (ctz l)
      = slice (xs ++ v) (xs.length + l % 2 ^ ctz l - 2 ^ ctz l) (2 ^ ctz l) := by
    have hlm : l % 2 ^ ctz l = 0 := mod_two_pow_ctz (by omega)
    have hnm : xs.length % 2 ^ ctz l = 0 := by
      have h1 := hmodb (ctz l) (by omega)
      have hsplit : xs.length + l
          = xs.length + l % 2 ^ ctz l + 2 ^ ctz l * (l / 2 ^ ctz l) := by
        have := Nat.mod_add_div l (2 ^ ctz l)
        omega
      rw [hsplit, Nat.add_mul_mod_self_left, hlm, Nat.add_zero] at h1
      exact h1
    rw [seg_def, hnm, hlm, Nat.add_zero, Nat.sub_zero]
    refine (slice_append_left ?_).symm
    omega
  have htrees_init : ∀ b', ctz l ≤ b' → b' < bit_width l → Nat.testBit l b' = false →
      ((resize (canonical xs) (bit_width (xs.length + v.length))).set (ctz l) none)[b']? =
        some (some (build b'
          (slice (xs ++ v) (xs.length + l % 2 ^ b' - 2 ^ (b' + 1)) (2 ^ b')))) := by
    intro b' h1 h2 h3
    have hne : b' ≠ ctz l := by
      intro hcc
      rw [hcc, testBit_ctz (by omega)] at h3
      exact Bool.noConfusion h3
    have hgt : ctz l < b' := by omega
    rw [List.getElem?_set_ne (fun hcc => hne hcc.symm)]
    rw [htrees0 b' (by omega)]
    rw [if_pos (by rw [hbit_mid b' hgt h2, h3]; rfl)]
    have hpos : 0 < l % 2 ^ b' := by
      rcases Nat.eq_zero_or_pos (l % 2 ^ b') with h0 | h
      · have := hmodz_iff b' h0
        omega
      · exact h
    have hms : l % 2 ^ (b' + 1) = l % 2 ^ b' := mod_pow_succ_of_not_testBit h3
    have hnm : xs.length % 2 ^ b' = 2 ^ b' - l % 2 ^ b' := hnmodb b' (by omega) hpos
    have hnm1 : xs.length % 2 ^ (b' + 1) = 2 ^ (b' + 1) - l % 2 ^ (b' + 1) :=
      hnmodb (b' + 1) (by omega) (by omega)
    have hmle : xs.length % 2 ^ (b' + 1) ≤ xs.length := Nat.mod_le _ _
    have hp1 : 2 ^ (b' + 1) = 2 ^ b' + 2 ^ b' := by
      rw [Nat.pow_succ]
      omega
    have hmlt : l % 2 ^ b' < 2 ^ b' := Nat.mod_lt _ (Nat.two_pow_pos _)
    have hstart : xs.length - (2 ^ b' - l % 2 ^ b') - 2 ^ b'
        = xs.length + l % 2 ^ b' - 2 ^ (b' + 1) := by omega
    have hseg : seg xs b'
        = slice (xs ++ v) (xs.length + l % 2 ^ b' - 2 ^ (b' + 1)) (2 ^ b') := by
      rw [seg_def, hnm, hstart]
      refine (slice_append_left ?_).symm
      omega
    rw [hseg]
  obtain ⟨trees1', heq1, hlen1, hpt1⟩ :=
    append_left_loop_spec (split_left v l) l (xs ++ v) xs.length hlft hsafe hsafe2
      (bit_width l + 1) (ctz l)
      ((resize (canonical xs) (bit_width (xs.length + v.length))).set (ctz l) none)
      (build (ctz l) (seg xs (ctz l)))
      (by omega) (by omega) htrees_init (by rw [hseg_tz])
  have hlen1' : trees1'.length = bit_width (xs.length + v.length) := by
    rw [hlen1, List.length_set, length_resize]
  -- preconditions of the carry spec
  have hlmod : l % 2 ^ bit_width l = l := Nat.mod_eq_of_lt (lt_two_pow_bit_width l)
  have hcarry_trees : ∀ b', bit_width l ≤ b' → b' < b2 →
      trees1'[b']? = some (some (build b'
        (slice (xs ++ v) (xs.length + l - 2 ^ (b' + 1)) (2 ^ b')))) := by
    intro b' h1 h2
    rw [hpt1 b', if_neg (fun hcc => absurd hcc.2.1 (by omega))]
    have hne : b' ≠ ctz l := by omega
    rw [List.getElem?_set_ne (fun hcc => hne hcc.symm)]
    rw [htrees0 b' (by omega)]
    rw [if_pos (by rw [hbit_high b' h1 h2])]
    have hlm : l % 2 ^ b' = l :=
      Nat.mod_eq_of_lt (Nat.lt_of_lt_of_le (lt_two_pow_bit_width l)
        (Nat.pow_le_pow_right (by omega) h1))
    have hlm1 : l % 2 ^ (b' + 1) = l :=
      Nat.mod_eq_of_lt (Nat.lt_of_lt_of_le (lt_two_pow_bit_width l)
        (Nat.pow_le_pow_right (by omega) (by omega)))
    have hnm : xs.length % 2 ^ b' = 2 ^ b' - l := by
      rw [← hlm]
      exact hnmodb b' (by omega) (by omega)
    have hnm1 : xs.length % 2 ^ (b' + 1) = 2 ^ (b' + 1) - l := by
      rw [← hlm1]
      exact hnmodb (b' + 1) (by omega) (by omega)
    have hmle : xs.length % 2 ^ (b' + 1) ≤ xs.length := Nat.mod_le _ _
    have hp1 : 2 ^ (b' + 1) = 2 ^ b' + 2 ^ b' := by
      rw [Nat.pow_succ]
      omega
    have hllt : l ≤ 2 ^ b' :=
      Nat.le_of_lt (Nat.lt_of_lt_of_le (lt_two_pow_bit_width l)
        (Nat.pow_le_pow_right (by omega) h1))
    have hstart : xs.length - (2 ^ b' - l) - 2 ^ b'
        = xs.length + l - 2 ^ (b' + 1) := by omega
    have hseg : seg xs b'
        = slice (xs ++ v) (xs.length + l - 2 ^ (b' + 1)) (2 ^ b') := by
      rw [seg_def, hnm, hstart]
      refine (slice_append_left ?_).symm
      omega
    rw [hseg]
  have hcarry_stop : trees1'[b2]? = some none ∨ trees1'[b2]? = none := by
    left
    rw [hpt1 b2, if_neg (fun hcc => absurd hcc.2.1 (by omega))]
    have hne : b2 ≠ ctz l := by omega
    rw [List.getElem?_set_ne (fun hcc => hne hcc.symm)]
    rw [htrees0 b2 (by omega)]
    rw [if_neg (by rw [hbitb2]; exact Bool.false_ne_true)]
  have hE : 2 ^ b2 ≤ xs.length + l := by omega
  obtain ⟨trees2', heq2, hlen2, hpt2⟩ :=
    carry_loop_spec (xs ++ v) (xs.length + l) b2 hE (trees1'.length + 1) (bit_width l)
      trees1'
      (build (bit_width l)
        (slice (xs ++ v) (xs.length + l % 2 ^ bit_width l - 2 ^ bit_width l)
          (2 ^ bit_width l)))
      (by omega) (by omega) hcarry_trees hcarry_stop (by rw [hlmod])
  have hlen2' : trees2'.length = bit_width (xs.length + v.length) := by
    rw [hlen2, hlen1']
  -- assemble the phase
  refine ⟨trees2'.set b2 (some (build b2
    (slice (xs ++ v) (xs.length + l - 2 ^ b2) (2 ^ b2)))), ?_, ?_, ?_, ?_, ?_⟩
  · simp only [append_left_phase, hsz]
    rw [← hr, ← hl, htr]
    rw [if_neg (by omega)]
    have hslot_tz : (resize (canonical xs) (bit_width (xs.length + v.length)))[ctz l]? =
        some (some (build (ctz l) (seg xs (ctz l)))) := by
      rw [htrees0 (ctz l) htzW, if_pos hbtz]
    simp only [hslot_tz, heq1, heq2]
  · rw [List.length_set, hlen2']
  · rw [List.getElem?_set_self (by omega)]
  · intro i hi
    rw [List.getElem?_set_ne (by omega)]
    rw [hpt2 i]
    by_cases hcar : bit_width l ≤ i ∧ i < b2
    · rw [if_pos hcar]
    · rw [if_neg hcar]
      rw [hpt1 i]
      by_cases hlw : i < bit_width l
      · by_cases hsup : Nat.testBit l i = false
        · by_cases hitz : i < ctz l
          · rw [if_neg (fun hcc => absurd hcc.1 (by omega))]
            have hne : i ≠ ctz l := by omega
            rw [List.getElem?_set_ne (fun hcc => hne hcc.symm)]
            rw [htrees0 i (by omega)]
            rw [if_neg (by rw [hbit_low i hitz]; exact Bool.false_ne_true)]
          · rw [if_pos ⟨by omega, hlw, hsup⟩]
        · have hsup' : Nat.testBit l i = true := by
            cases hx : Nat.testBit l i
            · exact absurd hx hsup
            · rfl
          rw [if_neg (fun hcc => by rw [hsup'] at hcc; exact Bool.noConfusion hcc.2.2)]
          by_cases hitz : i = ctz l
          · rw [hitz, List.getElem?_set_self (by rw [length_resize]; omega)]
          · rw [List.getElem?_set_ne (fun hcc => hitz hcc.symm)]
            rw [htrees0 i (by omega)]
            have hgt : ctz l < i := by
              rcases Nat.lt_trichotomy i (ctz l) with hx | hx | hx
              · rw [testBit_eq_false_of_lt_ctz (by omega) hx] at hsup'
                exact Bool.noConfusion hsup'
              · exact absurd hx hitz
              · exact hx
            rw [if_neg (by rw [hbit_mid i hgt hlw, hsup']; exact Bool.false_ne_true)]
      · omega
  · intro i hi
    rw [List.getElem?_set_ne (by omega)]
    rw [hpt2 i, if_neg (fun hcc => absurd hcc.2 (by omega))]
    rw [hpt1 i, if_neg (fun hcc => absurd hcc.2.1 (by omega))]
    have hne : i ≠ ctz l := by omega
    rw [List.getElem?_set_ne (fun hcc => hne hcc.symm)]

theorem div_eq_of_decomp {a M c B : Nat} (h : a = 2 ^ B * M + c) (hc : c < 2 ^ B) :
    a / 2 ^ B = M := by
  subst h
  rw [Nat.mul_add_div (Nat.two_pow_pos B), Nat.div_eq_of_lt hc, Nat.add_zero]

theorem sub_mod_eq_of_div_eq {a b i : Nat} (h : a / 2 ^ i = b / 2 ^ i) :
    a - a % 2 ^ i = b - b % 2 ^ i := by
  have h1 := Nat.div_add_mod a (2 ^ i)
  have h2 := Nat.div_add_mod b (2 ^ i)
  have h1' : a - a % 2 ^ i = 2 ^ i * (a / 2 ^ i) := by omega
  have h2' : b - b % 2 ^ i = 2 ^ i * (b / 2 ^ i) := by omega
  rw [h1', h2', h]

theorem div_pow_eq_of_div_eq {a b B i : Nat} (h : a / 2 ^ B = b / 2 ^ B) (hi : B ≤ i) :
    a / 2 ^ i = b / 2 ^ i := by
  have hsplit : (2:Nat) ^ i = 2 ^ B * 2 ^ (i - B) := by
    rw [← Nat.pow_add]
    congr 1
    omega
  rw [hsplit, ← Nat.div_div_eq_div_mul, ← Nat.div_div_eq_div_mul, h]

theorem testBit_eq_of_div_eq {a b i : Nat} (h : a / 2 ^ i = b / 2 ^ i) :
    Nat.testBit a i = Nat.testBit b i := by
  rw [Nat.testBit_to_div_mod, Nat.testBit_to_div_mod, h]

theorem testBit_eq_false_of_mod_eq_zero {N j b : Nat} (h : N % 2 ^ j = 0) (hb : b < j) :
    Nat.testBit N b = false := by
  have h1 : Nat.testBit (N % 2 ^ j) b = Nat.testBit N b := by
    rw [Nat.testBit_mod_two_pow]
    simp [hb]
  rw [← h1, h, Nat.zero_testBit]

theorem testBit_eq_of_mod_eq {N r j b : Nat} (h : N % 2 ^ j = r) (hb : b < j) :
    Nat.testBit N b = Nat.testBit r b := by
  have h1 : Nat.testBit (N % 2 ^ j) b = Nat.testBit N b := by
    rw [Nat.testBit_mod_two_pow]
    simp [hb]
  rw [← h1, h]

/-- Slots above a clean cut agree between the old and the new canonical
state: bit and segment alike. -/
theorem canonical_high_slot {xs v : List Nat} {i B : Nat}
    (hdiv : (xs.length + v.length) / 2 ^ B = xs.length / 2 ^ B) (hi : B ≤ i) :
    Nat.testBit (xs.length + v.length) i = Nat.testBit xs.length i ∧
    (Nat.testBit xs.length i = true → seg (xs ++ v) i = seg xs i) := by
  have hdi : (xs.length + v.length) / 2 ^ i = xs.length / 2 ^ i :=
    div_pow_eq_of_div_eq hdiv hi
  refine ⟨testBit_eq_of_div_eq hdi, ?_⟩
  intro ht
  have hsub := sub_mod_eq_of_div_eq hdi
  rw [seg_def, seg_def]
  simp only [List.length_append]
  rw [hsub]
  have hle := testBit_mod_add_pow_le ht
  exact slice_append_left (by omega)

/-- The final right phase of `append`, assembling the canonical new state:
set bits of `r` receive the canonical suffix trees from the split table,
the remaining slots already agree with the new canonical state. -/
theorem append_right_phase_assemble {xs v : List Nat} {r : Nat}
    {trees1 : List (Option Tr)}
    (hr : r = compute_association (xs.length + v.length) v.length)
    (hlen : trees1.length = bit_width (xs.length + v.length))
    (hnull : ∀ b, Nat.testBit r b = true → trees1[b]? = some none)
    (hrest : ∀ i, Nat.testBit r i = false → i < bit_width (xs.length + v.length) →
        trees1[i]? = some (if Nat.testBit (xs.length + v.length) i
          then some (build i (seg (xs ++ v) i)) else none)) :
    append_right_loop (split_right v r) (bit_width r + 1) trees1 r 0
      = some (canonical (xs ++ v)) := by
  have hrm : r = (xs.length + v.length)
      % 2 ^ assoc_width (xs.length + v.length) v.length := by
    rw [hr, compute_association_eq_mod]
  have hrL : r ≤ v.length := by
    rw [hr]
    exact compute_association_le _ _
  have hrj : r < 2 ^ assoc_width (xs.length + v.length) v.length := by
    rw [hrm]
    exact Nat.mod_lt _ (Nat.two_pow_pos _)
  have hbwr : bit_width r ≤ assoc_width (xs.length + v.length) v.length :=
    bit_width_le.mpr hrj
  have hbwr' : bit_width r ≤ bit_width (xs.length + v.length) :=
    bit_width_mono (by omega)
  have hhyp_r : ∀ b, Nat.testBit r b = true →
      ∃ s, (split_right v r)[b]? = some s := by
    intro b hb
    exact ⟨_, getElem_split_right hrL (testBit_lt_bit_width hb)⟩
  have hlenhyp : ∀ b, Nat.testBit r b = true → b < trees1.length := by
    intro b hb
    have h1 : b < bit_width r := testBit_lt_bit_width hb
    rw [hlen]
    omega
  obtain ⟨trees2, heq, hlen2, hpt⟩ :=
    append_right_loop_spec (split_right v r) r hhyp_r (bit_width r + 1) 0 trees1
      (by rw [Nat.shiftRight_zero]; omega) hlenhyp
  rw [Nat.shiftRight_zero] at heq
  rw [heq]
  congr 1
  apply List.ext_getElem?
  intro i
  rw [hpt i]
  by_cases hti : Nat.testBit r i = true
  · rw [if_pos ⟨Nat.zero_le i, hti⟩]
    have hiw : i < bit_width r := testBit_lt_bit_width hti
    have hij : i < assoc_width (xs.length + v.length) v.length := by omega
    rw [getElem_split_right hrL hiw, if_pos hti]
    have htn' : Nat.testBit (xs.length + v.length) i = true := by
      rw [testBit_eq_of_mod_eq hrm.symm hij, hti]
    have hiW : i < bit_width (xs.length + v.length) := testBit_lt_bit_width htn'
    have hcan := @getElem_canonical (xs ++ v) i (by simpa using hiW)
    rw [hcan]
    simp only [List.length_append] at *
    rw [if_pos htn']
    have hmodi : (xs.length + v.length) % 2 ^ i = r % 2 ^ i := by
      rw [hrm]
      exact (Nat.mod_mod_of_dvd _ (Nat.pow_dvd_pow 2 (by omega))).symm
    have hr1 : r % 2 ^ i + 2 ^ i ≤ r := testBit_mod_add_pow_le hti
    rw [seg_def]
    simp only [List.length_append]
    rw [hmodi]
    have hidx : xs.length + v.length - r % 2 ^ i - 2 ^ i
        = xs.length + (v.length - r % 2 ^ i - 2 ^ i) := by omega
    rw [hidx, slice_append_right]
    have hidx2 : v.length - r % 2 ^ i - 2 ^ i = v.length - 2 ^ i - r % 2 ^ i := by
      omega
    rw [hidx2]
  · have htf : Nat.testBit r i = false := by
      cases hx : Nat.testBit r i
      · rfl
      · exact absurd hx hti
    rw [if_neg (fun h => hti h.2)]
    by_cases hiW : i < bit_width (xs.length + v.length)
    · rw [hrest i htf hiW]
      have hcan := @getElem_canonical (xs ++ v) i (by simpa using hiW)
      rw [hcan]
      simp only [List.length_append]
    · rw [List.getElem?_eq_none (by omega), getElem_canonical_oob (by simpa using Nat.le_of_not_lt hiW)]

/-- `append` sends a canonical state to the canonical state of the extended
contents. -/
theorem append_inv {stk : Stk} {xs : List Nat} (hinv : Inv stk xs) (v : List Nat) :
    append stk v = some ⟨canonical (xs ++ v), xs.length + v.length⟩ := by
  obtain ⟨hsz, htr⟩ := hinv
  by_cases hv0 : v.length = 0
  · have hnil : v = [] := List.eq_nil_of_length_eq_zero hv0
    subst hnil
    rcases stk with ⟨t, s⟩
    have ht' : t = canonical xs := htr
    have hs' : s = xs.length := hsz
    subst ht'
    subst hs'
    simp [append]
  · have hL : 0 < v.length := by omega
    by_cases hl0 : v.length - compute_association (xs.length + v.length) v.length = 0
    · -- no borrow: the left phase is a plain resize
      have happ : append_left_phase stk v
          = some (resize (canonical xs) (bit_width (xs.length + v.length))) := by
        simp only [append_left_phase, hsz, htr]
        rw [if_pos hl0]
      have hrm : compute_association (xs.length + v.length) v.length
          = (xs.length + v.length)
            % 2 ^ assoc_width (xs.length + v.length) v.length :=
        compute_association_eq_mod _ _
      have hrL : compute_association (xs.length + v.length) v.length ≤ v.length :=
        compute_association_le _ _
      have hmodj : (xs.length + v.length)
          % 2 ^ assoc_width (xs.length + v.length) v.length = v.length := by omega
      have hnmodj : xs.length
          % 2 ^ assoc_width (xs.length + v.length) v.length = 0 := by
        have hself : xs.length = (xs.length + v.length) - (xs.length + v.length)
            % 2 ^ assoc_width (xs.length + v.length) v.length := by omega
        nth_rewrite 1 [hself]
        exact mod_sub_mod_eq_zero _ _
      have hdivj : (xs.length + v.length)
            / 2 ^ assoc_width (xs.length + v.length) v.length
          = xs.length / 2 ^ assoc_width (xs.length + v.length) v.length := by
        have h1 := Nat.div_add_mod (xs.length + v.length)
          (2 ^ assoc_width (xs.length + v.length) v.length)
        have h3 : xs.length = 2 ^ assoc_width (xs.length + v.length) v.length
            * ((xs.length + v.length)
              / 2 ^ assoc_width (xs.length + v.length) v.length) + 0 := by
          omega
        exact (div_eq_of_decomp h3 (Nat.two_pow_pos _)).symm
      have hbwrj : bit_width (compute_association (xs.length + v.length) v.length)
          ≤ assoc_width (xs.length + v.length) v.length :=
        bit_width_le.mpr (by rw [hrm]; exact Nat.mod_lt _ (Nat.two_pow_pos _))
      have hjW : assoc_width (xs.length + v.length) v.length
          ≤ bit_width (xs.length + v.length) := by
        have h1 := assoc_width_le (xs.length + v.length) v.length
        have h2 := bit_width_mono (show v.length ≤ xs.length + v.length by omega)
        omega
      have hnull : ∀ b,
          Nat.testBit (compute_association (xs.length + v.length) v.length) b = true →
          (resize (canonical xs) (bit_width (xs.length + v.length)))[b]? = some none := by
        intro b hb
        have hbj : b < assoc_width (xs.length + v.length) v.length := by
          have h1 := testBit_lt_bit_width hb
          omega
        rw [resize_canonical_getElem (bit_width_mono (by omega)) (by omega)]
        rw [if_neg (by
          rw [testBit_eq_false_of_mod_eq_zero hnmodj hbj]
          exact Bool.false_ne_true)]
      have hrest : ∀ i,
          Nat.testBit (compute_association (xs.length + v.length) v.length) i = false →
          i < bit_width (xs.length + v.length) →
          (resize (canonical xs) (bit_width (xs.length + v.length)))[i]? =
            some (if Nat.testBit (xs.length + v.length) i
              then some (build i (seg (xs ++ v) i)) else none) := by
        intro i hif hiW
        rw [resize_canonical_getElem (bit_width_mono (by omega)) hiW]
        by_cases hij : i < assoc_width (xs.length + v.length) v.length
        · rw [if_neg (by
            rw [testBit_eq_false_of_mod_eq_zero hnmodj hij]
            exact Bool.false_ne_true)]
          rw [if_neg (by
            rw [testBit_eq_of_mod_eq hmodj hij]
            have hreq : compute_association (xs.length + v.length) v.length
                = v.length := by omega
            rw [← hreq, hif]
            exact Bool.false_ne_true)]
        · obtain ⟨hbit, hseg⟩ := canonical_high_slot hdivj (Nat.le_of_not_lt hij)
          rw [hbit]
          by_cases ht : Nat.testBit xs.length i = true
          · rw [if_pos ht, if_pos ht, hseg ht]
          · rw [if_neg ht, if_neg ht]
      have hloop := append_right_phase_assemble rfl (length_resize _ _) hnull hrest
      simp only [append, hsz]
      rw [if_neg hv0]
      simp only [happ, hloop]
    · -- borrow: use the left-phase lemma
      have hlpos : 0 < v.length - compute_association (xs.length + v.length) v.length := by
        omega
      obtain ⟨trees1, happ, hlen1, hslot, hlow, hhigh⟩ :=
        append_left_phase_pos ⟨hsz, htr⟩ rfl rfl hlpos rfl
      obtain ⟨r, hr⟩ : ∃ r, compute_association (xs.length + v.length) v.length = r :=
        ⟨_, rfl⟩
      rw [hr] at hslot hlow hhigh hlpos
      obtain ⟨l, hl⟩ : ∃ l, v.length - r = l := ⟨_, rfl⟩
      rw [hl] at hslot hlow hhigh hlpos
      obtain ⟨b2, hb2⟩ : ∃ b2, ctz (xs.length + l) = b2 := ⟨_, rfl⟩
      rw [hb2] at hslot hlow hhigh
      have hrm : r = (xs.length + v.length)
          % 2 ^ assoc_width (xs.length + v.length) v.length := by
        rw [← hr, compute_association_eq_mod]
      have hrL : r ≤ v.length := by
        rw [← hr]
        exact compute_association_le _ _
      have hl2 : l < 2 ^ assoc_width (xs.length + v.length) v.length := by
        have h1 := sub_compute_association_lt (xs.length + v.length) v.length (by omega)
        rw [hr, hl] at h1
        exact h1
      have hmodj : (xs.length + l)
          % 2 ^ assoc_width (xs.length + v.length) v.length = 0 := by
        have h1 : xs.length + l = (xs.length + v.length) - (xs.length + v.length)
            % 2 ^ assoc_width (xs.length + v.length) v.length := by omega
        rw [h1]
        exact mod_sub_mod_eq_zero _ _
      have hnl0 : xs.length + l ≠ 0 := by omega
      have hjb2 : assoc_width (xs.length + v.length) v.length ≤ b2 := by
        rw [← hb2]
        exact ctz_ge_of_mod_eq_zero hnl0 hmodj
      have hl2b2 : l ≤ 2 ^ b2 :=
        Nat.le_of_lt (Nat.lt_of_lt_of_le hl2 (Nat.pow_le_pow_right (by omega) hjb2))
      have hmodb2 : (xs.length + l) % 2 ^ b2 = 0 := by
        rw [← hb2]
        exact mod_two_pow_ctz hnl0
      obtain ⟨hm0, hmodd⟩ := ctz_spec (xs.length + l) hnl0
      rw [hb2] at hm0 hmodd
      have hq : xs.length + l = 2 ^ b2 * ((xs.length + l) / 2 ^ b2) :=
        (Nat.mul_div_cancel' (Nat.dvd_of_mod_eq_zero hmodb2)).symm
      have hdecomp : xs.length + l
          = 2 ^ (b2 + 1) * ((xs.length + l) / 2 ^ b2 / 2) + 2 ^ b2 := by
        have h1 : (xs.length + l) / 2 ^ b2
            = 2 * ((xs.length + l) / 2 ^ b2 / 2) + 1 := by omega
        conv_lhs => rw [hq, h1]
        rw [Nat.mul_add, Nat.mul_one, ← Nat.mul_assoc, ← Nat.pow_succ]
      have hpb2 : 0 < 2 ^ b2 := Nat.two_pow_pos b2
      have hpb21 : 2 ^ (b2 + 1) = 2 ^ b2 + 2 ^ b2 := by
        rw [Nat.pow_succ]
        omega
      have hrb2 : r < 2 ^ b2 :=
        Nat.lt_of_lt_of_le (by rw [hrm]; exact Nat.mod_lt _ (Nat.two_pow_pos _))
          (Nat.pow_le_pow_right (by omega) hjb2)
      have hn'21 : (xs.length + v.length) % 2 ^ (b2 + 1) = 2 ^ b2 + r := by
        have hd : xs.length + v.length
            = 2 ^ (b2 + 1) * ((xs.length + l) / 2 ^ b2 / 2) + (2 ^ b2 + r) := by omega
        rw [hd]
        exact add_multiple_mod (Dvd.intro _ rfl) (by omega)
      have hbn'2 : Nat.testBit (xs.length + v.length) b2 = true := by
        rw [testBit_eq_decide_mod_succ, hn'21]
        exact decide_eq_true (by omega)
      have hb2W : b2 < bit_width (xs.length + v.length) := testBit_lt_bit_width hbn'2
      have hdiv : (xs.length + v.length) / 2 ^ (b2 + 1) = xs.length / 2 ^ (b2 + 1) := by
        have hd1 : (xs.length + v.length) / 2 ^ (b2 + 1)
            = (xs.length + l) / 2 ^ b2 / 2 :=
          div_eq_of_decomp (c := 2 ^ b2 + r) (by omega) (by omega)
        have hd2 : xs.length / 2 ^ (b2 + 1) = (xs.length + l) / 2 ^ b2 / 2 :=
          div_eq_of_decomp (c := 2 ^ b2 - l) (by omega) (by omega)
        rw [hd1, hd2]
      have hmodb2' : (xs.length + v.length) % 2 ^ b2 = r := by
        have h1 : (xs.length + v.length) % 2 ^ b2
            = ((xs.length + v.length) % 2 ^ (b2 + 1)) % 2 ^ b2 :=
          (Nat.mod_mod_of_dvd _ (Nat.pow_dvd_pow 2 (by omega))).symm
        rw [h1, hn'21, Nat.add_mod_left, Nat.mod_eq_of_lt hrb2]
      have hbwrb2 : bit_width r ≤ b2 := by
        have h1 : bit_width r ≤ assoc_width (xs.length + v.length) v.length :=
          bit_width_le.mpr (by rw [hrm]; exact Nat.mod_lt _ (Nat.two_pow_pos _))
        omega
      have hnull : ∀ b, Nat.testBit r b = true → trees1[b]? = some none := by
        intro b hb
        exact hlow b (by have := testBit_lt_bit_width hb; omega)
      have hrest : ∀ i, Nat.testBit r i = false →
          i < bit_width (xs.length + v.length) →
          trees1[i]? = some (if Nat.testBit (xs.length + v.length) i
            then some (build i (seg (xs ++ v) i)) else none) := by
        intro i hif hiW
        rcases Nat.lt_trichotomy i b2 with hi | hi | hi
        · rw [hlow i hi]
          rw [if_neg (by
            rw [testBit_eq_of_mod_eq hmodb2' hi, hif]
            exact Bool.false_ne_true)]
        · subst hi
          rw [hslot, if_pos hbn'2]
          have hseg : seg (xs ++ v) i
              = slice (xs ++ v) (xs.length + l - 2 ^ i) (2 ^ i) := by
            rw [seg_def]
            simp only [List.length_append]
            rw [hmodb2']
            congr 1
            omega
          rw [hseg]
        · rw [hhigh i hi]
          rw [resize_canonical_getElem (bit_width_mono (by omega)) hiW]
          obtain ⟨hbit, hseg⟩ := canonical_high_slot hdiv (show b2 + 1 ≤ i by omega)
          rw [hbit]
          by_cases ht : Nat.testBit xs.length i = true
          · rw [if_pos ht, if_pos ht, hseg ht]
          · rw [if_neg ht, if_neg ht]
      have hloop := append_right_phase_assemble hr.symm hlen1 hnull hrest
      simp only [append, hsz]
      rw [if_neg hv0, hr]
      simp only [happ, hloop]

/-! ## Correctness of `truncate` -/

theorem slice_take {xs : List Nat} {i w : Nat} (k : Nat) (h : i + w ≤ k) :
    slice (xs.take k) i w = slice xs i w := by
  simp only [slice, List.drop_take, List.take_take]
  congr 1
  omega

/-- Slots above a clean cut agree between the truncated and the original
canonical state. -/
theorem canonical_high_slot_take {xs : List Nat} {k i B : Nat} (hk : k ≤ xs.length)
    (hdiv : k / 2 ^ B = xs.length / 2 ^ B) (hi : B ≤ i) :
    Nat.testBit k i = Nat.testBit xs.length i ∧
    (Nat.testBit k i = true → seg (xs.take k) i = seg xs i) := by
  have hdi : k / 2 ^ i = xs.length / 2 ^ i := div_pow_eq_of_div_eq hdiv hi
  refine ⟨testBit_eq_of_div_eq hdi, ?_⟩
  intro ht
  have hsub := sub_mod_eq_of_div_eq hdi
  have htlen : (xs.take k).length = k := by
    rw [List.length_take]
    omega
  have hle := testBit_mod_add_pow_le ht
  rw [seg_def, seg_def, htlen, hsub]
  exact slice_take k (by omega)

/-- Gluing the truncated slot layout back into the canonical state of the
truncated contents. -/
theorem resize_eq_canonical_take {xs : List Nat} {k : Nat} (hk : k ≤ xs.length)
    {trees2 : List (Option Tr)} (hlen : bit_width k ≤ trees2.length)
    (hrest : ∀ i, i < bit_width k →
      trees2[i]? = some (if Nat.testBit k i
        then some (build i (seg (xs.take k) i)) else none)) :
    resize trees2 (bit_width k) = canonical (xs.take k) := by
  have htlen : (xs.take k).length = k := by
    rw [List.length_take]
    omega
  apply List.ext_getElem?
  intro i
  by_cases hi : i < bit_width k
  · rw [getElem_resize_lt (by omega) hi, hrest i hi]
    rw [getElem_canonical (by rw [htlen]; exact hi)]
    rw [htlen]
  · rw [getElem_resize_oob (by omega), getElem_canonical_oob (by rw [htlen]; omega)]

/-- `truncate` sends a canonical state to the canonical state of the
truncated contents. -/
theorem truncate_inv {stk : Stk} {xs : List Nat} (hinv : Inv stk xs) {k : Nat}
    (hk : k ≤ xs.length) :
    truncate stk k = some ⟨canonical (xs.take k), k⟩ := by
  obtain ⟨hsz, htr⟩ := hinv
  simp only [truncate, hsz, htr]
  rw [if_neg (by omega)]
  obtain ⟨r, hr⟩ : ∃ r, compute_association xs.length (xs.length - k) = r := ⟨_, rfl⟩
  rw [hr]
  obtain ⟨l, hl⟩ : ∃ l, xs.length - k - r = l := ⟨_, rfl⟩
  rw [hl]
  have hrm : r = xs.length % 2 ^ assoc_width xs.length (xs.length - k) := by
    rw [← hr, compute_association_eq_mod]
  have hrL : r ≤ xs.length - k := by
    rw [← hr]
    exact compute_association_le _ _
  have hrj : r < 2 ^ assoc_width xs.length (xs.length - k) := by
    rw [hrm]
    exact Nat.mod_lt _ (Nat.two_pow_pos _)
  have hbwrj : bit_width r ≤ assoc_width xs.length (xs.length - k) :=
    bit_width_le.mpr hrj
  have hbits_r : ∀ b, Nat.testBit r b = true → Nat.testBit xs.length b = true := by
    intro b hb
    have h1 : b < bit_width r := testBit_lt_bit_width hb
    rw [testBit_eq_of_mod_eq hrm.symm (by omega), hb]
  have hlenr : ∀ b, Nat.testBit r b = true → b < (canonical xs).length := by
    intro b hb
    rw [length_canonical]
    exact testBit_lt_bit_width (hbits_r b hb)
  obtain ⟨trees1, heq1, hlen1, hpt1⟩ := truncate_right_loop_spec r (bit_width r + 1) 0
    (canonical xs) (by rw [Nat.shiftRight_zero]; omega) hlenr
  rw [Nat.shiftRight_zero] at heq1
  simp only [heq1]
  have hbwk : bit_width k ≤ bit_width xs.length := bit_width_mono hk
  by_cases hl0 : l = 0
  · rw [if_pos hl0]
    have hkr : k = xs.length - r := by omega
    have hmodj : k % 2 ^ assoc_width xs.length (xs.length - k) = 0 := by
      nth_rewrite 1 [hkr]
      rw [hrm]
      exact mod_sub_mod_eq_zero _ _
    have hdivj : k / 2 ^ assoc_width xs.length (xs.length - k)
        = xs.length / 2 ^ assoc_width xs.length (xs.length - k) := by
      have h1 := Nat.div_add_mod xs.length
        (2 ^ assoc_width xs.length (xs.length - k))
      exact div_eq_of_decomp (c := 0) (by omega) (Nat.two_pow_pos _)
    have hrest : ∀ i, i < bit_width k →
        trees1[i]? = some (if Nat.testBit k i
          then some (build i (seg (xs.take k) i)) else none) := by
      intro i hi
      rw [hpt1 i]
      by_cases hri : Nat.testBit r i = true
      · rw [if_pos ⟨Nat.zero_le i, hri⟩]
        have hij : i < assoc_width xs.length (xs.length - k) := by
          have := testBit_lt_bit_width hri
          omega
        rw [if_neg (by
          rw [testBit_eq_false_of_mod_eq_zero hmodj hij]
          exact Bool.false_ne_true)]
      · have hrif : Nat.testBit r i = false := by
          cases hx : Nat.testBit r i
          · rfl
          · exact absurd hx hri
        rw [if_neg (fun hcc => hri hcc.2)]
        rw [getElem_canonical (by omega)]
        by_cases hij : i < assoc_width xs.length (xs.length - k)
        · rw [if_neg (by
            rw [testBit_eq_of_mod_eq hrm.symm hij, hrif]
            exact Bool.false_ne_true)]
          rw [if_neg (by
            rw [testBit_eq_false_of_mod_eq_zero hmodj hij]
            exact Bool.false_ne_true)]
        · obtain ⟨hbit, hseg⟩ :=
            canonical_high_slot_take hk hdivj (Nat.le_of_not_lt hij)
          rw [hbit]
          by_cases ht : Nat.testBit xs.length i = true
          · rw [if_pos ht, if_pos ht, hseg (by rw [hbit]; exact ht)]
          · rw [if_neg ht, if_neg ht]
    have hfinal := resize_eq_canonical_take hk
      (by rw [hlen1, length_canonical]; omega) hrest
    dsimp only
    rw [hfinal]
  · rw [if_neg hl0]
    have hlpos : 0 < l := by omega
    have hnr : xs.length - r = k + l := by omega
    rw [hnr]
    obtain ⟨bd, hbd⟩ : ∃ bd, ctz (k + l) = bd := ⟨_, rfl⟩
    rw [hbd]
    have hl2 : l < 2 ^ assoc_width xs.length (xs.length - k) := by
      have h1 := sub_compute_association_lt xs.length (xs.length - k) (by omega)
      rw [hr, hl] at h1
      exact h1
    have hmodj2 : (k + l) % 2 ^ assoc_width xs.length (xs.length - k) = 0 := by
      rw [← hnr, hrm]
      exact mod_sub_mod_eq_zero _ _
    have hkl0 : k + l ≠ 0 := by omega
    have hjbd : assoc_width xs.length (xs.length - k) ≤ bd := by
      rw [← hbd]
      exact ctz_ge_of_mod_eq_zero hkl0 hmodj2
    have hl2bd : l ≤ 2 ^ bd :=
      Nat.le_of_lt (Nat.lt_of_lt_of_le hl2 (Nat.pow_le_pow_right (by omega) hjbd))
    have hmodbd : (k + l) % 2 ^ bd = 0 := by
      rw [← hbd]
      exact mod_two_pow_ctz hkl0
    obtain ⟨hm0', hmodd⟩ := ctz_spec (k + l) hkl0
    rw [hbd] at hm0' hmodd
    have hq : k + l = 2 ^ bd * ((k + l) / 2 ^ bd) :=
      (Nat.mul_div_cancel' (Nat.dvd_of_mod_eq_zero hmodbd)).symm
    have hdecomp : k + l = 2 ^ (bd + 1) * ((k + l) / 2 ^ bd / 2) + 2 ^ bd := by
      have h1 : (k + l) / 2 ^ bd = 2 * ((k + l) / 2 ^ bd / 2) + 1 := by omega
      conv_lhs => rw [hq, h1]
      rw [Nat.mul_add, Nat.mul_one, ← Nat.mul_assoc, ← Nat.pow_succ]
    have hpbd : 0 < 2 ^ bd := Nat.two_pow_pos bd
    have hpbd1 : 2 ^ (bd + 1) = 2 ^ bd + 2 ^ bd := by
      rw [Nat.pow_succ]
      omega
    have hrbd : r < 2 ^ bd :=
      Nat.lt_of_lt_of_le hrj (Nat.pow_le_pow_right (by omega) hjbd)
    have hkmod21 : k % 2 ^ (bd + 1) = 2 ^ bd - l := by
      have hd : k = 2 ^ (bd + 1) * ((k + l) / 2 ^ bd / 2) + (2 ^ bd - l) := by omega
      rw [hd]
      exact add_multiple_mod (Dvd.intro _ rfl) (by omega)
    have hbitkbd : Nat.testBit k bd = false := by
      rw [testBit_eq_decide_mod_succ, hkmod21]
      exact decide_eq_false (by omega)
    have hnmod21 : xs.length % 2 ^ (bd + 1) = 2 ^ bd + r := by
      have hd : xs.length
          = 2 ^ (bd + 1) * ((k + l) / 2 ^ bd / 2) + (2 ^ bd + r) := by omega
      rw [hd]
      exact add_multiple_mod (Dvd.intro _ rfl) (by omega)
    have hbitnbd : Nat.testBit xs.length bd = true := by
      rw [testBit_eq_decide_mod_succ, hnmod21]
      exact decide_eq_true (by omega)
    have hbdn : bd < bit_width xs.length := testBit_lt_bit_width hbitnbd
    have hdiv : k / 2 ^ (bd + 1) = xs.length / 2 ^ (bd + 1) := by
      have hd1 : k / 2 ^ (bd + 1) = (k + l) / 2 ^ bd / 2 :=
        div_eq_of_decomp (c := 2 ^ bd - l) (by omega) (by omega)
      have hd2 : xs.length / 2 ^ (bd + 1) = (k + l) / 2 ^ bd / 2 :=
        div_eq_of_decomp (c := 2 ^ bd + r) (by omega) (by omega)
      rw [hd1, hd2]
    have hnmodbd : xs.length % 2 ^ bd = r := by
      have h1 : xs.length % 2 ^ bd = (xs.length % 2 ^ (bd + 1)) % 2 ^ bd :=
        (Nat.mod_mod_of_dvd _ (Nat.pow_dvd_pow 2 (by omega))).symm
      rw [h1, hnmod21, Nat.add_mod_left, Nat.mod_eq_of_lt hrbd]
    have hkmodbd : k % 2 ^ bd = 2 ^ bd - l := by
      have h1 : k % 2 ^ bd = (k % 2 ^ (bd + 1)) % 2 ^ bd :=
        (Nat.mod_mod_of_dvd _ (Nat.pow_dvd_pow 2 (by omega))).symm
      rw [h1, hkmod21, Nat.mod_eq_of_lt (by omega)]
    have hrtbd : Nat.testBit r bd = false := Nat.testBit_lt_two_pow hrbd
    have hslot_bd : trees1[bd]? = some (some (build bd (seg xs bd))) := by
      rw [hpt1 bd]
      rw [if_neg (fun hcc => by rw [hrtbd] at hcc; exact Bool.noConfusion hcc.2)]
      rw [getElem_canonical hbdn, if_pos hbitnbd]
    have hsegbd : seg xs bd = slice xs (k + l - 2 ^ bd) (2 ^ bd) := by
      rw [seg_def, hnmodbd]
      congr 1
      omega
    have hkeepk : 2 ^ bd - l ≤ k := by
      have := Nat.mod_le k (2 ^ (bd + 1))
      omega
    have hkeepmod : (2 ^ bd - l) % 2 ^ bd = 2 ^ bd - l :=
      Nat.mod_eq_of_lt (by omega)
    obtain ⟨trees3, heq3, hlen3, hpt3⟩ := truncate_walk_spec xs k (2 ^ bd - l) hkeepk bd
      (trees1.set bd none)
      (build bd (slice xs (k + l - 2 ^ bd) (2 ^ bd)))
      (by rw [List.length_set, hlen1, length_canonical]; omega)
      (by
        have hidx : k - (2 ^ bd - l) % 2 ^ bd = k + l - 2 ^ bd := by
          rw [hkeepmod]
          omega
        rw [hidx])
    have hbd0 : ¬ bd = 0 := by
      have hbwl : 1 ≤ bit_width l := bit_width_pos (by omega)
      have hbwlJ : bit_width l ≤ assoc_width xs.length (xs.length - k) :=
        bit_width_le.mpr hl2
      omega
    simp only [hslot_bd]
    rw [if_neg hbd0, the_bit_eq_pow, hsegbd]
    simp only [heq3]
    have hrest : ∀ i, i < bit_width k →
        trees3[i]? = some (if Nat.testBit k i
          then some (build i (seg (xs.take k) i)) else none) := by
      intro i hi
      rw [hpt3 i]
      have htlen : (xs.take k).length = k := by
        rw [List.length_take]
        omega
      rcases Nat.lt_trichotomy i bd with hib | hib | hib
      · by_cases hkp : Nat.testBit (2 ^ bd - l) i = true
        · rw [if_pos ⟨hib, hkp⟩]
          have htk : Nat.testBit k i = true := by
            rw [testBit_eq_of_mod_eq hkmodbd hib, hkp]
          rw [if_pos htk]
          have hkmi : k % 2 ^ (i + 1) = k % 2 ^ i + 2 ^ i := mod_pow_succ_of_testBit htk
          have hkeepmods : (2 ^ bd - l) % 2 ^ (i + 1) = k % 2 ^ (i + 1) := by
            rw [← hkmodbd]
            exact Nat.mod_mod_of_dvd _ (Nat.pow_dvd_pow 2 (by omega))
          have h1 := testBit_mod_add_pow_le htk
          have hsegi : seg (xs.take k) i
              = slice xs (k - (2 ^ bd - l) % 2 ^ (i + 1)) (2 ^ i) := by
            rw [seg_def, htlen]
            have h2 : slice (xs.take k) (k - k % 2 ^ i - 2 ^ i) (2 ^ i)
                = slice xs (k - k % 2 ^ i - 2 ^ i) (2 ^ i) :=
              slice_take k (by omega)
            rw [h2, hkeepmods, hkmi]
            congr 1
            omega
          rw [hsegi]
        · have hkpf : Nat.testBit (2 ^ bd - l) i = false := by
            cases hx : Nat.testBit (2 ^ bd - l) i
            · rfl
            · exact absurd hx hkp
          rw [if_neg (fun hcc => hkp hcc.2)]
          have htkf : Nat.testBit k i = false := by
            rw [testBit_eq_of_mod_eq hkmodbd hib, hkpf]
          rw [if_neg (by rw [htkf]; exact Bool.false_ne_true)]
          rw [List.getElem?_set_ne (by omega)]
          rw [hpt1 i]
          by_cases hri : Nat.testBit r i = true
          · rw [if_pos ⟨Nat.zero_le i, hri⟩]
          · have hrif : Nat.testBit r i = false := by
              cases hx : Nat.testBit r i
              · rfl
              · exact absurd hx hri
            rw [if_neg (fun hcc => hri hcc.2)]
            rw [getElem_canonical (by omega)]
            rw [if_neg (by
              rw [testBit_eq_of_mod_eq hnmodbd hib, hrif]
              exact Bool.false_ne_true)]
      · subst hib
        rw [if_neg (fun hcc => absurd hcc.1 (Nat.lt_irrefl _))]
        rw [List.getElem?_set_self (by rw [hlen1, length_canonical]; omega)]
        rw [if_neg (by rw [hbitkbd]; exact Bool.false_ne_true)]
      · rw [if_neg (fun hcc => absurd hcc.1 (by omega))]
        rw [List.getElem?_set_ne (by omega)]
        rw [hpt1 i]
        have hrif : Nat.testBit r i = false :=
          Nat.testBit_lt_two_pow
            (Nat.lt_of_lt_of_le hrbd (Nat.pow_le_pow_right (by omega) (by omega)))
        rw [if_neg (fun hcc => by rw [hrif] at hcc; exact Bool.noConfusion hcc.2)]
        rw [getElem_canonical (by omega)]
        obtain ⟨hbit, hseg⟩ :=
          canonical_high_slot_take hk hdiv (show bd + 1 ≤ i by omega)
        rw [hbit]
        by_cases ht : Nat.testBit xs.length i = true
        · rw [if_pos ht, if_pos ht, hseg (by rw [hbit]; exact ht)]
        · rw [if_neg ht, if_neg ht]
    have hfinal := resize_eq_canonical_take hk
      (by rw [hlen3, List.length_set, hlen1, length_canonical]; omega) hrest
    rw [hfinal]

/-- `pop` clamps and truncates: canonical states map to canonical states. -/
theorem pop_inv {stk : Stk} {xs : List Nat} (hinv : Inv stk xs) (c : Nat) :
    pop stk c = some ⟨canonical (xs.take (xs.length - c)), xs.length - c⟩ := by
  simp only [pop, hinv.1]
  have hcond : (if c > xs.length then 0 else xs.length - c) = xs.length - c := by
    by_cases h : c > xs.length
    · rw [if_pos h]
      omega
    · rw [if_neg h]
  rw [hcond]
  exact truncate_inv hinv (by omega)

/-- Every reachable state is canonical: the length-decomposition invariant
(and more) holds at all times. -/
theorem reach_inv {stk : Stk} {xs : List Nat} (h : Reach stk xs) : Inv stk xs := by
  induction h with
  | init => exact ⟨rfl, rfl⟩
  | @app stk xs v stk' hre happ ih =>
    have h2 := append_inv ih v
    rw [happ] at h2
    injection h2 with h3
    subst h3
    exact ⟨(List.length_append xs v).symm, rfl⟩
  | @trunc stk xs k stk' hre happ ih =>
    have hk : k ≤ xs.length := by
      by_contra hgt
      have hnone : truncate stk k = none := by
        simp only [truncate]
        rw [if_pos (by rw [ih.1]; omega)]
      rw [hnone] at happ
      exact Option.noConfusion happ
    have h2 := truncate_inv ih hk
    rw [happ] at h2
    injection h2 with h3
    subst h3
    refine ⟨?_, rfl⟩
    show k = (xs.take k).length
    rw [List.length_take]
    omega
  | @popped stk xs c stk' hre happ ih =>
    have h2 := pop_inv ih c
    rw [happ] at h2
    injection h2 with h3
    subst h3
    refine ⟨?_, rfl⟩
    show xs.length - c = (xs.take (xs.length - c)).length
    rw [List.length_take]
    omega

/-! ## Correctness of reverse iteration -/

/-- `resolve_from` on a canonical perfect tree reads leaf `idx mod 2 ^ b`. -/
theorem leaf_at_build : ∀ {b : Nat} {s : List Nat}, s.length = 2 ^ b → ∀ idx,
    leaf_at b (build b s) idx = s[idx % 2 ^ b]? := by
  intro b
  induction b with
  | zero =>
    intro s h idx
    match s, h with
    | [v], _ =>
      simp [leaf_at, build, Nat.mod_one]
  | succ b ih =>
    intro s h idx
    have hpos : 0 < 2 ^ b := Nat.two_pow_pos b
    have hp1 : 2 ^ (b + 1) = 2 ^ b + 2 ^ b := by
      rw [Nat.pow_succ]
      omega
    have htake : (s.take (2 ^ b)).length = 2 ^ b := by
      rw [List.length_take]
      omega
    have hdrop : (s.drop (2 ^ b)).length = 2 ^ b := by
      rw [List.length_drop]
      omega
    have hmlt : idx % 2 ^ b < 2 ^ b := Nat.mod_lt _ hpos
    simp only [build, leaf_at]
    by_cases ht : Nat.testBit idx b = true
    · rw [if_pos ((and_the_bit_ne_zero_iff idx b).mpr ht)]
      rw [ih hdrop idx, List.getElem?_drop, mod_pow_succ_of_testBit ht]
      congr 1
      omega
    · have htf : Nat.testBit idx b = false := by
        cases hx : Nat.testBit idx b
        · rfl
        · exact absurd hx ht
      rw [if_neg (fun hg => ht ((and_the_bit_ne_zero_iff idx b).mp hg))]
      rw [ih htake idx, List.getElem?_take, if_pos hmlt, mod_pow_succ_of_not_testBit htf]

/-- Reading a length-`K` list at indices `K-1, …, 0` yields its reverse. -/
theorem range_reverse_map {s : List Nat} {K : Nat} (h : s.length = K) :
    ((List.range K).reverse).map (fun i => s[i]?) = s.reverse.map some := by
  apply List.ext_getElem?
  intro t
  by_cases ht : t < K
  · have hlt : K - 1 - t < s.length := by omega
    rw [List.getElem?_map, List.getElem?_map]
    rw [List.getElem?_reverse (by simpa using ht), List.getElem?_reverse (by omega)]
    simp only [List.length_range, h]
    rw [List.getElem?_range (show K - 1 - t < K by omega)]
    rw [List.getElem?_eq_getElem hlt]
    simp
  · rw [List.getElem?_eq_none (by simp; omega), List.getElem?_eq_none (by simp [h]; omega)]

/-- Reverse iteration over the high part `n - n % 2 ^ c` of the canonical
state yields the corresponding prefix of the contents, reversed. -/
theorem rev_leaves_aux {xs : List Nat} : ∀ fuel c,
    xs.length - xs.length % 2 ^ c ≤ fuel →
    (outer_bits fuel (xs.length - xs.length % 2 ^ c)).flatMap (fun b =>
      match (canonical xs)[b]? with
      | some (some t) => ((List.range (the_bit b)).reverse).map (leaf_at b t)
      | _ => [none])
      = (xs.take (xs.length - xs.length % 2 ^ c)).reverse.map some := by
  intro fuel
  induction fuel with
  | zero =>
    intro c hle
    have h0 : xs.length - xs.length % 2 ^ c = 0 := by omega
    rw [h0]
    simp [outer_bits]
  | succ fuel ih =>
    intro c hle
    rcases hm : xs.length - xs.length % 2 ^ c with _ | m'
    · simp [outer_bits]
    · have hmpos : xs.length - xs.length % 2 ^ c ≠ 0 := by omega
      have hmodc : (xs.length - xs.length % 2 ^ c) % 2 ^ c = 0 :=
        mod_sub_mod_eq_zero _ _
      have hcb : c ≤ ctz (m' + 1) := by
        rw [← hm]
        exact ctz_ge_of_mod_eq_zero hmpos hmodc
      obtain ⟨b, hb⟩ : ∃ b, ctz (m' + 1) = b := ⟨_, rfl⟩
      rw [hb] at hcb
      have htmb : Nat.testBit (m' + 1) b = true := by
        rw [← hb]
        exact testBit_ctz (Nat.succ_ne_zero m')
      have hnb : Nat.testBit xs.length b = true := by
        rw [← testBit_sub_mod hcb]
        rw [hm]
        exact htmb
      have hmodeq : ∀ d, c ≤ d → d ≤ b → xs.length % 2 ^ d = xs.length % 2 ^ c := by
        intro d
        induction d with
        | zero =>
          intro h1 h2
          have : c = 0 := by omega
          rw [this]
        | succ d ihd =>
          intro h1 h2
          rcases Nat.lt_or_ge d c with h3 | h3
          · have : c = d + 1 := by omega
            rw [this]
          · have htd : Nat.testBit xs.length d = false := by
              have h4 : Nat.testBit (m' + 1) d = false :=
                testBit_eq_false_of_lt_ctz (Nat.succ_ne_zero m') (by omega)
              rw [← testBit_sub_mod h3, hm]
              exact h4
            rw [mod_pow_succ_of_not_testBit htd]
            exact ihd h3 (by omega)
      have hmodb : xs.length % 2 ^ b = xs.length % 2 ^ c := hmodeq b hcb (Nat.le_refl b)
      have hmodb1 : xs.length % 2 ^ (b + 1) = xs.length % 2 ^ b + 2 ^ b :=
        mod_pow_succ_of_testBit hnb
      have hmle : xs.length % 2 ^ (b + 1) ≤ xs.length := Nat.mod_le _ _
      have hpos : 0 < 2 ^ b := Nat.two_pow_pos b
      have hshift : (m' + 1) >>> (b + 1) <<< (b + 1)
          = (m' + 1) - (m' + 1) % 2 ^ (b + 1) := ctz_shifted_clear (m' + 1) b hb.symm
      have hm21 : (m' + 1) % 2 ^ (b + 1)
          = xs.length % 2 ^ (b + 1) - xs.length % 2 ^ b := by
        have hsplit : m' + 1 = 2 ^ (b + 1) * (xs.length / 2 ^ (b + 1))
            + (xs.length % 2 ^ (b + 1) - xs.length % 2 ^ b) := by
          have hd := Nat.div_add_mod xs.length (2 ^ (b + 1))
          omega
        rw [hsplit]
        exact add_multiple_mod (Dvd.intro _ rfl) (by omega)
      have hm1 : (m' + 1) - (m' + 1) % 2 ^ (b + 1)
          = xs.length - xs.length % 2 ^ (b + 1) := by omega
      have hfuel' : xs.length - xs.length % 2 ^ (b + 1) ≤ fuel := by omega
      have hbW : b < bit_width xs.length := testBit_lt_bit_width hnb
      have hslot : (canonical xs)[b]? = some (some (build b (seg xs b))) := by
        rw [getElem_canonical hbW, if_pos hnb]
      have hlseg : (seg xs b).length = 2 ^ b := length_seg hnb
      have hmap1 : ((List.range (2 ^ b)).reverse).map (leaf_at b (build b (seg xs b)))
          = ((List.range (2 ^ b)).reverse).map (fun i => (seg xs b)[i]?) := by
        apply List.map_congr_left
        intro i hi
        have hilt : i < 2 ^ b := List.mem_range.mp (List.mem_reverse.mp hi)
        rw [leaf_at_build hlseg i, Nat.mod_eq_of_lt hilt]
      have hmap : ((List.range (the_bit b)).reverse).map (leaf_at b (build b (seg xs b)))
          = (seg xs b).reverse.map some := by
        rw [the_bit_eq_pow, hmap1]
        exact range_reverse_map hlseg
      have htail := ih (b + 1) hfuel'
      simp only [outer_bits, List.flatMap_cons, hb, hslot, hshift, hm1, htail, hmap]
      have hsplit2 : xs.take (m' + 1)
          = xs.take (xs.length - xs.length % 2 ^ (b + 1)) ++ seg xs b := by
        have he : m' + 1 = (xs.length - xs.length % 2 ^ (b + 1)) + 2 ^ b := by omega
        rw [he, List.take_add]
        congr 1
        rw [seg_def]
        have he2 : xs.length - xs.length % 2 ^ b - 2 ^ b
            = xs.length - xs.length % 2 ^ (b + 1) := by omega
        rw [he2]
        rfl
      rw [hsplit2, List.reverse_append, List.map_append]

/-- Reverse iteration of a canonical state yields the reversed contents. -/
theorem rev_leaves_inv {stk : Stk} {xs : List Nat} (hinv : Inv stk xs) :
    rev_leaves stk = xs.reverse.map some := by
  obtain ⟨hsz, htr⟩ := hinv
  simp only [rev_leaves, hsz, htr]
  have h0 : xs.length - xs.length % 2 ^ 0 = xs.length := by
    simp [Nat.mod_one]
  have h := @rev_leaves_aux xs xs.length 0 (by omega)
  rw [h0] at h
  rw [List.take_length] at h
  exact h

/-! ## Oracle equivalence -/

theorem naive_has_suffix_eq (values suff : List Nat) :
    naive_has_suffix values suff
      = decide (suff.length ≤ values.length ∧
          values.drop (values.length - suff.length) = suff) := by
  simp only [naive_has_suffix]
  by_cases h : values.length < suff.length
  · rw [if_pos h]
    exact (decide_eq_false (fun hc => absurd hc.1 (by omega))).symm
  · rw [if_neg h]
    have hts : values.reverse.take suff.length
        = (values.drop (values.length - suff.length)).reverse := by
      rw [List.reverse_drop]
      congr 1
      omega
    rw [hts, Bool.eq_iff_iff]
    simp only [beq_iff_eq, decide_eq_true_eq]
    constructor
    · intro heq
      refine ⟨by omega, ?_⟩
      have h2 := congrArg List.reverse heq
      simpa using h2
    · rintro ⟨h1, h2⟩
      rw [h2]

theorem naive_pop_eq (values : List Nat) (k : Nat) :
    naive_pop values k = values.take (values.length - k) := by
  simp only [naive_pop, naive_truncate]
  by_cases h : k > values.length
  · have h1 : values.length - k = 0 := by omega
    rw [if_pos h, h1]
    simp
  · rw [if_neg h]
    have h1 : values.length - k - values.length = 0 := by omega
    rw [h1]
    simp

/-- The tree stack and the naive stack produce identical observation
sequences from any pair of states holding the same leaves. -/
theorem tree_run_eq {stk : Stk} {xs : List Nat} (hinv : Inv stk xs) :
    ∀ ops, tree_run stk ops = some (naive_run xs ops) := by
  intro ops
  induction ops generalizing stk xs with
  | nil => simp [tree_run, naive_run]
  | cons op ops ih =>
    cases op with
    | push v =>
      have happ := append_inv hinv v
      have hinv' : Inv ⟨canonical (xs ++ v), xs.length + v.length⟩ (xs ++ v) :=
        ⟨(List.length_append xs v).symm, rfl⟩
      simp only [tree_run, naive_run, naive_append, happ]
      rw [ih hinv']
      simp only [Option.map_some']
      congr 3
      · exact (List.length_append xs v).symm
      · exact rev_leaves_inv hinv'
    | popN k =>
      have hpop := pop_inv hinv k
      have hinv' : Inv ⟨canonical (xs.take (xs.length - k)), xs.length - k⟩
          (xs.take (xs.length - k)) := by
        refine ⟨?_, rfl⟩
        show xs.length - k = (xs.take (xs.length - k)).length
        rw [List.length_take]
        omega
      simp only [tree_run, naive_run, naive_pop_eq, hpop]
      rw [ih hinv']
      simp only [Option.map_some']
      congr 3
      · show xs.length - k = (xs.take (xs.length - k)).length
        rw [List.length_take]
        omega
      · exact rev_leaves_inv hinv'
    | query s =>
      have hq := has_suffix_correct hinv s
      rw [← naive_has_suffix_eq] at hq
      simp only [tree_run, naive_run, hq]
      rw [ih hinv]
      simp only [Option.map_some']
      congr 3
      · exact hinv.1
      · exact rev_leaves_inv hinv

/-! ## Concatenation of the populated slots -/

/-- The leaves a slot contributes: those of its tree, or nothing for null. -/
def optLeaves : Option Tr → List Nat
  | some t => t.leaves
  | none => []

theorem canonical_flatten_aux {xs : List Nat} : ∀ W,
    (((List.range W).map fun b =>
        if Nat.testBit xs.length b then some (build b (seg xs b)) else none).reverse).flatMap
        optLeaves
      = xs.drop (xs.length - xs.length % 2 ^ W) := by
  intro W
  induction W with
  | zero =>
    simp [Nat.mod_one]
  | succ W ih =>
    rw [List.range_succ, List.map_append, List.reverse_append]
    simp only [List.map_cons, List.map_nil, List.reverse_cons, List.reverse_nil,
      List.nil_append, List.flatMap_cons, List.singleton_append]
    by_cases ht : Nat.testBit xs.length W = true
    · rw [if_pos ht]
      have hm := mod_pow_succ_of_testBit ht
      have hmle := testBit_mod_add_pow_le ht
      have hseg : optLeaves (some (build W (seg xs W))) = seg xs W := by
        simp only [optLeaves]
        exact leaves_build (length_seg ht)
      rw [hseg, ih]
      rw [seg_def]
      have hidx : xs.length - xs.length % 2 ^ W - 2 ^ W
          = xs.length - xs.length % 2 ^ (W + 1) := by omega
      rw [hidx]
      have h2 := @drop_eq_slice_append xs
        (xs.length - xs.length % 2 ^ (W + 1)) (2 ^ W)
      have hidx2 : xs.length - xs.length % 2 ^ (W + 1) + 2 ^ W
          = xs.length - xs.length % 2 ^ W := by omega
      rw [hidx2] at h2
      exact h2.symm
    · have htf : Nat.testBit xs.length W = false := by
        cases hx : Nat.testBit xs.length W
        · rfl
        · exact absurd hx ht
      rw [if_neg (by rw [htf]; exact Bool.false_ne_true)]
      have hm := mod_pow_succ_of_not_testBit htf
      rw [hm]
      simp only [optLeaves, List.nil_append]
      exact ih

/-- Concatenating the populated slots of a canonical state, largest tree
first, restores the contents. -/
theorem canonical_flatten (xs : List Nat) :
    ((canonical xs).reverse).flatMap optLeaves = xs := by
  have h := @canonical_flatten_aux xs (bit_width xs.length)
  rw [Nat.mod_eq_of_lt (lt_two_pow_bit_width _)] at h
  simpa [canonical] using h

/-! ## Coverage of the split table -/

theorem split_left_flatten_aux (P : List Nat) : ∀ W sz, sz < 2 ^ W → sz ≤ P.length →
    (((List.range W).map fun b =>
      if sz &&& the_bit b ≠ 0 then (paired_at P b)[sz &&& (the_bit b - 1)]? else none).flatMap
      optLeaves)
      = P.take sz := by
  intro W
  induction W with
  | zero =>
    intro sz h1 h2
    have h0 : sz = 0 := by
      have : (2:Nat) ^ 0 = 1 := rfl
      omega
    subst h0
    simp
  | succ W ih =>
    intro sz h1 h2
    have hpos : 0 < 2 ^ W := Nat.two_pow_pos W
    have hp1 : 2 ^ (W + 1) = 2 ^ W + 2 ^ W := by
      rw [Nat.pow_succ]
      omega
    rw [List.range_succ, List.map_append, List.flatMap_append]
    have hcongr : ((List.range W).map fun b =>
        if sz &&& the_bit b ≠ 0 then (paired_at P b)[sz &&& (the_bit b - 1)]? else none)
        = ((List.range W).map fun b =>
          if sz % 2 ^ W &&& the_bit b ≠ 0 then
            (paired_at P b)[sz % 2 ^ W &&& (the_bit b - 1)]? else none) := by
      apply List.map_congr_left
      intro b hb
      have hbW : b < W := List.mem_range.mp hb
      have hmm : sz % 2 ^ W % 2 ^ b = sz % 2 ^ b :=
        Nat.mod_mod_of_dvd _ (Nat.pow_dvd_pow 2 (by omega))
      by_cases htb : Nat.testBit sz b = true
      · have htb2 : Nat.testBit (sz % 2 ^ W) b = true := by
          rw [Nat.testBit_mod_two_pow]
          simp [hbW, htb]
        rw [if_pos ((and_the_bit_ne_zero_iff sz b).mpr htb),
          if_pos ((and_the_bit_ne_zero_iff _ b).mpr htb2)]
        rw [the_bit_eq_pow, Nat.and_pow_two_sub_one_eq_mod,
          Nat.and_pow_two_sub_one_eq_mod, hmm]
      · have htb2 : Nat.testBit (sz % 2 ^ W) b = false := by
          rw [Nat.testBit_mod_two_pow]
          simp only [hbW, decide_True, Bool.true_and]
          cases hx : Nat.testBit sz b
          · rfl
          · exact absurd hx htb
        rw [if_neg (fun hg => htb ((and_the_bit_ne_zero_iff sz b).mp hg)),
          if_neg (fun hg => by
            rw [(and_the_bit_ne_zero_iff _ b).mp hg] at htb2
            exact Bool.noConfusion htb2)]
    rw [hcongr, ih (sz % 2 ^ W) (Nat.mod_lt _ hpos) (Nat.le_trans (Nat.mod_le _ _) h2)]
    by_cases ht : Nat.testBit sz W = true
    · have hmle : sz % 2 ^ W + 2 ^ W ≤ sz := testBit_mod_add_pow_le ht
      simp only [List.map_cons, List.map_nil, List.flatMap_cons, List.flatMap_nil,
        List.append_nil]
      rw [if_pos ((and_the_bit_ne_zero_iff sz W).mpr ht)]
      rw [the_bit_eq_pow, Nat.and_pow_two_sub_one_eq_mod]
      rw [getElem_paired_at (by omega)]
      simp only [optLeaves]
      rw [leaves_build (length_slice (by omega))]
      have hsz : sz = sz % 2 ^ W + 2 ^ W := by
        have := mod_pow_succ_of_testBit ht
        have h3 : sz % 2 ^ (W + 1) = sz := Nat.mod_eq_of_lt h1
        omega
      conv_rhs => rw [hsz]
      rw [List.take_add]
      rfl
    · have htf : Nat.testBit sz W = false := by
        cases hx : Nat.testBit sz W
        · rfl
        · exact absurd hx ht
      have hszlt : sz < 2 ^ W := by
        have := mod_pow_succ_of_not_testBit htf
        have h3 : sz % 2 ^ (W + 1) = sz := Nat.mod_eq_of_lt h1
        have h4 : sz % 2 ^ W < 2 ^ W := Nat.mod_lt _ hpos
        omega
      simp only [List.map_cons, List.map_nil, List.flatMap_cons, List.flatMap_nil,
        List.append_nil]
      rw [if_neg (fun hg => by
        rw [(and_the_bit_ne_zero_iff sz W).mp hg] at htf
        exact Bool.noConfusion htf)]
      simp only [optLeaves, List.append_nil]
      rw [Nat.mod_eq_of_lt hszlt]

theorem split_right_flatten_aux (P : List Nat) : ∀ W k, k < 2 ^ W → k ≤ P.length →
    ((((List.range W).map fun b =>
      if k &&& the_bit b ≠ 0 then (paired_at P b).reverse[k &&& (the_bit b - 1)]?
      else none).reverse).flatMap optLeaves)
      = P.drop (P.length - k) := by
  intro W
  induction W with
  | zero =>
    intro k h1 h2
    have h0 : k = 0 := by
      have : (2:Nat) ^ 0 = 1 := rfl
      omega
    subst h0
    simp
  | succ W ih =>
    intro k h1 h2
    have hpos : 0 < 2 ^ W := Nat.two_pow_pos W
    have hp1 : 2 ^ (W + 1) = 2 ^ W + 2 ^ W := by
      rw [Nat.pow_succ]
      omega
    rw [List.range_succ, List.map_append, List.reverse_append]
    simp only [List.map_cons, List.map_nil, List.reverse_cons, List.reverse_nil,
      List.nil_append, List.singleton_append, List.flatMap_cons]
    have hcongr : ((List.range W).map fun b =>
        if k &&& the_bit b ≠ 0 then (paired_at P b).reverse[k &&& (the_bit b - 1)]?
        else none)
        = ((List.range W).map fun b =>
          if k % 2 ^ W &&& the_bit b ≠ 0 then
            (paired_at P b).reverse[k % 2 ^ W &&& (the_bit b - 1)]? else none) := by
      apply List.map_congr_left
      intro b hb
      have hbW : b < W := List.mem_range.mp hb
      have hmm : k % 2 ^ W % 2 ^ b = k % 2 ^ b :=
        Nat.mod_mod_of_dvd _ (Nat.pow_dvd_pow 2 (by omega))
      by_cases htb : Nat.testBit k b = true
      · have htb2 : Nat.testBit (k % 2 ^ W) b = true := by
          rw [Nat.testBit_mod_two_pow]
          simp [hbW, htb]
        rw [if_pos ((and_the_bit_ne_zero_iff k b).mpr htb),
          if_pos ((and_the_bit_ne_zero_iff _ b).mpr htb2)]
        rw [the_bit_eq_pow, Nat.and_pow_two_sub_one_eq_mod,
          Nat.and_pow_two_sub_one_eq_mod, hmm]
      · have htb2 : Nat.testBit (k % 2 ^ W) b = false := by
          rw [Nat.testBit_mod_two_pow]
          simp only [hbW, decide_True, Bool.true_and]
          cases hx : Nat.testBit k b
          · rfl
          · exact absurd hx htb
        rw [if_neg (fun hg => htb ((and_the_bit_ne_zero_iff k b).mp hg)),
          if_neg (fun hg => by
            rw [(and_the_bit_ne_zero_iff _ b).mp hg] at htb2
            exact Bool.noConfusion htb2)]
    rw [hcongr, ih (k % 2 ^ W) (Nat.mod_lt _ hpos) (Nat.le_trans (Nat.mod_le _ _) h2)]
    by_cases ht : Nat.testBit k W = true
    · have hmle : k % 2 ^ W + 2 ^ W ≤ k := testBit_mod_add_pow_le ht
      rw [if_pos ((and_the_bit_ne_zero_iff k W).mpr ht)]
      rw [the_bit_eq_pow, Nat.and_pow_two_sub_one_eq_mod]
      have hplen := length_paired_at P W
      have hlt : k % 2 ^ W < (paired_at P W).length := by omega
      rw [List.getElem?_reverse hlt, hplen]
      have hidx0 : P.length + 1 - 2 ^ W - 1 - k % 2 ^ W
          = P.length - 2 ^ W - k % 2 ^ W := by omega
      rw [hidx0, getElem_paired_at (by omega)]
      simp only [optLeaves]
      rw [leaves_build (length_slice (by omega))]
      have hk : k = k % 2 ^ W + 2 ^ W := by
        have := mod_pow_succ_of_testBit ht
        have h3 : k % 2 ^ (W + 1) = k := Nat.mod_eq_of_lt h1
        omega
      have hidx : P.length - 2 ^ W - k % 2 ^ W = P.length - k := by omega
      rw [hidx]
      have h2d := @drop_eq_slice_append P (P.length - k) (2 ^ W)
      have hidx2 : P.length - k + 2 ^ W = P.length - k % 2 ^ W := by omega
      rw [hidx2] at h2d
      exact h2d.symm
    · have htf : Nat.testBit k W = false := by
        cases hx : Nat.testBit k W
        · rfl
        · exact absurd hx ht
      have hklt : k < 2 ^ W := by
        have := mod_pow_succ_of_not_testBit htf
        have h3 : k % 2 ^ (W + 1) = k := Nat.mod_eq_of_lt h1
        have h4 : k % 2 ^ W < 2 ^ W := Nat.mod_lt _ hpos
        omega
      rw [if_neg (fun hg => by
        rw [(and_the_bit_ne_zero_iff k W).mp hg] at htf
        exact Bool.noConfusion htf)]
      simp only [optLeaves, List.nil_append]
      rw [Nat.mod_eq_of_lt hklt]

/-- The endpoint rows of the split table over P: the `left` of the empty
prefix and the `right` of the empty suffix hold no trees, while the `right`
of the whole string (read largest tree first) and the `left` of the whole
string (read smallest tree first) each concatenate to all the leaves. -/
theorem split_table_endpoints (P : List Nat) :
    split_left P 0 = [] ∧ split_right P 0 = [] ∧
    (split_left P P.length).flatMap optLeaves = P ∧
    ((split_right P P.length).reverse).flatMap optLeaves = P := by
  refine ⟨rfl, rfl, ?_, ?_⟩
  · have h := split_left_flatten_aux P (bit_width P.length) P.length
      (lt_two_pow_bit_width _) (Nat.le_refl _)
    rw [List.take_length] at h
    exact h
  · have h := split_right_flatten_aux P (bit_width P.length) P.length
      (lt_two_pow_bit_width _) (Nat.le_refl _)
    rw [Nat.sub_self, List.drop_zero] at h
    exact h

/-! ## The association value against its specification -/

/-- The association value as the specification's sentence words it: the
largest `r ≤ L` whose set bits form a subset of the set bits of `n` that lie
strictly below `bit_width L` (a refinement definition written from the
spec's words, to be compared with `compute_association`). -/
def spec_association (n L : Nat) : Nat :=
  Nat.findGreatest (fun r => r &&& n % 2 ^ bit_width L = r) L

/-- `compute_association n L` is the largest value `≤ L` of the form
`n mod 2 ^ j`. -/
theorem compute_association_greatest_mod (n L : Nat) :
    (∃ j, compute_association n L = n % 2 ^ j) ∧
    compute_association n L ≤ L ∧
    ∀ j, n % 2 ^ j ≤ L → n % 2 ^ j ≤ compute_association n L := by
  refine ⟨⟨assoc_width n L, compute_association_eq_mod n L⟩,
    compute_association_le n L, ?_⟩
  intro j hj
  rw [compute_association_eq_mod]
  by_cases hjle : j ≤ assoc_width n L
  · calc n % 2 ^ j = (n % 2 ^ assoc_width n L) % 2 ^ j :=
        (Nat.mod_mod_of_dvd _ (Nat.pow_dvd_pow 2 hjle)).symm
    _ ≤ n % 2 ^ assoc_width n L := Nat.mod_le _ _
  · have hwj : bit_width L ≤ j := by
      have h1 := assoc_width_ge n L
      have h2 := assoc_width_le n L
      by_cases hL : L = 0
      · subst hL
        have h0 : bit_width 0 = 0 := rfl
        omega
      · have h3 := bit_width_pos hL
        simp only [assoc_width] at hjle ⊢
        by_cases hc : n % 2 ^ bit_width L ≤ L
        · rw [if_pos hc] at hjle
          omega
        · rw [if_neg hc] at hjle
          omega
    have heq : n % 2 ^ j = n % 2 ^ bit_width L := by
      have h1 : n % 2 ^ j < 2 ^ bit_width L :=
        Nat.lt_of_le_of_lt hj (lt_two_pow_bit_width L)
      have h2 : (n % 2 ^ j) % 2 ^ bit_width L = n % 2 ^ bit_width L :=
        Nat.mod_mod_of_dvd _ (Nat.pow_dvd_pow 2 hwj)
      rw [← Nat.mod_eq_of_lt h1, h2]
    simp only [assoc_width]
    by_cases hc : n % 2 ^ bit_width L ≤ L
    · rw [if_pos hc]
      rw [heq]
    · rw [if_neg hc]
      rw [heq] at hj
      omega

/-! ## The interning arena (`node_arena`)

An `unordered_set` holds one `node` per value and its elements have stable
addresses, so the address `&*found` of an interned node is determined by the
arena that owns it together with the node's two children; a handle is
therefore modelled as `(owner, lhs, rhs)` with the owner tag telling the two
arenas of a chain apart, and a leaf pointer keeps its own identity. The
claim fixes the parent arena as unmutated for the child's lifetime, so the
parent's contents are a constant list. -/

/-- A pointer to a leaf object or to an interned node (owner `0` = the
parent arena, `1` = the child). -/
inductive Handle where
  | leaf (v : Nat)
  | node (owner : Nat) (lhs rhs : Handle)
deriving DecidableEq, Repr

/-- The child arena of a chain: the parent's (unmutated) contents when a
parent exists, and the child's own set of interned node values. -/
structure node_arena where
  parent : Option (List (Handle × Handle))
  nodes : List (Handle × Handle)
deriving DecidableEq, Repr

/-- `node_arena::intern`: probe the parent one level; otherwise emplace in
the own set, which hands back the existing element when the value is already
present. -/
def node_arena.intern (ar : node_arena) (lhs rhs : Handle) : node_arena × Handle :=
  match ar.parent with
  | some pn =>
    if (lhs, rhs) ∈ pn then (ar, .node 0 lhs rhs)
    else (⟨ar.parent,
      if (lhs, rhs) ∈ ar.nodes then ar.nodes else (lhs, rhs) :: ar.nodes⟩,
      .node 1 lhs rhs)
  | none =>
    (⟨ar.parent,
      if (lhs, rhs) ∈ ar.nodes then ar.nodes else (lhs, rhs) :: ar.nodes⟩,
      .node 1 lhs rhs)

/-- The handle `intern` returns, as a function of the two children and the
fixed parent contents alone. -/
def handleFun (pn : Option (List (Handle × Handle))) (lhs rhs : Handle) : Handle :=
  match pn with
  | some ps => if (lhs, rhs) ∈ ps then .node 0 lhs rhs else .node 1 lhs rhs
  | none => .node 1 lhs rhs

theorem intern_handle (ar : node_arena) (lhs rhs : Handle) :
    (ar.intern lhs rhs).2 = handleFun ar.parent lhs rhs := by
  rcases hp : ar.parent with _ | pn
  · simp [node_arena.intern, handleFun, hp]
  · simp only [node_arena.intern, handleFun, hp]
    split
    · rfl
    · rfl

theorem intern_parent (ar : node_arena) (lhs rhs : Handle) :
    (ar.intern lhs rhs).1.parent = ar.parent := by
  rcases hp : ar.parent with _ | pn
  · simp [node_arena.intern, hp]
  · simp only [node_arena.intern, hp]
    split
    · exact hp
    · rfl

/-- Repeated calls with equal arguments return the identical handle and
leave the arena unchanged. -/
theorem intern_repeat (ar : node_arena) (lhs rhs : Handle) :
    ((ar.intern lhs rhs).1.intern lhs rhs).2 = (ar.intern lhs rhs).2 ∧
    ((ar.intern lhs rhs).1.intern lhs rhs).1 = (ar.intern lhs rhs).1 := by
  rcases hp : ar.parent with _ | pn
  · by_cases hm : (lhs, rhs) ∈ ar.nodes
    · simp [node_arena.intern, hp, hm]
    · simp [node_arena.intern, hp, hm]
  · by_cases hpm : (lhs, rhs) ∈ pn
    · simp [node_arena.intern, hp, hpm]
    · by_cases hm : (lhs, rhs) ∈ ar.nodes
      · simp [node_arena.intern, hp, hpm, hm]
      · simp [node_arena.intern, hp, hpm, hm]

/-- Interning a perfect tree shape bottom-up through the child arena. -/
def internTree (ar : node_arena) : Tr → node_arena × Handle
  | .leaf v => (ar, .leaf v)
  | .node l r =>
    let p1 := internTree ar l
    let p2 := internTree p1.1 r
    p2.1.intern p1.2 p2.2

/-- The handle an interned tree shape receives, independent of the child's
own state. -/
def handleTree (pn : Option (List (Handle × Handle))) : Tr → Handle
  | .leaf v => .leaf v
  | .node l r => handleFun pn (handleTree pn l) (handleTree pn r)

theorem internTree_parent (ar : node_arena) (t : Tr) :
    (internTree ar t).1.parent = ar.parent := by
  induction t generalizing ar with
  | leaf v => rfl
  | node l r ihl ihr =>
    simp only [internTree]
    rw [intern_parent, ihr, ihl]

theorem internTree_handle (ar : node_arena) (t : Tr) :
    (internTree ar t).2 = handleTree ar.parent t := by
  induction t generalizing ar with
  | leaf v => rfl
  | node l r ihl ihr =>
    simp only [internTree, handleTree]
    rw [intern_handle, internTree_parent, internTree_parent, ihl, ihr,
      internTree_parent]

theorem handleFun_inj {pn : Option (List (Handle × Handle))} {a b a' b' : Handle}
    (h : handleFun pn a b = handleFun pn a' b') : a = a' ∧ b = b' := by
  cases pn with
  | none =>
    simp only [handleFun] at h
    injection h with h0 h1 h2
    exact ⟨h1, h2⟩
  | some ps =>
    simp only [handleFun] at h
    split at h <;> split at h <;> injection h with h0 h1 h2 <;>
      first
      | exact ⟨h1, h2⟩
      | exact absurd h0 (by decide)

theorem handleTree_inj (pn : Option (List (Handle × Handle))) :
    ∀ {t u : Tr}, handleTree pn t = handleTree pn u → t = u := by
  intro t
  induction t with
  | leaf v =>
    intro u h
    cases u with
    | leaf w =>
      simp only [handleTree] at h
      injection h with h1
      rw [h1]
    | node l' r' =>
      simp only [handleTree] at h
      exfalso
      cases pn with
      | none => exact Handle.noConfusion h
      | some ps =>
        simp only [handleFun] at h
        split at h <;> exact Handle.noConfusion h
  | node l r ihl ihr =>
    intro u h
    cases u with
    | leaf w =>
      simp only [handleTree] at h
      exfalso
      cases pn with
      | none => exact Handle.noConfusion h
      | some ps =>
        simp only [handleFun] at h
        split at h <;> exact Handle.noConfusion h
    | node l' r' =>
      simp only [handleTree] at h
      obtain ⟨h1, h2⟩ := handleFun_inj h
      rw [ihl h1, ihr h2]

/-- Canonicity: over a fixed parent, two interned perfect trees of equal
height have equal handles iff their leaf sequences are equal. -/
theorem intern_canonical {pn : Option (List (Handle × Handle))}
    {ar ar' : node_arena} (hp : ar.parent = pn) (hp' : ar'.parent = pn)
    {b : Nat} {t u : Tr} (ht : t.isPerfect b = true) (hu : u.isPerfect b = true) :
    (internTree ar t).2 = (internTree ar' u).2 ↔ t.leaves = u.leaves := by
  rw [internTree_handle, internTree_handle, hp, hp']
  constructor
  · intro h
    rw [handleTree_inj pn h]
  · intro h
    rw [(isPerfect_eq_iff_leaves ht hu).mpr h]

theorem compute_association_zero (m : Nat) : compute_association m 0 = 0 := by
  have h1 : the_bit (bit_width 0) - 1 = 0 := rfl
  simp only [compute_association, h1, Nat.and_zero]
  rw [if_pos (Nat.le_refl 0)]

/-- The left phase of `append` leaves every slot addressed by the right
phase null (the right-phase assertion of `append`). -/
theorem append_left_phase_nulls {stk : Stk} {xs : List Nat} (hinv : Inv stk xs)
    (v : List Nat) :
    ∃ trees1, append_left_phase stk v = some trees1 ∧
      ∀ b, Nat.testBit (compute_association (xs.length + v.length) v.length) b = true →
        trees1[b]? = some none := by
  obtain ⟨hsz, htr⟩ := hinv
  by_cases hl0 : v.length - compute_association (xs.length + v.length) v.length = 0
  · refine ⟨resize (canonical xs) (bit_width (xs.length + v.length)), ?_, ?_⟩
    · simp only [append_left_phase, hsz, htr]
      rw [if_pos hl0]
    · intro b hb
      by_cases hL : v.length = 0
      · exfalso
        rw [hL, compute_association_zero, Nat.zero_testBit] at hb
        exact Bool.noConfusion hb
      · have hrm : compute_association (xs.length + v.length) v.length
            = (xs.length + v.length)
              % 2 ^ assoc_width (xs.length + v.length) v.length :=
          compute_association_eq_mod _ _
        have hrL : compute_association (xs.length + v.length) v.length ≤ v.length :=
          compute_association_le _ _
        have hnmodj : xs.length
            % 2 ^ assoc_width (xs.length + v.length) v.length = 0 := by
          have hself : xs.length = (xs.length + v.length) - (xs.length + v.length)
              % 2 ^ assoc_width (xs.length + v.length) v.length := by omega
          nth_rewrite 1 [hself]
          exact mod_sub_mod_eq_zero _ _
        have hbwrj : bit_width (compute_association (xs.length + v.length) v.length)
            ≤ assoc_width (xs.length + v.length) v.length :=
          bit_width_le.mpr (by rw [hrm]; exact Nat.mod_lt _ (Nat.two_pow_pos _))
        have hjW : assoc_width (xs.length + v.length) v.length
            ≤ bit_width (xs.length + v.length) := by
          have h1 := assoc_width_le (xs.length + v.length) v.length
          have h2 := bit_width_mono (show v.length ≤ xs.length + v.length by omega)
          omega
        have hbj : b < assoc_width (xs.length + v.length) v.length := by
          have h1 := testBit_lt_bit_width hb
          omega
        rw [resize_canonical_getElem (bit_width_mono (by omega)) (by omega)]
        rw [if_neg (by
          rw [testBit_eq_false_of_mod_eq_zero hnmodj hbj]
          exact Bool.false_ne_true)]
  · have hlpos : 0 < v.length - compute_association (xs.length + v.length) v.length := by
      omega
    obtain ⟨trees1, happ, hlen1, hslot, hlow, hhigh⟩ :=
      append_left_phase_pos ⟨hsz, htr⟩ rfl rfl hlpos rfl
    refine ⟨trees1, happ, ?_⟩
    intro b hb
    apply hlow
    have hrm : compute_association (xs.length + v.length) v.length
        = (xs.length + v.length) % 2 ^ assoc_width (xs.length + v.length) v.length :=
      compute_association_eq_mod _ _
    have hrL : compute_association (xs.length + v.length) v.length ≤ v.length :=
      compute_association_le _ _
    have hmodj : (xs.length + (v.length - compute_association
          (xs.length + v.length) v.length))
        % 2 ^ assoc_width (xs.length + v.length) v.length = 0 := by
      have h1 : xs.length + (v.length - compute_association (xs.length + v.length)
            v.length)
          = (xs.length + v.length) - (xs.length + v.length)
            % 2 ^ assoc_width (xs.length + v.length) v.length := by omega
      rw [h1]
      exact mod_sub_mod_eq_zero _ _
    have hjb2 : assoc_width (xs.length + v.length) v.length
        ≤ ctz (xs.length + (v.length - compute_association (xs.length + v.length)
          v.length)) :=
      ctz_ge_of_mod_eq_zero (by omega) hmodj
    have hbwrj : bit_width (compute_association (xs.length + v.length) v.length)
        ≤ assoc_width (xs.length + v.length) v.length :=
      bit_width_le.mpr (by rw [hrm]; exact Nat.mod_lt _ (Nat.two_pow_pos _))
    have h1 := testBit_lt_bit_width hb
    omega

/-! ## Borrow-phase arithmetic shared by `has_suffix` and `truncate` -/

theorem borrow_core {xs : List Nat} {m r l : Nat} (hm : m ≤ xs.length)
    (hr : r = compute_association xs.length m) (hl : l = m - r) (hlpos : 0 < l) :
    xs.length - r ≠ 0 ∧ 1 ≤ bit_width l ∧ bit_width l ≤ ctz (xs.length - r) ∧
    ∃ t, (canonical xs)[ctz (xs.length - r)]? = some (some t) ∧
      t.isPerfect (ctz (xs.length - r)) = true := by
  have hrm : r = xs.length % 2 ^ assoc_width xs.length m := by
    rw [hr]
    exact compute_association_eq_mod _ _
  have hrle : r ≤ m := by
    rw [hr]
    exact compute_association_le _ _
  have hm0 : m ≠ 0 := by omega
  have hl2 : l < 2 ^ assoc_width xs.length m := by
    have h := sub_compute_association_lt xs.length m hm0
    omega
  have hnr0 : xs.length - r ≠ 0 := by omega
  have hbl : 1 ≤ bit_width l := bit_width_pos (by omega)
  have hblj : bit_width l ≤ assoc_width xs.length m := bit_width_le.mpr hl2
  have hmod : (xs.length - r) % 2 ^ assoc_width xs.length m = 0 := by
    rw [hrm]
    exact mod_sub_mod_eq_zero _ _
  have hjbd : assoc_width xs.length m ≤ ctz (xs.length - r) :=
    ctz_ge_of_mod_eq_zero hnr0 hmod
  have hbit : Nat.testBit (xs.length - r) (ctz (xs.length - r)) = true :=
    testBit_ctz hnr0
  have hrlt : r < 2 ^ assoc_width xs.length m := by
    rw [hrm]
    exact Nat.mod_lt _ (Nat.two_pow_pos _)
  have hdiv : xs.length / 2 ^ assoc_width xs.length m
      = (xs.length - r) / 2 ^ assoc_width xs.length m := by
    have hq := Nat.div_add_mod (xs.length - r) (2 ^ assoc_width xs.length m)
    have hdec : xs.length = 2 ^ assoc_width xs.length m
        * ((xs.length - r) / 2 ^ assoc_width xs.length m) + r := by omega
    exact div_eq_of_decomp hdec hrlt
  have hbitn : Nat.testBit xs.length (ctz (xs.length - r)) = true := by
    rw [testBit_eq_of_div_eq (div_pow_eq_of_div_eq hdiv hjbd)]
    exact hbit
  have hbd : ctz (xs.length - r) < bit_width xs.length := testBit_lt_bit_width hbitn
  refine ⟨hnr0, hbl, by omega,
    build (ctz (xs.length - r)) (seg xs (ctz (xs.length - r))), ?_, ?_⟩
  · rw [getElem_canonical hbd, if_pos hbitn]
  · exact isPerfect_build (length_seg hbitn)

/-! ## The claims -/

/-- C1, suffix soundness: at every reachable state, `has_suffix` answers
(without failing) exactly whether the queried string is element-wise the
stack's top segment; in particular it answers `true` on the empty string
and `false` whenever the string is longer than the stack. -/
theorem C1_suffix_soundness {stk : Stk} {xs : List Nat} (hre : Reach stk xs)
    (s : List Nat) :
    has_suffix stk s
      = some (decide (s.length ≤ xs.length ∧
          xs.drop (xs.length - s.length) = s)) ∧
    (s = [] → has_suffix stk s = some true) ∧
    (xs.length < s.length → has_suffix stk s = some false) := by
  have hmain := has_suffix_correct (reach_inv hre) s
  refine ⟨hmain, ?_, ?_⟩
  · intro hs
    subst hs
    rw [hmain]
    simp [List.drop_length]
  · intro hlt
    rw [hmain]
    congr 1
    simp only [decide_eq_false_iff_not]
    intro hcon
    exact absurd hcon.1 (by omega)

theorem C1_suffix_soundness_witness :
    has_suffix (⟨canonical [1, 2], 2⟩ : Stk) [2] = some true ∧
    has_suffix (⟨canonical [1, 2], 2⟩ : Stk) [1] = some false := by
  have happ : append (⟨[], 0⟩ : Stk) [1, 2] = some ⟨canonical [1, 2], 2⟩ := by
    decide
  constructor
  · have h := C1_suffix_soundness (Reach.app Reach.init happ) [2]
    rw [h.1]
    decide
  · have h := C1_suffix_soundness (Reach.app Reach.init happ) [1]
    rw [h.1]
    decide

/-- C2, oracle equivalence: from any reachable state, running any sequence
of push / pop / query operations on the tree stack produces (without
failing) exactly the observations — sizes, reverse-iteration sequences and
`has_suffix` answers — that the naive stack holding the same leaves
produces. -/
theorem C2_oracle_equivalence {stk : Stk} {xs : List Nat} (hre : Reach stk xs)
    (ops : List Op) : tree_run stk ops = some (naive_run xs ops) :=
  tree_run_eq (reach_inv hre) ops

theorem C2_oracle_equivalence_witness :
    tree_run ⟨[], 0⟩
        [Op.push [1, 2, 3], Op.query [2, 3], Op.popN 2, Op.query [2, 3],
          Op.query [1]]
      = some (naive_run []
        [Op.push [1, 2, 3], Op.query [2, 3], Op.popN 2, Op.query [2, 3],
          Op.query [1]]) :=
  C2_oracle_equivalence Reach.init _

/-- C3, length decomposition: every reachable state satisfies the
invariant — `trees` has length `bit_width n`; slot `b` holds a perfect tree
of size `2 ^ b` (over the matching segment of the contents) exactly when
bit `b` of `n` is set, and null otherwise; and the populated trees, largest
first, concatenate to the contents bottom-to-top. Preservation under every
operation is the statement's closure over `Reach`. -/
theorem C3_length_decomposition {stk : Stk} {xs : List Nat}
    (hre : Reach stk xs) :
    stk.size = xs.length ∧
    stk.trees.length = bit_width stk.size ∧
    (∀ b, b < bit_width stk.size →
      (Nat.testBit stk.size b = true →
        ∃ t, stk.trees[b]? = some (some t) ∧ t.isPerfect b = true ∧
          t.leaves = seg xs b) ∧
      (Nat.testBit stk.size b = false → stk.trees[b]? = some none)) ∧
    (stk.trees.reverse).flatMap optLeaves = xs := by
  obtain ⟨hsz, htr⟩ := reach_inv hre
  refine ⟨hsz, ?_, ?_, ?_⟩
  · rw [htr, hsz, length_canonical]
  · intro b hb
    rw [hsz] at hb
    constructor
    · intro hbit
      rw [hsz] at hbit
      refine ⟨build b (seg xs b), ?_, isPerfect_build (length_seg hbit),
        leaves_build (length_seg hbit)⟩
      rw [htr, getElem_canonical hb, if_pos hbit]
    · intro hbit
      rw [hsz] at hbit
      rw [htr, getElem_canonical hb,
        if_neg (by rw [hbit]; exact Bool.false_ne_true)]
  · rw [htr]
    exact canonical_flatten xs

theorem C3_length_decomposition_witness :
    (⟨canonical [1, 2, 3], 3⟩ : Stk).trees.length = bit_width 3 ∧
    ((⟨canonical [1, 2, 3], 3⟩ : Stk).trees.reverse).flatMap optLeaves
      = [1, 2, 3] := by
  have happ : append (⟨[], 0⟩ : Stk) [1, 2, 3]
      = some ⟨canonical [1, 2, 3], 3⟩ := by decide
  have h := C3_length_decomposition (Reach.app Reach.init happ)
  exact ⟨h.2.1, h.2.2.2⟩

/-- C4, intern determinism and canonicity: with the parent contents fixed,
repeated `intern` calls with equal arguments return the identical handle
and leave the arena unchanged; and two interned perfect trees of equal
height have equal handles iff their leaf sequences are equal element-wise,
regardless of the child arena's own prior contents. -/
theorem C4_intern_determinism_canonicity :
    (∀ (ar : node_arena) (lhs rhs : Handle),
      ((ar.intern lhs rhs).1.intern lhs rhs).2 = (ar.intern lhs rhs).2 ∧
      ((ar.intern lhs rhs).1.intern lhs rhs).1 = (ar.intern lhs rhs).1) ∧
    (∀ (pn : Option (List (Handle × Handle))) (ar ar' : node_arena)
        (b : Nat) (t u : Tr), ar.parent = pn → ar'.parent = pn →
      t.isPerfect b = true → u.isPerfect b = true →
      ((internTree ar t).2 = (internTree ar' u).2 ↔ t.leaves = u.leaves)) :=
  ⟨intern_repeat,
    fun _ _ _ _ _ _ hp hp' ht hu => intern_canonical hp hp' ht hu⟩

theorem C4_intern_determinism_canonicity_witness :
    (((⟨none, []⟩ : node_arena).intern (.leaf 1) (.leaf 2)).1.intern
        (.leaf 1) (.leaf 2)).2
      = ((⟨none, []⟩ : node_arena).intern (.leaf 1) (.leaf 2)).2 ∧
    (internTree ⟨none, []⟩ (Tr.node (Tr.leaf 1) (Tr.leaf 2))).2
      = (internTree ⟨none, [(Handle.leaf 9, Handle.leaf 9)]⟩
          (Tr.node (Tr.leaf 1) (Tr.leaf 2))).2 := by
  refine ⟨(C4_intern_determinism_canonicity.1 ⟨none, []⟩
    (.leaf 1) (.leaf 2)).1, ?_⟩
  exact (C4_intern_determinism_canonicity.2 none ⟨none, []⟩
      ⟨none, [(Handle.leaf 9, Handle.leaf 9)]⟩ 1
      (Tr.node (Tr.leaf 1) (Tr.leaf 2)) (Tr.node (Tr.leaf 1) (Tr.leaf 2))
      rfl rfl (by decide) (by decide)).mpr rfl

/-- C5, push/pop identity: from any reachable state, appending a leaf
sequence `v` and then popping `|v|` elements restores exactly the prior
state — the same size and the identical `trees` vector, hence the same
behaviour of every further operation. -/
theorem C5_push_pop_identity {stk : Stk} {xs : List Nat} (hre : Reach stk xs)
    (v : List Nat) :
    ∃ stk', append stk v = some stk' ∧ pop stk' v.length = some stk := by
  obtain ⟨hsz, htr⟩ := reach_inv hre
  rcases stk with ⟨trees, size⟩
  have hsz' : size = xs.length := hsz
  have htr' : trees = canonical xs := htr
  subst hsz' htr'
  refine ⟨⟨canonical (xs ++ v), xs.length + v.length⟩,
    append_inv ⟨rfl, rfl⟩ v, ?_⟩
  have hinv' : Inv ⟨canonical (xs ++ v), xs.length + v.length⟩ (xs ++ v) :=
    ⟨by simp, rfl⟩
  rw [pop_inv hinv' v.length]
  have h1 : (xs ++ v).length - v.length = xs.length := by
    simp
  rw [h1, List.take_left]

theorem C5_push_pop_identity_witness :
    ∃ stk', append (⟨canonical [5], 1⟩ : Stk) [7] = some stk' ∧
      pop stk' 1 = some (⟨canonical [5], 1⟩ : Stk) := by
  have happ : append (⟨[], 0⟩ : Stk) [5] = some ⟨canonical [5], 1⟩ := by
    decide
  exact C5_push_pop_identity (Reach.app Reach.init happ) [7]

/-- C6, round trip: appending any leaf sequence `v` to the empty stack
succeeds, and reading the result through the reverse iterator and then
reversing that list yields exactly `v`. -/
theorem C6_round_trip (v : List Nat) :
    ∃ stk', append ⟨[], 0⟩ v = some stk' ∧
      (rev_leaves stk').reverse = v.map some := by
  refine ⟨⟨canonical v, v.length⟩, ?_, ?_⟩
  · have h := @append_inv ⟨[], 0⟩ [] ⟨rfl, rfl⟩ v
    simpa using h
  · have hinv' : Inv ⟨canonical v, v.length⟩ v := ⟨rfl, rfl⟩
    rw [rev_leaves_inv hinv']
    simp

/-- C7 (amended): `compute_association n L` is the largest value `r ≤ L`
of the form `n mod 2 ^ j` — not, as the specification words it, the largest
`r ≤ L` whose set bits form a subset of the set bits of `n` below
`bit_width L` (see the counterexample at `n = 7`, `L = 5`). -/
theorem C7_association_value (n L : Nat) :
    (∃ j, compute_association n L = n % 2 ^ j) ∧
    compute_association n L ≤ L ∧
    ∀ j, n % 2 ^ j ≤ L → n % 2 ^ j ≤ compute_association n L :=
  compute_association_greatest_mod n L

theorem C7_association_value_witness :
    compute_association 7 5 ≤ 5 ∧ 7 % 2 ^ 2 ≤ compute_association 7 5 := by
  have h := C7_association_value 7 5
  exact ⟨h.2.1, h.2.2 2 (by decide)⟩

/-- C7, the counterexample: at `n = 7`, `L = 5` the code returns `3`
(`7 mod 4`), while the specification's sentence — the largest `r ≤ 5`
whose set bits lie among the set bits of `7` below `bit_width 5 = 3`,
formalised as `spec_association` — names `5`. -/
theorem C7_counterexample :
    compute_association 7 5 = 3 ∧ spec_association 7 5 = 5 := by decide

/-- C8 (amended): in the split table, `assocs[i].left` holds the trees of
the first `i` leaves (`split_left P i`) and `assocs[i].right` the trees of
the last `L - i` leaves (`split_right P (L - i)`); the empty and full
endpoints are `assocs[0].left` and `assocs[L].right` empty, while
`assocs[L].left` and `assocs[0].right` each concatenate to all `L` leaves —
the reverse of the claim's orientation. -/
theorem C8_split_endpoints (P : List Nat) :
    split_left P 0 = [] ∧ split_right P 0 = [] ∧
    (split_left P P.length).flatMap optLeaves = P ∧
    ((split_right P P.length).reverse).flatMap optLeaves = P :=
  split_table_endpoints P

/-- C8, the counterexample: already on the single-leaf string `P = [0]`,
`assocs[0].right = split_right P 1` and `assocs[1].left = split_left P 1`
are not empty (each holds the whole string), while `assocs[0].left =
split_left P 0` and `assocs[1].right = split_right P 0` are the empty
ones. -/
theorem C8_counterexample :
    split_right [0] 1 ≠ [] ∧ split_left [0] 1 ≠ [] ∧
    split_left [0] 0 = [] ∧ split_right [0] 0 = [] := by decide

/-- C9, right-phase assertions: at every reachable state, the trees vector
the left phase of `append` hands to the right phase is null at every slot
addressed by a set bit of the association value; and in `truncate` (whose
right phase runs first, on the invariant state) every slot addressed by a
set bit of the association value holds a non-null tree. -/
theorem C9_right_phase_assertions {stk : Stk} {xs : List Nat}
    (hre : Reach stk xs) (v : List Nat) (k : Nat) (hk : k ≤ xs.length) :
    (∃ trees1, append_left_phase stk v = some trees1 ∧
      ∀ b, Nat.testBit (compute_association (xs.length + v.length) v.length) b
          = true →
        trees1[b]? = some none) ∧
    (∀ b, Nat.testBit (compute_association xs.length (xs.length - k)) b
        = true →
      ∃ t, stk.trees[b]? = some (some t)) := by
  have hinv := reach_inv hre
  refine ⟨append_left_phase_nulls hinv v, ?_⟩
  intro b hb
  obtain ⟨hsz, htr⟩ := hinv
  rw [compute_association_eq_mod] at hb
  simp only [Nat.testBit_mod_two_pow, Bool.and_eq_true, decide_eq_true_eq] at hb
  obtain ⟨hbj, hbit⟩ := hb
  have hblt : b < bit_width xs.length := testBit_lt_bit_width hbit
  rw [htr, getElem_canonical hblt, if_pos hbit]
  exact ⟨_, rfl⟩

theorem C9_right_phase_assertions_witness :
    (∃ trees1, append_left_phase (⟨canonical [1, 2, 3], 3⟩ : Stk) [4]
        = some trees1 ∧
      ∀ b, Nat.testBit (compute_association 4 1) b = true →
        trees1[b]? = some none) ∧
    (∀ b, Nat.testBit (compute_association 3 2) b = true →
      ∃ t, (⟨canonical [1, 2, 3], 3⟩ : Stk).trees[b]? = some (some t)) := by
  have happ : append (⟨[], 0⟩ : Stk) [1, 2, 3]
      = some ⟨canonical [1, 2, 3], 3⟩ := by decide
  exact C9_right_phase_assertions (Reach.app Reach.init happ) [4] 1 (by decide)

/-- C10, borrow-phase safety: at every reachable state, whenever
`has_suffix` (on a string no longer than the stack) or `truncate` would
enter its borrow phase — the residue `l` after the association value `r` is
positive — the borrow source is sound: `n - r` is non-zero, its lowest set
bit `bd = ctz (n - r)` satisfies `1 ≤ bit_width l ≤ bd`, and slot `bd`
holds a non-null perfect tree of size `2 ^ bd`; consequently the downward
walks only ever cast internal nodes and both operations return a value. -/
theorem C10_borrow_phase_safety {stk : Stk} {xs : List Nat}
    (hre : Reach stk xs) (s : List Nat) (k : Nat) (hk : k ≤ xs.length) :
    ((s.length ≤ xs.length →
        0 < s.length - compute_association xs.length s.length →
        xs.length - compute_association xs.length s.length ≠ 0 ∧
        1 ≤ bit_width (s.length - compute_association xs.length s.length) ∧
        bit_width (s.length - compute_association xs.length s.length)
          ≤ ctz (xs.length - compute_association xs.length s.length) ∧
        ∃ t, stk.trees[ctz (xs.length
              - compute_association xs.length s.length)]?
            = some (some t) ∧
          t.isPerfect (ctz (xs.length
            - compute_association xs.length s.length)) = true) ∧
      (has_suffix stk s).isSome = true) ∧
    ((0 < (xs.length - k) - compute_association xs.length (xs.length - k) →
        xs.length - compute_association xs.length (xs.length - k) ≠ 0 ∧
        1 ≤ bit_width ((xs.length - k)
          - compute_association xs.length (xs.length - k)) ∧
        bit_width ((xs.length - k)
            - compute_association xs.length (xs.length - k))
          ≤ ctz (xs.length - compute_association xs.length (xs.length - k)) ∧
        ∃ t, stk.trees[ctz (xs.length
              - compute_association xs.length (xs.length - k))]?
            = some (some t) ∧
          t.isPerfect (ctz (xs.length
            - compute_association xs.length (xs.length - k))) = true) ∧
      (truncate stk k).isSome = true) := by
  obtain ⟨hsz, htr⟩ := reach_inv hre
  refine ⟨⟨?_, ?_⟩, ?_, ?_⟩
  · intro hsl hpos
    rw [htr]
    exact borrow_core hsl rfl rfl hpos
  · rw [has_suffix_correct ⟨hsz, htr⟩ s]
    rfl
  · intro hpos
    rw [htr]
    exact borrow_core (Nat.sub_le _ _) rfl rfl hpos
  · rw [truncate_inv ⟨hsz, htr⟩ hk]
    rfl

theorem C10_borrow_phase_safety_witness :
    (has_suffix (⟨canonical [1, 2, 3], 3⟩ : Stk) [2, 3]).isSome = true ∧
    (truncate (⟨canonical [1, 2, 3], 3⟩ : Stk) 1).isSome = true := by
  have happ : append (⟨[], 0⟩ : Stk) [1, 2, 3]
      = some ⟨canonical [1, 2, 3], 3⟩ := by decide
  have h := C10_borrow_phase_safety (Reach.app Reach.init happ) [2, 3] 1
    (by decide)
  exact ⟨h.1.2, h.2.2⟩

end SuffStack
